import Mathlib

/-!
# cryptsetup: anti-forensic splitter, plain passphrase hashing, loop-AES keyfiles,
volume keys and device-mapper tables

A shallow embedding of `lib/luks1/af.c`, `lib/crypt_plain.c`,
`lib/loopaes/loopaes.c`, `lib/volumekey.c` and `lib/libdevmapper.c`.

Conventions of the embedding:

* a byte is a `Nat` (values below 256), a buffer is a `List Nat`; a pointer
  `p + off` into a buffer is the pair of the buffer and the offset `off`;
* a C string is the list of its bytes without the terminating NUL;
* `unsigned int` arithmetic is written with an explicit `% 2 ^ 32`;
  `size_t` quantities are buffer sizes and are plain naturals;
* the hash provider (`crypto_backend.h`) and the random source are
  parameters: records of functions over an explicit state;
* `calloc` is taken to succeed unless the `alloc_ok` flag of a function
  says otherwise;
* where a pointer into a buffer is read as a C string, the byte after the
  buffer is taken to be NUL;
* counters that cannot pass the size of a buffer held in memory (`round`,
  `offset`, `key_index`) are plain naturals;
* the allocator and libdevmapper are parameters: a heap that hands out
  blocks the program has not initialised, and a record of the effect of
  every library call over an explicit state, which `logged` instruments
  with the list of the calls made.
-/

namespace Cryptsetup

/-! ## errno values and helpers -/

def EINVAL : Int := 22
def ENOENT : Int := 2
def ENOMEM : Int := 12
def EIO : Int := 5

/-- The bytes of an ASCII string literal (a C string without its NUL). -/
def ascii (s : String) : List Nat := s.data.map Char.toNat

/-- Read `n` bytes at offset `off` of a buffer. -/
def readAt (m : List Nat) (off n : Nat) : List Nat := (m.drop off).take n

/-- Store the bytes `bs` at offset `off` of a buffer (`memcpy(m + off, bs, |bs|)`). -/
def writeAt (m : List Nat) (off : Nat) (bs : List Nat) : List Nat :=
  m.take off ++ bs ++ m.drop (off + bs.length)

/-- Conversion of an `int` to `unsigned int`. -/
def toU32 (v : Int) : Nat := (v % (2 ^ 32 : Int)).toNat

/-- Result of `htonl(iv)` seen as the four bytes in memory: big-endian. -/
def htonl (iv : Nat) : List Nat :=
  [(iv / 2 ^ 24) % 256, (iv / 2 ^ 16) % 256, (iv / 2 ^ 8) % 256, iv % 256]

/-! ## The hash provider and the random source -/

/-- The streaming hash interface of `crypto_backend.h` over a context type `σ`.
`crypt_hash_init` gives `none` when it returns non-zero; `crypt_hash_write`
gives its return code and the new context; `crypt_hash_final` gives its
return code, the bytes it stored in the caller's buffer and the new context. -/
structure HashBackend (σ : Type) where
  crypt_hash_size : List Nat → Int
  crypt_hash_init : List Nat → Option σ
  crypt_hash_write : σ → List Nat → Int × σ
  crypt_hash_final : σ → Nat → Int × List Nat × σ

/-- Random quality levels of `crypt_random_get`. -/
inductive RndQuality where
  | CRYPT_RND_NORMAL
  | CRYPT_RND_KEY
  deriving DecidableEq, Repr

/-- The random source: `crypt_random_get(ctx, buf, len, quality)` gives its
return code, the bytes it stored in `buf` and the new state of the source. -/
structure RandomSource (ρ : Type) where
  crypt_random_get : ρ → Nat → RndQuality → Int × List Nat × ρ

/-- A hash name is supported by the provider with digest size `d ≥ 1` and digest
function `H`: the size is reported, `init` succeeds, writes succeed and
accumulate the message, `final` for at most `d` bytes succeeds, stores the
prefix of the digest of the accumulated message and restarts the context. -/
def HashOK {σ : Type} (B : HashBackend σ) (name : List Nat) (d : Nat)
    (H : List Nat → List Nat) : Prop :=
  B.crypt_hash_size name = (d : Int) ∧ (1 ≤ d ∧ d < 2 ^ 31) ∧ (∀ m, (H m).length = d) ∧
  ∃ inv : σ → List Nat → Prop,
    (∃ s, B.crypt_hash_init name = some s ∧ inv s []) ∧
    (∀ s m bs, inv s m →
      (B.crypt_hash_write s bs).1 = 0 ∧ inv (B.crypt_hash_write s bs).2 (m ++ bs)) ∧
    (∀ s m len, inv s m → len ≤ d →
      (B.crypt_hash_final s len).1 = 0 ∧
      (B.crypt_hash_final s len).2.1 = (H m).take len ∧
      inv (B.crypt_hash_final s len).2.2 [])

/-- Every successful draw of the random source fills the whole buffer. -/
def RandomOK {ρ : Type} (R : RandomSource ρ) : Prop :=
  ∀ s n q, 0 ≤ (R.crypt_random_get s n q).1 → (R.crypt_random_get s n q).2.1.length = n

/-! ## lib/luks1/af.c -/

/-- Function `XORblock(src1, src2, dst, n)`: `dst[j] = src1[j] ^ src2[j]` for `j < n`;
the value is the `n` bytes stored in `dst`. -/
def XORblock (src1 src2 : List Nat) (n : Nat) : List Nat :=
  List.zipWith (fun a b => a ^^^ b) (src1.take n) (src2.take n)

/-- Function `hash_buf(src, dst, iv, len, hash_name)`: the return code and the bytes
stored at `dst`. -/
def hash_buf {σ : Type} (B : HashBackend σ) (src : List Nat) (iv : Nat) (len : Nat)
    (hash_name : List Nat) : Int × List Nat :=
  match B.crypt_hash_init hash_name with
  | none => (-EINVAL, [])
  | some hd =>
    let w1 := B.crypt_hash_write hd (htonl iv)
    if w1.1 ≠ 0 then (w1.1, [])
    else
      let w2 := B.crypt_hash_write w1.2 (src.take len)
      if w2.1 ≠ 0 then (w2.1, [])
      else
        let f := B.crypt_hash_final w2.2 len
        (f.1, f.2.1)

/-- The `for (i = 0; i < blocks; i++)` loop of `diffuse`, with `k` iterations
left; `buf` is the buffer that both call sites pass as `src` and as `dst`.
The value is the return code so far (`0`: loop finished, `1`: returned
early), the buffer and the loop counter. -/
def diffuse_loop {σ : Type} (B : HashBackend σ) (digest_size : Nat) (hash_name : List Nat) :
    Nat → Nat → List Nat → Int × List Nat × Nat
  | 0, i, buf => (0, buf, i)
  | k + 1, i, buf =>
    let off := (digest_size * i) % 2 ^ 32
    let h := hash_buf B (buf.drop off) i digest_size hash_name
    let buf1 := writeAt buf off h.2
    if h.1 ≠ 0 then (1, buf1, i)
    else diffuse_loop B digest_size hash_name k (i + 1) buf1

/-- Function `diffuse(src, dst, size, hash_name)` for `src == dst` (both callers pass
`bufblock` twice): the return code and the buffer afterwards. -/
def diffuse {σ : Type} (B : HashBackend σ) (buf : List Nat) (size : Nat)
    (hash_name : List Nat) : Int × List Nat :=
  let digest_size := toU32 (B.crypt_hash_size hash_name)
  let blocks := (size / digest_size) % 2 ^ 32
  let padding := (size % digest_size) % 2 ^ 32
  let l := diffuse_loop B digest_size hash_name blocks 0 buf
  if l.1 ≠ 0 then (1, l.2.1)
  else if padding ≠ 0 then
    let off := (digest_size * l.2.2) % 2 ^ 32
    let h := hash_buf B (l.2.1.drop off) l.2.2 padding hash_name
    let buf1 := writeAt l.2.1 off h.2
    if h.1 ≠ 0 then (1, buf1) else (0, buf1)
  else (0, l.2.1)

/-- State of `AF_split` when its loop is left. -/
structure SplitLoop (ρ : Type) where
  /-- `true` when the loop ran to its end, `false` on `goto out` -/
  done : Bool
  r : Int
  dst : List Nat
  bufblock : List Nat
  i : Nat
  rng : ρ

/-- The loop of `AF_split` with `k` iterations left. -/
def AF_split_loop {σ ρ : Type} (B : HashBackend σ) (R : RandomSource ρ)
    (blocksize : Nat) (hash : List Nat) :
    Nat → Nat → Int → List Nat → List Nat → ρ → SplitLoop ρ
  | 0, i, r, dst, bufblock, rng => ⟨true, r, dst, bufblock, i, rng⟩
  | k + 1, i, _, dst, bufblock, rng =>
    let g := R.crypt_random_get rng blocksize RndQuality.CRYPT_RND_NORMAL
    let dst1 := writeAt dst (blocksize * i) g.2.1
    if g.1 < 0 then ⟨false, g.1, dst1, bufblock, i, g.2.2⟩
    else
      let x := XORblock (dst1.drop (blocksize * i)) bufblock blocksize
      let d := diffuse B x blocksize hash
      if d.1 ≠ 0 then ⟨false, g.1, dst1, d.2, i, g.2.2⟩
      else AF_split_loop B R blocksize hash k (i + 1) g.1 dst1 d.2 g.2.2

/-- Function `AF_split(src, dst, blocksize, blocknumbers, hash)`: the return code, the
`dst` buffer afterwards and the state of the random source. -/
def AF_split {σ ρ : Type} (B : HashBackend σ) (R : RandomSource ρ) (alloc_ok : Bool)
    (src dst : List Nat) (blocksize blocknumbers : Nat) (hash : List Nat) (rng : ρ) :
    Int × List Nat × ρ :=
  if !alloc_ok then (-ENOMEM, dst, rng)
  else
    let l := AF_split_loop B R blocksize hash ((blocknumbers + 2 ^ 32 - 1) % 2 ^ 32) 0
      (-EINVAL) dst (List.replicate blocksize 0) rng
    if l.done then
      (0, writeAt l.dst (l.i * blocksize) (XORblock src l.bufblock blocksize), l.rng)
    else (l.r, l.dst, l.rng)

/-- The loop of `AF_merge` with `k` iterations left: `none` on `goto out`,
else the buffer block and the loop counter. -/
def AF_merge_loop {σ : Type} (B : HashBackend σ) (src : List Nat)
    (blocksize : Nat) (hash : List Nat) :
    Nat → Nat → List Nat → Option (List Nat × Nat)
  | 0, i, bufblock => some (bufblock, i)
  | k + 1, i, bufblock =>
    let x := XORblock (src.drop (blocksize * i)) bufblock blocksize
    let d := diffuse B x blocksize hash
    if d.1 ≠ 0 then none
    else AF_merge_loop B src blocksize hash k (i + 1) d.2

/-- Function `AF_merge(src, dst, blocksize, blocknumbers, hash)`: the return code and
the `dst` buffer afterwards. -/
def AF_merge {σ : Type} (B : HashBackend σ) (alloc_ok : Bool)
    (src dst : List Nat) (blocksize blocknumbers : Nat) (hash : List Nat) :
    Int × List Nat :=
  if !alloc_ok then (-ENOMEM, dst)
  else
    match AF_merge_loop B src blocksize hash ((blocknumbers + 2 ^ 32 - 1) % 2 ^ 32) 0
        (List.replicate blocksize 0) with
    | none => (-EINVAL, dst)
    | some (bufblock, i) =>
      (0, writeAt dst 0 (XORblock (src.drop (blocksize * i)) bufblock blocksize))

/-! ## lib/crypto_backend/crypto_gcrypt.c (hash part) -/

/-- The digest library behind the gcrypt provider: `gcry_md_map_name`
(`0` for an unknown name), `gcry_md_get_algo_dlen`, and the digest that
`gcry_md_read` returns for the bytes written since the last reset. -/
structure GcryLib where
  gcry_md_map_name : List Nat → Nat
  gcry_md_get_algo_dlen : Nat → Nat
  gcry_md_read : Nat → List Nat → List Nat

/-- The `struct crypt_hash` of the gcrypt provider; `hd` is the content of the
digest handle: the bytes written since the last reset. -/
structure gcrypt_hash where
  hd : List Nat
  hash_id : Nat
  hash_len : Nat

/-- The gcrypt provider: `crypt_hash_size`, `crypt_hash_init`,
`crypt_hash_write`, `crypt_hash_final` of `crypto_gcrypt.c`. -/
def gcrypt_backend (G : GcryLib) : HashBackend gcrypt_hash where
  crypt_hash_size := fun name =>
    if G.gcry_md_map_name name = 0 then -EINVAL
    else (G.gcry_md_get_algo_dlen (G.gcry_md_map_name name) : Int)
  crypt_hash_init := fun name =>
    if G.gcry_md_map_name name = 0 then none
    else some ⟨[], G.gcry_md_map_name name, G.gcry_md_get_algo_dlen (G.gcry_md_map_name name)⟩
  crypt_hash_write := fun ctx buffer => (0, { ctx with hd := ctx.hd ++ buffer })
  crypt_hash_final := fun ctx length =>
    if length > ctx.hash_len then (-EINVAL, [], ctx)
    else (0, (G.gcry_md_read ctx.hash_id ctx.hd).take length, { ctx with hd := [] })

/-- A small digest library used to run the code on concrete inputs: one
algorithm, named `demo`, with a 4-byte digest. -/
def demoLib : GcryLib where
  gcry_md_map_name := fun name => if name = ascii "demo" then 1 else 0
  gcry_md_get_algo_dlen := fun _ => 4
  gcry_md_read := fun _ m =>
    (List.range 4).map fun j => m.foldl (fun a b => (a * 31 + b + 7) % 256) (j + 1)

/-- The digest function of the `demo` algorithm. -/
def demoHash (m : List Nat) : List Nat := demoLib.gcry_md_read 1 m

/-- A random source that never fails and delivers the byte `b` only. -/
def constSource (b : Nat) : RandomSource Unit where
  crypt_random_get := fun _ n _ => (0, List.replicate n b, ())

/-- A random source instrumented with a counter of the bytes it delivered. -/
def metered {ρ : Type} (R : RandomSource ρ) : RandomSource (ρ × Nat) where
  crypt_random_get := fun s n q =>
    let g := R.crypt_random_get s.1 n q
    (g.1, g.2.1, (g.2.2, s.2 + g.2.1.length))

/-! ## The splitter as the specification words it -/

/-- The accumulator of the specification after `n` stripes of `M`: `L` zero
bytes at first, then `buf := diffuse(buf XOR M[i·L .. (i+1)·L), L, H)` for
`i = 0 .. n-1` in order. -/
def af_buf {σ : Type} (B : HashBackend σ) (M : List Nat) (L : Nat) (hash : List Nat) :
    Nat → List Nat
  | 0 => List.replicate L 0
  | n + 1 => (diffuse B (XORblock (af_buf B M L hash n) (readAt M (n * L) L) L) L hash).2

/-- The first `n` draws of `L` bytes at quality `normal`, in draw order. -/
def draws {ρ : Type} (R : RandomSource ρ) (L : Nat) : Nat → ρ → List (List Nat)
  | 0, _ => []
  | n + 1, rng =>
    (R.crypt_random_get rng L RndQuality.CRYPT_RND_NORMAL).2.1 ::
      draws R L n (R.crypt_random_get rng L RndQuality.CRYPT_RND_NORMAL).2.2

/-- The state of the random source after `n` draws of `L` bytes. -/
def rngAfter {ρ : Type} (R : RandomSource ρ) (L : Nat) : Nat → ρ → ρ
  | 0, rng => rng
  | n + 1, rng =>
    rngAfter R L n (R.crypt_random_get rng L RndQuality.CRYPT_RND_NORMAL).2.2

/-- The buffer `M` with its stripe `i` (bytes `i·L .. (i+1)·L`) set to zero. -/
def zeroStripe (M : List Nat) (L i : Nat) : List Nat := writeAt M (i * L) (List.replicate L 0)

/-- Chunk `i` of a block cut into pieces of `d` bytes (the last one shorter
when `d` does not divide the length). -/
def diffuse_chunk (block : List Nat) (d i : Nat) : List Nat := readAt block (d * i) d

/-- Output chunk `i` of the specification of `diffuse`: the first `|chunk_i|`
bytes of `H(be32(i) || chunk_i)`. -/
def diffuse_out (H : List Nat → List Nat) (block : List Nat) (d i : Nat) : List Nat :=
  (H (htonl i ++ diffuse_chunk block d i)).take (diffuse_chunk block d i).length

/-- The specification of `diffuse`: the output chunks of the
`ceil(len / d)` chunks of the block, in order. -/
def diffuse_spec (H : List Nat → List Nat) (d : Nat) (block : List Nat) : List Nat :=
  ((List.range ((block.length + d - 1) / d)).map (diffuse_out H block d)).flatten

/-! ## lib/crypt_plain.c -/

/-- Conversion of an `int` to `size_t` (64 bits). -/
def toSize (v : Int) : Nat := (v % (2 ^ 64 : Int)).toNat

/-- Modelled from the C standard: `isspace` in the C locale. -/
def isspace (c : Nat) : Bool := c == 32 || (9 ≤ c && c ≤ 13)

/-- Modelled from the C standard: `isdigit`. -/
def isdigit (c : Nat) : Bool := 48 ≤ c && c ≤ 57

/-- The digits read by `atoi`, accumulated in base ten up to the first byte
that is not a digit. -/
def atoi_digits : List Nat → Nat → Nat
  | [], acc => acc
  | c :: cs, acc => if isdigit c then atoi_digits cs (acc * 10 + (c - 48)) else acc

/-- Modelled from the C standard: `atoi` skips white space, reads an optional
sign and then decimal digits (the value is taken to fit in an `int`). -/
def atoi (s : List Nat) : Int :=
  match s.dropWhile isspace with
  | 45 :: cs => - (atoi_digits cs 0 : Int)
  | 43 :: cs => (atoi_digits cs 0 : Int)
  | cs => (atoi_digits cs 0 : Int)

/-- The inner loop of `hash`: `for(i = 0; i < round; i++) if
(crypt_hash_write(md, "A", 1)) r = 1;` with `n` iterations left. -/
def hash_write_A {σ : Type} (B : HashBackend σ) : Nat → σ → Int → Int × σ
  | 0, md, r => (r, md)
  | n + 1, md, r =>
    let w := B.crypt_hash_write md [65]
    hash_write_A B n w.2 (if w.1 ≠ 0 then 1 else r)

/-- The local state of `hash` when its loop is left: the return value `r`,
the `key` buffer, the number of rounds made and the hash context. -/
structure PlainHash (σ : Type) where
  r : Int
  key : List Nat
  round : Nat
  md : σ

/-- The loop `for(round = 0; key_size && !r; round++)` of `hash`; `off` is
the position of the pointer `key` in the key buffer. Every round takes
`len ≥ 1` bytes off `key_size`, so the loop ends within `key_size` rounds,
unless `len` is `0`: the first argument bounds the number of rounds, and
`none` stands for a loop that is still running after `key_size` rounds. -/
def hash_loop {σ : Type} (B : HashBackend σ) (passphrase : List Nat) (passphrase_size : Nat) :
    Nat → Nat → Nat → σ → Nat → List Nat → Nat → Option (PlainHash σ)
  | 0, key_size, _, md, round, key, _ =>
    if key_size = 0 then some ⟨0, key, round, md⟩ else none
  | fuel + 1, key_size, len, md, round, key, off =>
    if key_size = 0 then some ⟨0, key, round, md⟩
    else
      let a := hash_write_A B round md 0
      let w := B.crypt_hash_write a.2 (passphrase.take passphrase_size)
      let r1 : Int := if w.1 ≠ 0 then 1 else a.1
      let len1 := if len > key_size then key_size else len
      let f := B.crypt_hash_final w.2 len1
      let r2 : Int := if f.1 ≠ 0 then 1 else r1
      let key1 := writeAt key off f.2.1
      if r2 ≠ 0 then some ⟨r2, key1, round + 1, f.2.2⟩
      else hash_loop B passphrase passphrase_size fuel (key_size - len1) len1 f.2.2
        (round + 1) key1 (off + len1)

/-- The function `hash` of `crypt_plain.c` up to `crypt_hash_destroy`. -/
def hash_run {σ : Type} (B : HashBackend σ) (hash_name : List Nat) (key_size : Nat)
    (key : List Nat) (passphrase_size : Nat) (passphrase : List Nat) :
    Option (Except Int (PlainHash σ)) :=
  match B.crypt_hash_init hash_name with
  | none => some (Except.error (-ENOENT))
  | some md =>
    (hash_loop B passphrase passphrase_size key_size key_size
      (toSize (B.crypt_hash_size hash_name)) md 0 key 0).map Except.ok

/-- The function `hash` of `crypt_plain.c`: the return value and the `key`
buffer; `none` when the loop does not end. -/
def hash {σ : Type} (B : HashBackend σ) (hash_name : List Nat) (key_size : Nat)
    (key : List Nat) (passphrase_size : Nat) (passphrase : List Nat) :
    Option (Int × List Nat) :=
  (hash_run B hash_name key_size key passphrase_size passphrase).map fun
    | Except.error e => (e, key)
    | Except.ok st => (st.r, st.key)

def PLAIN_HASH_LEN_MAX : Nat := 256

/-- The parsing of the hash specification `hash[:hash_length]` at the head of
`crypt_plain_hash`: the error code, or the hash name, `hash_size` and
`pad_size`. -/
def plain_hash_spec (hash_name : List Nat) (key_size : Nat) :
    Except Int (List Nat × Nat × Nat) :=
  if hash_name.length ≥ PLAIN_HASH_LEN_MAX then Except.error (-EINVAL)
  else if 58 ∈ hash_name then
    let hash_size := toSize (atoi ((hash_name.dropWhile (fun c => c != 58)).drop 1))
    if hash_size > key_size then Except.error (-EINVAL)
    else Except.ok (hash_name.takeWhile (fun c => c != 58), hash_size, key_size - hash_size)
  else Except.ok (hash_name, key_size, 0)

/-- Function `crypt_plain_hash(ctx, hash_name, key, key_size, passphrase,
passphrase_size)`: the return value and the `key` buffer; `none` when the
loop of `hash` does not end. -/
def crypt_plain_hash {σ : Type} (B : HashBackend σ) (hash_name : List Nat)
    (key : List Nat) (key_size : Nat) (passphrase : List Nat) (passphrase_size : Nat) :
    Option (Int × List Nat) :=
  match plain_hash_spec hash_name key_size with
  | Except.error e => some (e, key)
  | Except.ok (hash_name_buf, hash_size, pad_size) =>
    match hash B hash_name_buf hash_size key passphrase_size passphrase with
    | none => none
    | some (r, key1) =>
      if r = 0 ∧ pad_size ≠ 0 then
        some (r, writeAt key1 hash_size (List.replicate pad_size 0))
      else some (r, key1)

/-- The key of the specification: the first `key_size` bytes of
`D_0 || D_1 || ...`, where `D_r = H('A' repeated r times || P)`, taken from
`ceil(key_size / d)` digests. -/
def plain_key (H : List Nat → List Nat) (d : Nat) (P : List Nat) (key_size : Nat) : List Nat :=
  (((List.range ((key_size + d - 1) / d)).map
    fun r => H (List.replicate r 65 ++ P)).flatten).take key_size

/-- A provider instrumented with a flag that records whether any
`crypt_hash_write` or `crypt_hash_final` returned non-zero. -/
def flagged {σ : Type} (B : HashBackend σ) : HashBackend (σ × Bool) where
  crypt_hash_size := B.crypt_hash_size
  crypt_hash_init := fun name => (B.crypt_hash_init name).map fun s => (s, false)
  crypt_hash_write := fun s bs =>
    let w := B.crypt_hash_write s.1 bs
    (w.1, (w.2, s.2 || decide (w.1 ≠ 0)))
  crypt_hash_final := fun s n =>
    let f := B.crypt_hash_final s.1 n
    (f.1, f.2.1, (f.2.2, s.2 || decide (f.1 ≠ 0)))

/-- A provider that knows every name with a 4-byte digest and whose writes
fail with `-EIO`, as the kernel provider does when `send` fails. -/
def brokenBackend : HashBackend Unit where
  crypt_hash_size := fun _ => 4
  crypt_hash_init := fun _ => some ()
  crypt_hash_write := fun _ _ => (- EIO, ())
  crypt_hash_final := fun _ n => (0, List.replicate n 0, ())

/-- The return value `r` of `hash` and the failure flag of the instrumented
provider agree: `r = 0` with no failure recorded, or `r = 1` with one. -/
def FlagAgrees (b : Bool) (r : Int) : Prop := (r = 0 ∧ b = false) ∨ (r = 1 ∧ b = true)

/-! ## lib/volumekey.c (allocation) and lib/loopaes/loopaes.c -/

/-- The `struct volume_key`: `keylength` and the key bytes. -/
structure volume_key where
  keylength : Nat
  key : List Nat
  deriving DecidableEq, Repr

/-- The allocator: `malloc n` gives `none` for `NULL`, else the content of the
fresh block (`n` bytes that the program has not initialised). -/
structure Heap where
  malloc : Nat → Option (List Nat)

/-- Function `crypt_alloc_volume_key(keylength, key)`; `hdr` is the size of the
`struct volume_key` without its key bytes. -/
def crypt_alloc_volume_key (M : Heap) (hdr : Nat) (keylength : Nat) (key : Option (List Nat)) :
    Option volume_key :=
  match M.malloc (hdr + keylength) with
  | none => none
  | some block =>
    match key with
    | some k => some ⟨keylength, k.take keylength ++ (block.drop hdr).drop keylength⟩
    | none => some ⟨keylength, block.drop hdr⟩

/-- Modelled from the spec: the constant `LOOPAES_KEYS_MAX` of `loopaes.h`,
which is not among the sources; the largest record count that the
specification accepts is 65. -/
def LOOPAES_KEYS_MAX : Nat := 65

/-- Function `get_hash(key_size)`; `none` is `NULL`. -/
def get_hash (key_size : Nat) : Option (List Nat) :=
  if key_size = 16 then some (ascii "sha256")
  else if key_size = 24 then some (ascii "sha384")
  else if key_size = 32 then some (ascii "sha512")
  else none

/-- Function `get_tweak(keys_count)`. -/
def get_tweak (keys_count : Nat) : Nat :=
  if keys_count = 64 then 0x55
  else if keys_count = 65 then 0xF4
  else 0x00

/-- Function `strlen(p)` for a pointer at offset `off` of a buffer; the byte after the
buffer is taken to be NUL. -/
def strlen_at (buffer : List Nat) (off : Nat) : Nat :=
  ((buffer.drop off).takeWhile (fun c => c != 0)).length

/-- Function `hash_key(src, src_len, dst, dst_len, hash_name)`: the return code and the
bytes stored at `dst`. -/
def hash_key {σ : Type} (B : HashBackend σ) (src : List Nat) (src_len : Nat) (dst_len : Nat)
    (hash_name : List Nat) : Int × List Nat :=
  match B.crypt_hash_init hash_name with
  | none => (-EINVAL, [])
  | some hd =>
    let w := B.crypt_hash_write hd (src.take src_len)
    if w.1 ≠ 0 then (w.1, [])
    else
      let f := B.crypt_hash_final w.2 dst_len
      (f.1, f.2.1)

/-- The `for (i = 0; i < keys_count; i++)` loop of `hash_keys`; `keys` are the
pointers `input_keys[i], ...` still to process, as offsets into `buffer`. The
value is the last return code and the key bytes. -/
def hash_keys_loop {σ : Type} (B : HashBackend σ) (buffer : List Nat) (hash_name : List Nat)
    (tweak key_len_input key_len_output : Nat) :
    List Nat → Nat → Int → List Nat → Int × List Nat
  | [], _, r, key => (r, key)
  | k :: ks, i, _, key =>
    let h := hash_key B (buffer.drop k) key_len_input key_len_output hash_name
    let key1 := writeAt key (i * key_len_output) h.2
    if h.1 < 0 then (h.1, key1)
    else
      let key2 := writeAt key1 (i * key_len_output)
        [(key1.getD (i * key_len_output) 0) ^^^ tweak]
      hash_keys_loop B buffer hash_name tweak key_len_input key_len_output ks (i + 1) h.1 key2

/-- Function `hash_keys(cd, vk, hash_override, input_keys, keys_count, key_len_output)`:
the return code and `*vk` afterwards (`vk0` is `*vk` before the call). The
local `r` is assigned by the first iteration of the loop, which is reached
with `keys_count ≠ 0` only; the loop starts here from `0`. -/
def hash_keys {σ : Type} (B : HashBackend σ) (M : Heap) (hdr : Nat)
    (vk0 : Option volume_key) (hash_override : Option (List Nat)) (buffer : List Nat)
    (input_keys : List Nat) (keys_count : Nat) (key_len_output : Nat) :
    Int × Option volume_key :=
  let hash_name := match hash_override with
    | some h => some h
    | none => get_hash key_len_output
  let tweak := get_tweak keys_count
  let key_len_input := strlen_at buffer (input_keys.getD 0 0)
  match hash_name with
  | none => (-EINVAL, vk0)
  | some hash_name =>
    if keys_count = 0 ∨ key_len_output = 0 ∨ key_len_input = 0 then (-EINVAL, vk0)
    else
      match crypt_alloc_volume_key M hdr ((key_len_output * keys_count) % 2 ^ 32) none with
      | none => (-ENOMEM, none)
      | some vk =>
        let l := hash_keys_loop B buffer hash_name tweak key_len_input key_len_output
          (input_keys.take keys_count) 0 0 vk.key
        if l.1 < 0 then (l.1, none) else (l.1, some { vk with key := l.2 })

/-- Modelled from the C standard: `strstr(haystack, needle) != NULL`. -/
def strstr (haystack needle : List Nat) : Bool :=
  haystack.tails.any fun t => needle.isPrefixOf t

/-- Function `keyfile_is_gpg(buffer, buffer_len)`, called with `buffer_len ≠ 0`: the
result and the buffer afterwards. A store at `buffer[index]` outside the
buffer leaves the list as it is, and the string that `strstr` reads ends at
the NUL stored at `index`. -/
def keyfile_is_gpg (buffer : List Nat) : Int × List Nat :=
  let index : Nat := if buffer.length < 100 then buffer.length - 1 else 100
  let eos := buffer.getD index 0
  let buffer1 := buffer.set index 0
  let r : Int := if strstr (buffer1.takeWhile (fun c => c != 0))
    (ascii "BEGIN PGP MESSAGE") then 1 else 0
  (r, buffer1.set index eos)

/-- The body of the loop `Remove EOL in buffer`: a `\n` or `\r` becomes NUL. -/
def remove_eol (c : Nat) : Nat := if c = 10 ∨ c = 13 then 0 else c

/-- The scanning loop of `LOOPAES_parse_keyfile` with `n` free entries left
in `keys`: the pointers found (offsets into the buffer) and `offset`. -/
def scan_keys (buffer : List Nat) : Nat → Nat → List Nat → List Nat × Nat
  | 0, offset, keys => (keys, offset)
  | n + 1, offset, keys =>
    if offset < buffer.length then
      let o1 := offset + ((buffer.drop offset).takeWhile (fun c => c != 0)).length
      let o2 := o1 + ((buffer.drop o1).takeWhile (fun c => c == 0)).length
      scan_keys buffer n o2 (keys ++ [offset])
    else (keys, offset)

/-- Function `LOOPAES_parse_keyfile(cd, vk, hash, keys_count, buffer, buffer_len)`: the
return code, `*vk` and `*keys_count` afterwards (`vk0`, `kc0` before the
call); `key_size` is `crypt_get_volume_key_size(cd)` and `buffer_len` is the
length of `buffer`, taken to fit the `unsigned` counters of the function. -/
def LOOPAES_parse_keyfile {σ : Type} (B : HashBackend σ) (M : Heap) (hdr : Nat)
    (key_size : Nat) (vk0 : Option volume_key) (hash : Option (List Nat)) (kc0 : Nat)
    (buffer : List Nat) : Int × Option volume_key × Nat :=
  if buffer.length = 0 then (-EINVAL, vk0, kc0)
  else
    let g := keyfile_is_gpg buffer
    if g.1 ≠ 0 then (-EINVAL, vk0, kc0)
    else
      let buffer1 := g.2.map remove_eol
      let s := scan_keys buffer1 LOOPAES_KEYS_MAX 0 []
      let keys := s.1
      let offset := s.2
      let key_index := keys.length
      let key_len0 := if key_index ≠ 0 then strlen_at buffer1 (keys.getD 0 0) else 0
      let key_len := if keys.all (fun k => strlen_at buffer1 k == key_len0) then key_len0 else 0
      if offset ≠ buffer.length ∨ key_len = 0 ∨
          (key_index ≠ 1 ∧ key_index ≠ 64 ∧ key_index ≠ 65) then (-EINVAL, vk0, kc0)
      else
        let h := hash_keys B M hdr vk0 hash buffer1 keys key_index key_size
        (h.1, h.2, key_index)

/-- The separators of a loop-AES key file as the code handles them: `\n`,
`\r` and NUL. -/
def isKeySep (c : Nat) : Bool := c == 10 || c == 13 || c == 0

/-- The records of a key file: the buffer is cut at every run of separator
bytes; a run at the end closes the last record and a run at the very start
leaves an empty first record. The first argument bounds the number of
records (the length of the buffer is enough). -/
def keyfile_records : Nat → List Nat → List (List Nat)
  | 0, _ => []
  | n + 1, buf =>
    if buf = [] then []
    else
      buf.takeWhile (fun c => !isKeySep c) ::
        keyfile_records n ((buf.dropWhile (fun c => !isKeySep c)).dropWhile isKeySep)

/-- The records obtained by cutting the buffer at `\n` and `\r` only, as the
specification words it. -/
def keyfile_lines : Nat → List Nat → List (List Nat)
  | 0, _ => []
  | n + 1, buf =>
    if buf = [] then []
    else
      buf.takeWhile (fun c => !(c == 10 || c == 13)) ::
        keyfile_lines n ((buf.dropWhile (fun c => !(c == 10 || c == 13))).dropWhile
          (fun c => c == 10 || c == 13))

/-- A heap whose fresh blocks are filled with the byte `0xAA`. -/
def demoHeap : Heap where
  malloc := fun n => some (List.replicate n 0xAA)

/-- A key file of two lines: the first holds one byte, the second holds 63
one-byte strings separated by NUL bytes. -/
def nulKeyfile : List Nat := [97, 10] ++ (List.replicate 62 [97, 0]).flatten ++ [97, 10]

/-- A hashed record with its first byte XORed with the tweak; the other
bytes are kept. -/
def tweak_first (tweak : Nat) : List Nat → List Nat
  | [] => []
  | b :: bs => (b ^^^ tweak) :: bs

/-- The hash for loop-AES records as the specification words it: the
override when given, else by output key length 16 → sha256, 24 → sha384,
32 → sha512; `none` when there is no such hash. -/
def loopaes_hash (hash_override : Option (List Nat)) (key_len_output : Nat) :
    Option (List Nat) :=
  match hash_override with
  | some h => some h
  | none =>
    if key_len_output = 16 then some (ascii "sha256")
    else if key_len_output = 24 then some (ascii "sha384")
    else if key_len_output = 32 then some (ascii "sha512")
    else none

/-- Function `crypt_free_volume_key(vk)`: the block as it is when it is handed to
`free`, and `none` when `free` is not called (`vk` is `NULL`). -/
def crypt_free_volume_key (vk : Option volume_key) : Option volume_key :=
  match vk with
  | none => none
  | some v =>
    let key1 := writeAt v.key 0 (List.replicate v.keylength 0)
    some { keylength := 0, key := key1 }

/-- Function `crypt_generate_volume_key(cd, keylength)`: the returned key (`none` is
`NULL`), the block handed to `free` if any, and the random source afterwards. -/
def crypt_generate_volume_key {ρ : Type} (M : Heap) (R : RandomSource ρ) (hdr : Nat)
    (keylength : Nat) (rng : ρ) : Option volume_key × Option volume_key × ρ :=
  match crypt_alloc_volume_key M hdr keylength none with
  | none => (none, none, rng)
  | some vk =>
    let g := R.crypt_random_get rng keylength RndQuality.CRYPT_RND_KEY
    let vk1 : volume_key := { vk with key := writeAt vk.key 0 g.2.1 }
    if g.1 < 0 then (none, crypt_free_volume_key (some vk1), g.2.2)
    else (some vk1, none, g.2.2)

/-- A random source with a stock of entropy: a draw of `n` bytes with at least
`n` left stores `n` bytes `7` for quality `CRYPT_RND_KEY` and `n` bytes `1` for
`CRYPT_RND_NORMAL`; with less left it stores the bytes it has and fails with
`-EIO`. -/
def stockSource : RandomSource Nat where
  crypt_random_get := fun s n q =>
    let b := match q with
      | RndQuality.CRYPT_RND_KEY => 7
      | RndQuality.CRYPT_RND_NORMAL => 1
    if n ≤ s then (0, List.replicate n b, s - n) else (- EIO, List.replicate s b, 0)

/-! ## lib/libdevmapper.c: the table line of the crypt target -/

/-- The C string at the start of a buffer: the bytes before the first NUL; the
byte after the buffer is taken to be NUL. -/
def cstr (b : List Nat) : List Nat := b.takeWhile (fun c => c != 0)

/-- Modelled from the C standard: the conversion `%02x` of `sprintf` for an
`unsigned` value: the lower-case hexadecimal digits of the value, padded
with `0` on the left to at least two characters. -/
def fmt_02x (v : Nat) : List Nat :=
  List.replicate (2 - (Nat.toDigits 16 v).length) 48 ++ (Nat.toDigits 16 v).map Char.toNat

/-- Modelled from the C standard: the conversion `%PRIu64` of `sprintf`: the
decimal digits of the value. -/
def fmt_u64 (v : Nat) : List Nat := (Nat.toDigits 10 v).map Char.toNat

/-- The loop of `hex_key` with `n` bytes left to convert, at index `i`: each
`sprintf(&hexkey[i * 2], "%02x", (unsigned char)key[i])` stores the digits and
a NUL. -/
def hex_key_loop (key : List Nat) : Nat → Nat → List Nat → List Nat
  | 0, _, hexkey => hexkey
  | n + 1, i, hexkey =>
    hex_key_loop key n (i + 1) (writeAt hexkey (i * 2) (fmt_02x (key.getD i 0 % 256) ++ [0]))

/-- Function `hex_key(hexkey, key_size, key)`: the buffer `hexkey` afterwards;
`key_size` is taken to fit the `unsigned` counter `i` and the index `i * 2`. -/
def hex_key (hexkey : List Nat) (key_size : Nat) (key : List Nat) : List Nat :=
  hex_key_loop key key_size 0 hexkey

/-- The allocator `crypt_safe_alloc(size)`, which is not among the sources, taken
from the allocator parameter: `none` is `NULL`, else the fresh block, whose
content the caller has not set. -/
def crypt_safe_alloc (M : Heap) (size : Nat) : Option (List Nat) := M.malloc size

/-- Function `get_params(device, skip, offset, cipher, key_size, key)`: `none` is `NULL`,
else the buffer `params` after the `sprintf`; the string returned is the C string
in it. The strings `cipher` and `device` are given by the buffers they start. -/
def get_params (M : Heap) (device : List Nat) (skip offset : Nat) (cipher : List Nat)
    (key_size : Nat) (key : List Nat) : Option (List Nat) :=
  match crypt_safe_alloc M (key_size * 2 + 1) with
  | none => none
  | some hexkey0 =>
    let hexkey := hex_key hexkey0 key_size key
    match crypt_safe_alloc M
        ((cstr hexkey).length + (cstr cipher).length + (cstr device).length + 64) with
    | none => none
    | some params =>
      some (writeAt params 0 (cstr cipher ++ [32] ++ cstr hexkey ++ [32] ++ fmt_u64 skip ++
        [32] ++ cstr device ++ [32] ++ fmt_u64 offset ++ [0]))

/-- The hexadecimal digit of a nibble as the specification words it: `0`-`9`,
then lower-case `a`-`f`. -/
def hexdigit (n : Nat) : Nat := (ascii "0123456789abcdef").getD n 0

/-- The hex key as the specification words it: for every key byte the digit of
its high nibble and the digit of its low nibble. -/
def hexkey_spec (key : List Nat) : List Nat :=
  (key.map fun b => [hexdigit (b / 16 % 16), hexdigit (b % 16)]).flatten

/-! ## lib/libdevmapper.c: the DM-UUID -/

def DM_UUID_LEN : Nat := 129

def UUID_LEN : Nat := 37

/-- Modelled from the C standard: `isxdigit(c)`. -/
def isxdigit (c : Nat) : Bool :=
  (48 ≤ c && c ≤ 57) || (65 ≤ c && c ≤ 70) || (97 ≤ c && c ≤ 102)

/-- Modelled from libuuid: `uuid_parse(in, uu)` returns 0 when the string `in` has
36 characters, `-` at the places 8, 13, 18 and 23 and hexadecimal digits at
the others, and -1 otherwise. -/
def uuid_parse (uuid : List Nat) : Int :=
  if (cstr uuid).length = 36 ∧
      ((List.range 36).all fun i =>
        if i = 8 ∨ i = 13 ∨ i = 18 ∨ i = 23 then (cstr uuid).getD i 0 == 45
        else isxdigit ((cstr uuid).getD i 0)) then 0
  else -1

/-- The loop `Remove '-' chars` of `dm_prepare_uuid` with `n` iterations left:
`uuid2` afterwards; `ptr` is the offset of the pointer into `uuid2`. -/
def remove_dashes_loop (uuid : List Nat) : Nat → Nat → Nat → List Nat → List Nat
  | 0, _, _, uuid2 => uuid2
  | n + 1, i, ptr, uuid2 =>
    if uuid.getD i 0 ≠ 45 then
      remove_dashes_loop uuid n (i + 1) (ptr + 1) (writeAt uuid2 ptr [uuid.getD i 0])
    else remove_dashes_loop uuid n (i + 1) ptr uuid2

/-- Modelled from the C standard: the buffer after `snprintf(buf, buflen, ...)`
when the whole output would be `text`: at most `buflen - 1` characters and a
NUL, nothing for `buflen = 0`. -/
def snprintf (buflen : Nat) (text : List Nat) : List Nat :=
  if buflen = 0 then [] else text.take (buflen - 1) ++ [0]

/-- Function `dm_prepare_uuid(name, type, uuid, buf, buflen)`: the bytes stored in
`buf` and whether the truncation was reported by `log_err`; `none` is a null
`type` or `uuid`. -/
def dm_prepare_uuid (name : List Nat) (type uuid : Option (List Nat)) (buflen : Nat) :
    List Nat × Bool :=
  let uuid2_0 := List.replicate UUID_LEN 0
  let uuid2 := match uuid with
    | some u => if uuid_parse u = 0 then remove_dashes_loop u UUID_LEN 0 0 uuid2_0 else uuid2_0
    | none => uuid2_0
  let text := ascii "CRYPT-" ++
    (match type with
      | some t => cstr t
      | none => []) ++
    (if type.isSome then ascii "-" else []) ++
    (if uuid2.getD 0 0 ≠ 0 then cstr uuid2 else []) ++
    (if uuid2.getD 0 0 ≠ 0 then ascii "-" else []) ++
    cstr name
  let i := text.length % 2 ^ 32
  (snprintf buflen text, decide (i ≥ buflen))

/-! ## lib/libdevmapper.c: the device-mapper library and the tasks -/

/-- The task types of libdevmapper that the program uses. -/
inductive dm_task_type where
  | DM_DEVICE_CREATE
  | DM_DEVICE_RELOAD
  | DM_DEVICE_REMOVE
  | DM_DEVICE_SUSPEND
  | DM_DEVICE_RESUME
  | DM_DEVICE_CLEAR
  | DM_DEVICE_STATUS
  | DM_DEVICE_TABLE
  | DM_DEVICE_LIST_VERSIONS
  | DM_DEVICE_TARGET_MSG
  deriving DecidableEq, Repr

/-- The calls that the program makes to libdevmapper, libudev and the system,
with their arguments; a call on a task carries the type of the task. -/
inductive dm_call where
  | _dm_use_udev
  | dm_task_create (task : dm_task_type)
  | dm_task_set_name (task : dm_task_type) (name : List Nat)
  | dm_task_set_uuid (task : dm_task_type) (uuid : List Nat)
  | _dm_task_set_cookie (task : dm_task_type) (flags : Nat)
  | _dm_udev_wait (cookie : Nat)
  | dm_task_secure_data (task : dm_task_type)
  | dm_task_set_ro (task : dm_task_type)
  | dm_task_no_open_count (task : dm_task_type)
  | dm_task_add_target (task : dm_task_type) (start size : Nat) (ttype params : List Nat)
  | device_read_ahead (device : List Nat)
  | dm_task_set_read_ahead (task : dm_task_type) (read_ahead : Nat)
  | dm_task_set_sector (task : dm_task_type) (sector : Nat)
  | dm_task_set_message (task : dm_task_type) (message : List Nat)
  | dm_task_run (task : dm_task_type)
  | dm_task_get_info (task : dm_task_type)
  | dm_task_get_driver_version (task : dm_task_type)
  | dm_task_get_versions (task : dm_task_type)
  | dm_task_destroy (task : dm_task_type)
  | dm_task_update_nodes
  | sleep (seconds : Nat)
  deriving DecidableEq, Repr

/-- What a call gives back: the return value `r` (0 is failure or `NULL` for
the calls of libdevmapper), a number stored through a pointer argument (the
cookie, the read-ahead), a string stored in a buffer argument (the driver
version) and the list of targets of `dm_task_get_versions` (name and three
version numbers each). -/
structure dm_reply where
  r : Int
  value : Nat
  text : List Nat
  targets : List (List Nat × Nat × Nat × Nat)
  deriving DecidableEq, Repr

/-- The device-mapper environment: a state and the effect of every call. -/
structure DmLib (κ : Type) where
  call : κ → dm_call → dm_reply × κ

/-- The capability word `_dm_crypt_flags`; the flag constants are not among
the sources and are taken to be distinct bits, so the word is one boolean
per flag. -/
structure crypt_flags where
  DM_KEY_WIPE_SUPPORTED : Bool
  DM_LMK_SUPPORTED : Bool
  DM_SECURE_SUPPORTED : Bool
  DM_PLAIN64_SUPPORTED : Bool
  deriving DecidableEq, Repr

/-- The static variables `_dm_crypt_checked` and `_dm_crypt_flags`. -/
structure dm_globals where
  _dm_crypt_checked : Int
  _dm_crypt_flags : crypt_flags
  deriving DecidableEq, Repr

def RETRY_COUNT : Nat := 5

def DM_CRYPT_TARGET : List Nat := ascii "crypt"

/-- Modelled from libdevmapper.h: the udev flags of temporary devices,
`DM_UDEV_DISABLE_SUBSYSTEM_RULES_FLAG | DM_UDEV_DISABLE_DISK_RULES_FLAG |
DM_UDEV_DISABLE_OTHER_RULES_FLAG`. -/
def CRYPT_TEMP_UDEV_FLAGS : Nat := 0x0002 ||| 0x0004 ||| 0x0008

/-- Modelled from the C standard: one conversion `%u` of `sscanf`: white space
is skipped, a sign may precede the digits, the value is reduced to
`unsigned`; the result is the value and the rest of the input, `none` when
there is no digit. -/
def scan_u (s : List Nat) : Option (Nat × List Nat) :=
  let s1 := s.dropWhile isspace
  let neg := s1.head? == some 45
  let s2 := if s1.head? == some 45 ∨ s1.head? == some 43 then s1.drop 1 else s1
  let ds := s2.takeWhile isdigit
  if ds = [] then none
  else
    let v := (atoi_digits ds 0) % 2 ^ 32
    some (if neg then (2 ^ 32 - v) % 2 ^ 32 else v, s2.dropWhile isdigit)

/-- Modelled from the C standard: `sscanf(s, "%u.%u.%u", &a, &b, &c)`; `none`
when fewer than three numbers are converted. -/
def sscanf_version (s : List Nat) : Option (Nat × Nat × Nat) :=
  match scan_u s with
  | none => none
  | some (a, r1) =>
    if r1.head? ≠ some 46 then none
    else
      match scan_u (r1.drop 1) with
      | none => none
      | some (b, r2) =>
        if r2.head? ≠ some 46 then none
        else
          match scan_u (r2.drop 1) with
          | none => none
          | some (c, _) => some (a, b, c)

/-- Function `_dm_set_crypt_compat(dm_version, crypt_maj, crypt_min, crypt_patch)`: the
static variables afterwards. -/
def _dm_set_crypt_compat (dm_version : List Nat) (crypt_maj crypt_min crypt_patch : Nat)
    (g : dm_globals) : dm_globals :=
  let dm := match sscanf_version (cstr dm_version) with
    | some v => v
    | none => (0, 0, 0)
  let dm_maj := dm.1
  let dm_min := dm.2.1
  let f0 := g._dm_crypt_flags
  let f1 := if crypt_maj ≥ 1 ∧ crypt_min ≥ 2 then { f0 with DM_KEY_WIPE_SUPPORTED := true } else f0
  let f2 := if crypt_maj ≥ 1 ∧ crypt_min ≥ 10 then { f1 with DM_LMK_SUPPORTED := true } else f1
  let f3 := if dm_maj ≥ 4 ∧ dm_min ≥ 20 then { f2 with DM_SECURE_SUPPORTED := true } else f2
  let f4 := if crypt_maj ≥ 1 ∧ crypt_min ≥ 8 then { f3 with DM_PLAIN64_SUPPORTED := true } else f3
  { _dm_crypt_checked := if crypt_maj > 0 then 1 else g._dm_crypt_checked,
    _dm_crypt_flags := f4 }

/-- Function `_dm_check_versions()`: the return value, the static variables and the
environment afterwards. The list of `dm_task_get_versions` is walked from its
first entry to its last. -/
def _dm_check_versions {κ : Type} (L : DmLib κ) (g : dm_globals) (k : κ) :
    Int × dm_globals × κ :=
  if g._dm_crypt_checked ≠ 0 then (1, g, k)
  else
    let c := L.call k (dm_call.dm_task_create dm_task_type.DM_DEVICE_LIST_VERSIONS)
    if c.1.r = 0 then (0, g, c.2)
    else
      let run := L.call c.2 (dm_call.dm_task_run dm_task_type.DM_DEVICE_LIST_VERSIONS)
      if run.1.r = 0 then
        (0, g, (L.call run.2 (dm_call.dm_task_destroy dm_task_type.DM_DEVICE_LIST_VERSIONS)).2)
      else
        let dv := L.call run.2
          (dm_call.dm_task_get_driver_version dm_task_type.DM_DEVICE_LIST_VERSIONS)
        if dv.1.r = 0 then
          (0, g, (L.call dv.2 (dm_call.dm_task_destroy dm_task_type.DM_DEVICE_LIST_VERSIONS)).2)
        else
          let tv := L.call dv.2
            (dm_call.dm_task_get_versions dm_task_type.DM_DEVICE_LIST_VERSIONS)
          let g1 := tv.1.targets.foldl (fun g0 target =>
            if cstr target.1 = DM_CRYPT_TARGET then
              _dm_set_crypt_compat dv.1.text target.2.1 target.2.2.1 target.2.2.2 g0
            else g0) g
          (1, g1, (L.call tv.2 (dm_call.dm_task_destroy dm_task_type.DM_DEVICE_LIST_VERSIONS)).2)

/-- Function `dm_flags()`: the flags returned, the static variables and the
environment afterwards. -/
def dm_flags {κ : Type} (L : DmLib κ) (g : dm_globals) (k : κ) :
    crypt_flags × dm_globals × κ :=
  if g._dm_crypt_checked = 0 then
    let c := _dm_check_versions L g k
    (c.2.1._dm_crypt_flags, c.2.1, c.2.2)
  else (g._dm_crypt_flags, g, k)

/-- Function `_dm_simple(task, name, udev_wait)`: the return value and the
environment afterwards; `none` is a null `name`. -/
def _dm_simple {κ : Type} (L : DmLib κ) (task : dm_task_type) (name : Option (List Nat))
    (udev_wait : Int) (k : κ) : Int × κ :=
  let u := L.call k dm_call._dm_use_udev
  let udev_wait1 : Int := if u.1.r = 0 then 0 else udev_wait
  let c := L.call u.2 (dm_call.dm_task_create task)
  if c.1.r = 0 then (0, c.2)
  else
    let n := match name with
      | some nm => L.call c.2 (dm_call.dm_task_set_name task nm)
      | none => (⟨1, 0, [], []⟩, c.2)
    if n.1.r = 0 then (0, (L.call n.2 (dm_call.dm_task_destroy task)).2)
    else
      let ck := if udev_wait1 ≠ 0 then L.call n.2 (dm_call._dm_task_set_cookie task 0)
        else (⟨1, 0, [], []⟩, n.2)
      if ck.1.r = 0 then (0, (L.call ck.2 (dm_call.dm_task_destroy task)).2)
      else
        let cookie := ck.1.value
        let run := L.call ck.2 (dm_call.dm_task_run task)
        let w := if udev_wait1 ≠ 0 then (L.call run.2 (dm_call._dm_udev_wait cookie)).2
          else run.2
        (run.1.r, (L.call w (dm_call.dm_task_destroy task)).2)

/-- Function `_error_device(name, size)`: the return value and the environment
afterwards. -/
def _error_device {κ : Type} (L : DmLib κ) (name : List Nat) (size : Nat) (k : κ) : Int × κ :=
  let t := dm_task_type.DM_DEVICE_RELOAD
  let c := L.call k (dm_call.dm_task_create t)
  if c.1.r = 0 then (0, c.2)
  else
    let n := L.call c.2 (dm_call.dm_task_set_name t name)
    if n.1.r = 0 then (0, (L.call n.2 (dm_call.dm_task_destroy t)).2)
    else
      let a := L.call n.2 (dm_call.dm_task_add_target t 0 size (ascii "error") [])
      if a.1.r = 0 then (0, (L.call a.2 (dm_call.dm_task_destroy t)).2)
      else
        let ro := L.call a.2 (dm_call.dm_task_set_ro t)
        if ro.1.r = 0 then (0, (L.call ro.2 (dm_call.dm_task_destroy t)).2)
        else
          let oc := L.call ro.2 (dm_call.dm_task_no_open_count t)
          if oc.1.r = 0 then (0, (L.call oc.2 (dm_call.dm_task_destroy t)).2)
          else
            let run := L.call oc.2 (dm_call.dm_task_run t)
            if run.1.r = 0 then (0, (L.call run.2 (dm_call.dm_task_destroy t)).2)
            else
              let res := _dm_simple L dm_task_type.DM_DEVICE_RESUME (some name) 1 run.2
              if res.1 = 0 then
                let cl := _dm_simple L dm_task_type.DM_DEVICE_CLEAR (some name) 0 res.2
                (0, (L.call cl.2 (dm_call.dm_task_destroy t)).2)
              else (1, (L.call res.2 (dm_call.dm_task_destroy t)).2)

/-- The `do ... while (r == -EINVAL && retries)` loop of `dm_remove_device`, entered
with the values of `retries` and `error_target`; the first argument bounds
the number of iterations and `none` means that it was not enough. The value
is `r` and the environment afterwards. The debugging output is left out. -/
def dm_remove_loop {κ : Type} (L : DmLib κ) (name : List Nat) (force : Int) (size : Nat) :
    Nat → Int → Int → κ → Option (Int × κ)
  | 0, _, _, _ => none
  | fuel + 1, retries, error_target, k =>
    let s := _dm_simple L dm_task_type.DM_DEVICE_REMOVE (some name) 1 k
    let r : Int := if s.1 ≠ 0 then 0 else -EINVAL
    let retries1 := retries - 1
    let e : Int × κ :=
      if retries1 ≠ 0 ∧ r ≠ 0 then
        let sl := L.call s.2 (dm_call.sleep 1)
        if force ≠ 0 ∧ error_target = 0 then (1, (_error_device L name size sl.2).2)
        else (error_target, sl.2)
      else (error_target, s.2)
    if r = -EINVAL ∧ retries1 ≠ 0 then dm_remove_loop L name force size fuel retries1 e.1 e.2
    else some (r, e.2)

/-- Function `dm_remove_device(name, force, size)`: the return value and the
environment afterwards; `none` is a null `name`. -/
def dm_remove_device {κ : Type} (L : DmLib κ) (name : Option (List Nat)) (force : Int)
    (size : Nat) (k : κ) : Option (Int × κ) :=
  let retries : Int := if force ≠ 0 then RETRY_COUNT else 1
  match name with
  | none => some (-EINVAL, k)
  | some nm =>
    if force ≠ 0 ∧ size = 0 then some (-EINVAL, k)
    else
      match dm_remove_loop L nm force size RETRY_COUNT retries 0 k with
      | none => none
      | some l => some (l.1, (L.call l.2 dm_call.dm_task_update_nodes).2)

/-- The end of `dm_create_device` from the label `out_no_removal`: the udev wait
for a pending cookie, the release of the task (`none` is a null `dmt`) and
`dm_task_update_nodes`; the value is that of `dm_create_device`. -/
def dm_create_out_no_removal {κ : Type} (L : DmLib κ) (cookie : Nat)
    (dmt : Option dm_task_type) (r : Int) (g : dm_globals) (k : κ) : Int × dm_globals × κ :=
  let k1 :=
    if cookie ≠ 0 then
      let u := L.call k dm_call._dm_use_udev
      if u.1.r ≠ 0 then (L.call u.2 (dm_call._dm_udev_wait cookie)).2 else u.2
    else k
  let k2 := match dmt with
    | some t => (L.call k1 (dm_call.dm_task_destroy t)).2
    | none => k1
  (r, g, (L.call k2 dm_call.dm_task_update_nodes).2)

/-- The end of `dm_create_device` from the label `out`: the udev wait, the removal
of the device after a failure of a creation, then `out_no_removal`. The copy
of the error message is left out. -/
def dm_create_out {κ : Type} (L : DmLib κ) (name : List Nat) (reload : Int) (cookie : Nat)
    (dmt : Option dm_task_type) (r : Int) (g : dm_globals) (k : κ) :
    Option (Int × dm_globals × κ) :=
  let u := L.call k dm_call._dm_use_udev
  let w : Nat × κ :=
    if u.1.r ≠ 0 then (0, (L.call u.2 (dm_call._dm_udev_wait cookie)).2) else (cookie, u.2)
  if r < 0 ∧ reload = 0 then
    match dm_remove_device L (some name) 0 0 w.2 with
    | none => none
    | some rm => some (dm_create_out_no_removal L w.1 dmt r g rm.2)
  else some (dm_create_out_no_removal L w.1 dmt r g w.2)

/-- The first part of `dm_create_device`, which creates the task and names it:
whether it went through, the task (`none` is a null `dmt`), the cookie and the
environment; `dev_uuid` is the buffer of that name. -/
def dm_create_task {κ : Type} (L : DmLib κ) (name : List Nat) (dev_uuid : List Nat)
    (udev_flags : Nat) (reload : Int) (k : κ) : Bool × Option dm_task_type × Nat × κ :=
  if reload ≠ 0 then
    let t := dm_task_type.DM_DEVICE_RELOAD
    let c := L.call k (dm_call.dm_task_create t)
    if c.1.r = 0 then (false, none, 0, c.2)
    else
      let n := L.call c.2 (dm_call.dm_task_set_name t name)
      if n.1.r = 0 then (false, some t, 0, n.2) else (true, some t, 0, n.2)
  else
    let t := dm_task_type.DM_DEVICE_CREATE
    let c := L.call k (dm_call.dm_task_create t)
    if c.1.r = 0 then (false, none, 0, c.2)
    else
      let n := L.call c.2 (dm_call.dm_task_set_name t name)
      if n.1.r = 0 then (false, some t, 0, n.2)
      else
        let su := L.call n.2 (dm_call.dm_task_set_uuid t (cstr dev_uuid))
        if su.1.r = 0 then (false, some t, 0, su.2)
        else
          let u := L.call su.2 dm_call._dm_use_udev
          if u.1.r ≠ 0 then
            let ck := L.call u.2 (dm_call._dm_task_set_cookie t udev_flags)
            if ck.1.r = 0 then (false, some t, ck.1.value, ck.2)
            else (true, some t, ck.1.value, ck.2)
          else (true, some t, 0, u.2)

/-- The part of `dm_create_device` that resumes a reloaded device: whether it
went through, the task, the cookie and the environment. -/
def dm_create_resume {κ : Type} (L : DmLib κ) (name : List Nat) (uuid : Option (List Nat))
    (dev_uuid : List Nat) (udev_flags : Nat) (cookie : Nat) (k : κ) :
    Bool × Option dm_task_type × Nat × κ :=
  let t := dm_task_type.DM_DEVICE_RESUME
  let d := L.call k (dm_call.dm_task_destroy dm_task_type.DM_DEVICE_RELOAD)
  let c := L.call d.2 (dm_call.dm_task_create t)
  if c.1.r = 0 then (false, none, cookie, c.2)
  else
    let n := L.call c.2 (dm_call.dm_task_set_name t name)
    if n.1.r = 0 then (false, some t, cookie, n.2)
    else
      let su := if uuid.isSome then L.call n.2 (dm_call.dm_task_set_uuid t (cstr dev_uuid))
        else (⟨1, 0, [], []⟩, n.2)
      if su.1.r = 0 then (false, some t, cookie, su.2)
      else
        let u := L.call su.2 dm_call._dm_use_udev
        let ck := if u.1.r ≠ 0 then L.call u.2 (dm_call._dm_task_set_cookie t udev_flags)
          else (⟨1, cookie, [], []⟩, u.2)
        if ck.1.r = 0 then (false, some t, ck.1.value, ck.2)
        else
          let run := L.call ck.2 (dm_call.dm_task_run t)
          if run.1.r = 0 then (false, some t, ck.1.value, run.2)
          else (true, some t, ck.1.value, run.2)

/-- Function `dm_create_device(name, device, cipher, type, uuid, size, skip, offset,
key_size, key, read_only, reload)`: the return value, the static variables and
the environment afterwards; `none` is a null `type` or `uuid`. The read-ahead
of the device is asked from the environment. -/
def dm_create_device {κ : Type} (M : Heap) (L : DmLib κ) (name device cipher : List Nat)
    (type uuid : Option (List Nat)) (size skip offset key_size : Nat) (key : List Nat)
    (read_only reload : Int) (g : dm_globals) (k : κ) : Option (Int × dm_globals × κ) :=
  match get_params M device skip offset cipher key_size key with
  | none => some (dm_create_out_no_removal L 0 none (-EINVAL) g k)
  | some params =>
    let udev_flags : Nat := match type with
      | some t => if (cstr t).take 4 = ascii "TEMP" then CRYPT_TEMP_UDEV_FLAGS else 0
      | none => 0
    let dev_uuid := if reload ≠ 0 then List.replicate DM_UUID_LEN 0
      else (dm_prepare_uuid name type uuid DM_UUID_LEN).1
    let h := dm_create_task L name dev_uuid udev_flags reload k
    if h.1 = false then some (dm_create_out_no_removal L h.2.2.1 h.2.1 (-EINVAL) g h.2.2.2)
    else
      let t := if reload ≠ 0 then dm_task_type.DM_DEVICE_RELOAD
        else dm_task_type.DM_DEVICE_CREATE
      let cookie := h.2.2.1
      let fl := dm_flags L g h.2.2.2
      let g1 := fl.2.1
      let sd := if fl.1.DM_SECURE_SUPPORTED then L.call fl.2.2 (dm_call.dm_task_secure_data t)
        else (⟨1, 0, [], []⟩, fl.2.2)
      if sd.1.r = 0 then some (dm_create_out_no_removal L cookie (some t) (-EINVAL) g1 sd.2)
      else
        let ro := if read_only ≠ 0 then L.call sd.2 (dm_call.dm_task_set_ro t)
          else (⟨1, 0, [], []⟩, sd.2)
        if ro.1.r = 0 then some (dm_create_out_no_removal L cookie (some t) (-EINVAL) g1 ro.2)
        else
          let a := L.call ro.2 (dm_call.dm_task_add_target t 0 size DM_CRYPT_TARGET (cstr params))
          if a.1.r = 0 then some (dm_create_out_no_removal L cookie (some t) (-EINVAL) g1 a.2)
          else
            let ra := L.call a.2 (dm_call.device_read_ahead (cstr device))
            let sra := if ra.1.r ≠ 0 then
                L.call ra.2 (dm_call.dm_task_set_read_ahead t ra.1.value)
              else (⟨1, 0, [], []⟩, ra.2)
            if sra.1.r = 0 then
              some (dm_create_out_no_removal L cookie (some t) (-EINVAL) g1 sra.2)
            else
              let run := L.call sra.2 (dm_call.dm_task_run t)
              if run.1.r = 0 then
                some (dm_create_out_no_removal L cookie (some t) (-EINVAL) g1 run.2)
              else
                let rs := if reload ≠ 0 then
                    dm_create_resume L name uuid dev_uuid udev_flags cookie run.2
                  else (true, some t, cookie, run.2)
                if rs.1 = false then
                  dm_create_out L name reload rs.2.2.1 rs.2.1 (-EINVAL) g1 rs.2.2.2
                else
                  let t1 := if reload ≠ 0 then dm_task_type.DM_DEVICE_RESUME else t
                  let gi := L.call rs.2.2.2 (dm_call.dm_task_get_info t1)
                  if gi.1.r = 0 then
                    dm_create_out L name reload rs.2.2.1 rs.2.1 (-EINVAL) g1 gi.2
                  else dm_create_out L name reload rs.2.2.1 rs.2.1 0 g1 gi.2

/-- The environment `L` with a record of the calls made and of their return
values, in order. -/
def logged {κ : Type} (L : DmLib κ) : DmLib (κ × List (dm_call × Int)) where
  call := fun s c => ((L.call s.1 c).1, ((L.call s.1 c).2, s.2 ++ [(c, (L.call s.1 c).1.r)]))

/-- An environment in which every call succeeds: udev is in use, the cookie
is 1, the driver is 4.20.0 and the kernel has the crypt target 1.11.0. -/
def okLib : DmLib Unit where
  call := fun _ _ => (⟨1, 1, ascii "4.20.0", [(ascii "crypt", 1, 11, 0)]⟩, ())

/-- An environment in which every call fails. -/
def failLib : DmLib Unit where
  call := fun _ _ => (⟨0, 0, [], []⟩, ())

/-- The static variables before the first probe of the kernel. -/
def noProbe : dm_globals := ⟨0, ⟨false, false, false, false⟩⟩

/-- A device name of 90 characters `a`. -/
def longName : List Nat := List.replicate 90 97

/-- A well-formed UUID string. -/
def demoUuid : List Nat := ascii "12345678-9abc-DEF0-1234-56789abcdef0"

/-- The events of a removal in the record of the calls: the start of a removal
attempt, a removal that succeeded, and the start of the replacement of the
target by the `error` target. -/
inductive remove_mark where
  | attempt
  | removed
  | error_target
  deriving DecidableEq, Repr

/-- The event that an entry of the record stands for: `dm_task_create` of a
REMOVE task starts a removal attempt, a `dm_task_run` of a REMOVE task that
returns non-zero is a successful removal, `dm_task_create` of a RELOAD task
starts `_error_device`. -/
def mark_of (e : dm_call × Int) : Option remove_mark :=
  if e.1 = dm_call.dm_task_create dm_task_type.DM_DEVICE_REMOVE then some remove_mark.attempt
  else if e.1 = dm_call.dm_task_run dm_task_type.DM_DEVICE_REMOVE ∧ e.2 ≠ 0 then
    some remove_mark.removed
  else if e.1 = dm_call.dm_task_create dm_task_type.DM_DEVICE_RELOAD then
    some remove_mark.error_target
  else none

/-- The events of a removal in a record of calls, in order. -/
def remove_marks (log : List (dm_call × Int)) : List remove_mark := log.filterMap mark_of

/-- The events of `j` removal attempts that failed, the first of them followed
by the replacement of the target when `b` holds. -/
def failed_attempts (b : Bool) (j : Nat) : List remove_mark :=
  (if j = 0 then [] else remove_mark.attempt :: (if b then [remove_mark.error_target] else []))
    ++ List.replicate (j - 1) remove_mark.attempt

/-- The local `index` of `keyfile_is_gpg`: `buffer_len < 100 ? buffer_len - 1 : 100`,
the position where the terminator is stored. -/
def keyfile_is_gpg_index (buffer_len : Nat) : Nat :=
  if buffer_len < 100 then buffer_len - 1 else 100

/-! ## lib/libdevmapper.c: suspend with key wipe, resume with key -/

/-- Modelled from errno.h: the value of `ENOTSUP` on Linux. -/
def ENOTSUP : Int := 95

/-- Function `_dm_message(name, msg)`: the return value, the static variables and
the environment afterwards; `none` is a null `name`, `msg` is the buffer that
holds the message. -/
def _dm_message {κ : Type} (L : DmLib κ) (name : Option (List Nat)) (msg : List Nat)
    (g : dm_globals) (k : κ) : Int × dm_globals × κ :=
  let t := dm_task_type.DM_DEVICE_TARGET_MSG
  let c := L.call k (dm_call.dm_task_create t)
  if c.1.r = 0 then (0, g, c.2)
  else
    let fl := dm_flags L g c.2
    let sd := if fl.1.DM_SECURE_SUPPORTED then L.call fl.2.2 (dm_call.dm_task_secure_data t)
      else (⟨1, 0, [], []⟩, fl.2.2)
    if sd.1.r = 0 then (0, fl.2.1, (L.call sd.2 (dm_call.dm_task_destroy t)).2)
    else
      let n := match name with
        | some nm => L.call sd.2 (dm_call.dm_task_set_name t nm)
        | none => (⟨1, 0, [], []⟩, sd.2)
      if n.1.r = 0 then (0, fl.2.1, (L.call n.2 (dm_call.dm_task_destroy t)).2)
      else
        let ss := L.call n.2 (dm_call.dm_task_set_sector t 0)
        if ss.1.r = 0 then (0, fl.2.1, (L.call ss.2 (dm_call.dm_task_destroy t)).2)
        else
          let sm := L.call ss.2 (dm_call.dm_task_set_message t (cstr msg))
          if sm.1.r = 0 then (0, fl.2.1, (L.call sm.2 (dm_call.dm_task_destroy t)).2)
          else
            let run := L.call sm.2 (dm_call.dm_task_run t)
            (run.1.r, fl.2.1, (L.call run.2 (dm_call.dm_task_destroy t)).2)

/-- Function `dm_suspend_and_wipe_key(name)`: the return value, the static variables
and the environment afterwards. -/
def dm_suspend_and_wipe_key {κ : Type} (L : DmLib κ) (name : Option (List Nat))
    (g : dm_globals) (k : κ) : Int × dm_globals × κ :=
  let c := _dm_check_versions L g k
  if c.1 = 0 then (-ENOTSUP, c.2.1, c.2.2)
  else if c.2.1._dm_crypt_flags.DM_KEY_WIPE_SUPPORTED = false then (-ENOTSUP, c.2.1, c.2.2)
  else
    let s := _dm_simple L dm_task_type.DM_DEVICE_SUSPEND name 0 c.2.2
    if s.1 = 0 then (-EINVAL, c.2.1, s.2)
    else
      let m := _dm_message L name (ascii "key wipe") c.2.1 s.2
      if m.1 = 0 then
        (-EINVAL, m.2.1, (_dm_simple L dm_task_type.DM_DEVICE_RESUME name 1 m.2.2).2)
      else (0, m.2.1, m.2.2)

/-- The message buffer of `dm_resume_and_reinstate_key` after `memset(msg, 0,
msg_size)`, `strcpy(msg, "key set ")` and `hex_key(&msg[8], key_size, key)`; `msg` is
the fresh buffer. -/
def key_set_msg (msg : List Nat) (msg_size key_size : Nat) (key : List Nat) : List Nat :=
  let msg1 := writeAt msg 0 (List.replicate msg_size 0)
  let msg2 := writeAt msg1 0 (ascii "key set " ++ [0])
  msg2.take 8 ++ hex_key (msg2.drop 8) key_size key

/-- Function `dm_resume_and_reinstate_key(name, key_size, key)`: the return value, the
static variables and the environment afterwards; `msg_size` is taken to fit
an `int`. -/
def dm_resume_and_reinstate_key {κ : Type} (M : Heap) (L : DmLib κ)
    (name : Option (List Nat)) (key_size : Nat) (key : List Nat)
    (g : dm_globals) (k : κ) : Int × dm_globals × κ :=
  let msg_size := key_size * 2 + 10
  let c := _dm_check_versions L g k
  if c.1 = 0 then (-ENOTSUP, c.2.1, c.2.2)
  else if c.2.1._dm_crypt_flags.DM_KEY_WIPE_SUPPORTED = false then (-ENOTSUP, c.2.1, c.2.2)
  else
    match crypt_safe_alloc M msg_size with
    | none => (-ENOMEM, c.2.1, c.2.2)
    | some msg0 =>
      let msg := key_set_msg msg0 msg_size key_size key
      let m := _dm_message L name msg c.2.1 c.2.2
      if m.1 = 0 then (-EINVAL, m.2.1, m.2.2)
      else
        let r := _dm_simple L dm_task_type.DM_DEVICE_RESUME name 1 m.2.2
        (if r.1 = 0 then -EINVAL else 0, m.2.1, r.2)

/-- The events of a suspension or of a resumption in the record of the calls:
the start of a SUSPEND task and its success, the start of a TARGET_MSG
task, the message given to it and its success, the start of a RESUME task
and its success. -/
inductive key_mark where
  | suspend
  | suspended
  | message_task
  | message (text : List Nat)
  | sent
  | resume
  | resumed
  deriving DecidableEq, Repr

/-- The event that an entry of the record stands for. -/
def key_mark_of (e : dm_call × Int) : Option key_mark :=
  match e.1 with
  | dm_call.dm_task_create dm_task_type.DM_DEVICE_SUSPEND => some key_mark.suspend
  | dm_call.dm_task_create dm_task_type.DM_DEVICE_TARGET_MSG => some key_mark.message_task
  | dm_call.dm_task_create dm_task_type.DM_DEVICE_RESUME => some key_mark.resume
  | dm_call.dm_task_set_message _ text => some (key_mark.message text)
  | dm_call.dm_task_run dm_task_type.DM_DEVICE_SUSPEND =>
    if e.2 ≠ 0 then some key_mark.suspended else none
  | dm_call.dm_task_run dm_task_type.DM_DEVICE_TARGET_MSG =>
    if e.2 ≠ 0 then some key_mark.sent else none
  | dm_call.dm_task_run dm_task_type.DM_DEVICE_RESUME =>
    if e.2 ≠ 0 then some key_mark.resumed else none
  | _ => none

/-- The events of a suspension or resumption in a record of calls, in order. -/
def key_marks (log : List (dm_call × Int)) : List key_mark := log.filterMap key_mark_of

/-- An environment in which the kernel has the crypt target 1.11.0 and every
call succeeds, except that a TARGET_MSG task does not run. -/
def noMsgLib : DmLib Unit where
  call := fun _ c =>
    (⟨if c = dm_call.dm_task_run dm_task_type.DM_DEVICE_TARGET_MSG then 0 else 1, 1,
      ascii "4.20.0", [(ascii "crypt", 1, 11, 0)]⟩, ())


/-- The ways in which `dm_suspend_and_wipe_key` ends once the kernel has the
key-wipe capability: the return value and the events it adds to the record.
The suspension fails; or it succeeds and the message fails, before or after
the text was set, and a resumption is tried, with or without success; or the
message is sent. -/
def wipe_key_outcomes : List (Int × List key_mark) :=
  [(-EINVAL, [key_mark.suspend]),
   (-EINVAL, [key_mark.suspend, key_mark.suspended, key_mark.message_task, key_mark.resume]),
   (-EINVAL, [key_mark.suspend, key_mark.suspended, key_mark.message_task, key_mark.resume,
      key_mark.resumed]),
   (-EINVAL, [key_mark.suspend, key_mark.suspended, key_mark.message_task,
      key_mark.message (ascii "key wipe"), key_mark.resume]),
   (-EINVAL, [key_mark.suspend, key_mark.suspended, key_mark.message_task,
      key_mark.message (ascii "key wipe"), key_mark.resume, key_mark.resumed]),
   (0, [key_mark.suspend, key_mark.suspended, key_mark.message_task,
      key_mark.message (ascii "key wipe"), key_mark.sent])]

/-- The ways in which `dm_resume_and_reinstate_key` ends once the kernel has the
key-wipe capability and the message buffer is allocated, for the message
`text`: the message fails, before or after the text was set; or it is sent and
the resumption fails; or both succeed. -/
def reinstate_key_outcomes (text : List Nat) : List (Int × List key_mark) :=
  [(-EINVAL, [key_mark.message_task]),
   (-EINVAL, [key_mark.message_task, key_mark.message text]),
   (-EINVAL, [key_mark.message_task, key_mark.message text, key_mark.sent, key_mark.resume]),
   (0, [key_mark.message_task, key_mark.message text, key_mark.sent, key_mark.resume,
      key_mark.resumed])]


/-- The call `crypt_free_volume_key(*vk)` at the end of `hash_keys`, made when the
loop ended with `r < 0`: the block as it is handed to `free`; `none` when the
call is not made. -/
def hash_keys_freed {σ : Type} (B : HashBackend σ) (M : Heap) (hdr : Nat)
    (hash_override : Option (List Nat)) (buffer : List Nat)
    (input_keys : List Nat) (keys_count : Nat) (key_len_output : Nat) : Option volume_key :=
  let hash_name := match hash_override with
    | some h => some h
    | none => get_hash key_len_output
  let tweak := get_tweak keys_count
  let key_len_input := strlen_at buffer (input_keys.getD 0 0)
  match hash_name with
  | none => none
  | some hash_name =>
    if keys_count = 0 ∨ key_len_output = 0 ∨ key_len_input = 0 then none
    else
      match crypt_alloc_volume_key M hdr ((key_len_output * keys_count) % 2 ^ 32) none with
      | none => none
      | some vk =>
        let l := hash_keys_loop B buffer hash_name tweak key_len_input key_len_output
          (input_keys.take keys_count) 0 0 vk.key
        if l.1 < 0 then crypt_free_volume_key (some { vk with key := l.2 }) else none


/-! ## lib/libdevmapper.c: the table line read back by `dm_query_device` -/

/-- Modelled from the C standard: `strsep(&s, " ")` for a non-null `s`, a string
given without its terminator: the token, which ends at the first space, and
`s` afterwards, the string after that space or `none` (null) when there is
no space. -/
def strsep (s : List Nat) : List Nat × Option (List Nat) :=
  let tok := s.takeWhile (fun c => c != 32)
  if tok.length < s.length then (tok, some (s.drop (tok.length + 1))) else (tok, none)

/-- Modelled from the C standard: `strtoull(s, &end, 10)`: the value and the string
at `end`. White space is skipped, a sign may precede the digits, a value
that does not fit 64 bits gives `ULLONG_MAX`, a negative one is negated as an
unsigned number, and without digits `end` is `s`. -/
def strtoull (s : List Nat) : Nat × List Nat :=
  let s1 := s.dropWhile isspace
  let neg := s1.head? == some 45
  let s2 := if s1.head? == some 45 ∨ s1.head? == some 43 then s1.drop 1 else s1
  let ds := s2.takeWhile isdigit
  if ds = [] then (0, s)
  else
    let v := atoi_digits ds 0
    (if v ≥ 2 ^ 64 then 2 ^ 64 - 1 else if neg then (2 ^ 64 - v) % 2 ^ 64 else v,
      s2.dropWhile isdigit)

/-- The value of a hexadecimal digit, 0 for another character. -/
def hexval (c : Nat) : Nat :=
  if 48 ≤ c ∧ c ≤ 57 then c - 48
  else if 97 ≤ c ∧ c ≤ 102 then c - 87
  else if 65 ≤ c ∧ c ≤ 70 then c - 55
  else 0

/-- Modelled from the C standard: `strtoul(s, &endp, 16)` on a 64-bit system: the
value and the number of characters before `endp`. White space is skipped,
a sign and a prefix `0x` or `0X` may precede the digits; the prefix counts
only when a hexadecimal digit follows it. -/
def strtoul (s : List Nat) : Nat × Nat :=
  let s1 := s.dropWhile isspace
  let neg := s1.head? == some 45
  let sign := if s1.head? == some 45 ∨ s1.head? == some 43 then 1 else 0
  let s2 := s1.drop sign
  let pre := if s2.head? == some 48 ∧ ((s2.drop 1).head? == some 120 ∨
      (s2.drop 1).head? == some 88) ∧ ((s2.drop 2).head?.map isxdigit) == some true
    then 2 else 0
  let ds := (s2.drop pre).takeWhile isxdigit
  if ds = [] then (0, 0)
  else
    let v := ds.foldl (fun a c => a * 16 + hexval c) 0
    (if v ≥ 2 ^ 64 then 2 ^ 64 - 1 else if neg then (2 ^ 64 - v) % 2 ^ 64 else v,
      (s.length - s1.length) + sign + pre + ds.length)

/-- The loop `for(i = 0; i < *key_size; i++)` of `dm_query_device` with `n` bytes left
to convert, at index `i`: two characters of `key_` are copied to `buffer`, which
ends with a NUL, and converted; `none` when the conversion does not end at
`&buffer[2]`, else the buffer `*key`. -/
def dm_query_key_loop (key_ : List Nat) : Nat → Nat → List Nat → Option (List Nat)
  | 0, _, key => some key
  | n + 1, i, key =>
    let buffer := readAt key_ (i * 2) 2 ++ [0]
    let t := strtoul (cstr buffer)
    if t.2 ≠ 2 then none
    else dm_query_key_loop key_ n (i + 1) (writeAt key i [t.1 % 256])

/-- The values that `dm_query_device` stores through its arguments while it reads
the table line; `none` is an argument not stored to, or a null `*key`. The
device is what `crypt_lookup_dev` makes of the device string. -/
structure dm_query_params (δ : Type) where
  cipher : Option (List Nat)
  skip : Option Nat
  device : Option δ
  offset : Option Nat
  key_size : Option Nat
  key : Option (List Nat)
  deriving DecidableEq, Repr

/-- The part of `dm_query_device(name, device, size, skip, offset, cipher, key_size, key, ...)`
that reads the table line `params` of the crypt target, from the first `strsep`
to the end of the key loop, with every argument non-null: `some r` when the
function leaves through `out` with the result `r`, `none` when it goes on,
and the values stored. `crypt_lookup_dev` and the allocator are not among the
sources and are parameters; the line is given without its terminator and
`*key_size` is taken to fit an `int`. -/
def dm_query_device_params {δ : Type} (M : Heap) (crypt_lookup_dev : List Nat → δ)
    (params : List Nat) : Option Int × dm_query_params δ :=
  let rcipher := strsep params
  let o1 : dm_query_params δ := ⟨some rcipher.1, none, none, none, none, none⟩
  match rcipher.2 with
  | none => (some (-EINVAL), o1)
  | some p1 =>
    let key_ := strsep p1
    match key_.2 with
    | none => (some (-EINVAL), o1)
    | some p2 =>
      let v1 := strtoull p2
      if v1.2.head? ≠ some 32 then (some (-EINVAL), o1)
      else
        let o2 := { o1 with skip := some v1.1 }
        let rdevice := strsep (v1.2.drop 1)
        let o3 := { o2 with device := some (crypt_lookup_dev rdevice.1) }
        match rdevice.2 with
        | none => (some (-EINVAL), o3)
        | some p4 =>
          let v2 := strtoull p4
          if v2.2 ≠ [] then (some (-EINVAL), o3)
          else
            let o4 := { o3 with offset := some v2.1, key_size := some (key_.1.length / 2) }
            match crypt_safe_alloc M (key_.1.length / 2) with
            | none => (some (-ENOMEM), o4)
            | some key0 =>
              match dm_query_key_loop key_.1 (key_.1.length / 2) 0 key0 with
              | none => (some (-EINVAL), o4)
              | some key => (none, { o4 with key := some key })


/-- A digest library used to see which algorithm hashed a record: it knows
`sha256`, `sha384` and `sha512` with their digest sizes, and every byte of a
digest is the number of the algorithm (1, 2 or 3). -/
def nameLib : GcryLib where
  gcry_md_map_name := fun name =>
    if name = ascii "sha256" then 1
    else if name = ascii "sha384" then 2
    else if name = ascii "sha512" then 3
    else 0
  gcry_md_get_algo_dlen := fun id => if id = 1 then 32 else if id = 2 then 48 else 64
  gcry_md_read := fun id _ => List.replicate (if id = 1 then 32 else if id = 2 then 48 else 64) id

end Cryptsetup

namespace Cryptsetup

/-! ## Buffers -/

theorem writeAt_length (m : List Nat) (off : Nat) (bs : List Nat)
    (h : off + bs.length ≤ m.length) : (writeAt m off bs).length = m.length := by
  simp only [writeAt, List.length_append, List.length_take, List.length_drop]
  omega

theorem writeAt_take (m : List Nat) (off : Nat) (bs : List Nat) (n : Nat)
    (hn : n ≤ off) (h : off ≤ m.length) : (writeAt m off bs).take n = m.take n := by
  simp only [writeAt, List.append_assoc]
  rw [List.take_append_of_le_length (by simp; omega)]
  rw [List.take_take]
  simp [Nat.min_eq_left hn]

theorem writeAt_drop (m : List Nat) (off : Nat) (bs : List Nat)
    (h : off ≤ m.length) :
    (writeAt m off bs).drop off = bs ++ m.drop (off + bs.length) := by
  simp only [writeAt, List.append_assoc]
  rw [List.drop_append_of_le_length (by simp; omega)]
  have : (List.take off m).length = off := by simp; omega
  rw [List.drop_eq_nil_of_le (by omega)]
  simp

theorem writeAt_drop_after (m : List Nat) (off : Nat) (bs : List Nat) (n : Nat)
    (h : off + bs.length ≤ m.length) (hn : off + bs.length ≤ n) :
    (writeAt m off bs).drop n = m.drop n := by
  have h1 : n = off + (bs.length + (n - (off + bs.length))) := by omega
  rw [h1, ← List.drop_drop, writeAt_drop m off bs (by omega), ← List.drop_drop,
    List.drop_left, List.drop_drop]
  congr 1
  omega

/-! ## The provider under `HashOK` -/

theorem toU32_natCast (d : Nat) (h : d < 2 ^ 32) : toU32 (d : Int) = d := by
  unfold toU32
  have : ((d : Int) % (2 ^ 32 : Int)) = (d : Int) := by
    apply Int.emod_eq_of_lt
    · exact Int.natCast_nonneg d
    · exact_mod_cast h
  rw [this]
  simp

theorem hash_buf_ok {σ : Type} (B : HashBackend σ) (name : List Nat) (d : Nat)
    (H : List Nat → List Nat) (hOK : HashOK B name d H)
    (src : List Nat) (iv len : Nat) (hlen : len ≤ d) :
    hash_buf B src iv len name = (0, (H (htonl iv ++ src.take len)).take len) := by
  obtain ⟨_, _, _, inv, ⟨s, hinit, hs⟩, hw, hf⟩ := hOK
  unfold hash_buf
  rw [hinit]
  obtain ⟨h1, i1⟩ := hw s [] (htonl iv) hs
  obtain ⟨h2, i2⟩ := hw _ _ (src.take len) i1
  obtain ⟨h3, h4, _⟩ := hf _ _ len i2 hlen
  simp only [List.nil_append] at h4
  simp only [h1, h2, ne_eq, not_true_eq_false, ↓reduceIte, h3, h4]

theorem hashOK_size {σ : Type} {B : HashBackend σ} {name : List Nat} {d : Nat}
    {H : List Nat → List Nat} (hOK : HashOK B name d H) :
    toU32 (B.crypt_hash_size name) = d := by
  obtain ⟨hs, hd, _⟩ := hOK
  rw [hs]
  exact toU32_natCast d (by omega)

theorem hashOK_len {σ : Type} {B : HashBackend σ} {name : List Nat} {d : Nat}
    {H : List Nat → List Nat} (hOK : HashOK B name d H) (m : List Nat) :
    (H m).length = d := hOK.2.2.1 m

/-! ## `diffuse` succeeds for a supported hash and keeps the buffer length -/

theorem diffuse_loop_ok {σ : Type} (B : HashBackend σ) (name : List Nat) (d : Nat)
    (H : List Nat → List Nat) (hOK : HashOK B name d H) :
    ∀ (k i : Nat) (buf : List Nat), d * (i + k) ≤ buf.length →
      (diffuse_loop B d name k i buf).1 = 0 ∧
      (diffuse_loop B d name k i buf).2.1.length = buf.length ∧
      (diffuse_loop B d name k i buf).2.2 = i + k := by
  intro k
  induction k with
  | zero => intro i buf _; simp [diffuse_loop]
  | succ k ih =>
    intro i buf hb
    have hoff : d * i % 2 ^ 32 ≤ d * i := Nat.mod_le _ _
    have hmul : d * (i + (k + 1)) = d * i + d + d * k := by ring
    have hh := hash_buf_ok B name d H hOK (buf.drop (d * i % 2 ^ 32)) i d (le_refl d)
    have hlen : (List.take d (H (htonl i ++ List.take d (List.drop (d * i % 2 ^ 32) buf)))).length
        = d := by
      rw [List.length_take, hashOK_len hOK]; simp
    have hw : (writeAt buf (d * i % 2 ^ 32)
        (List.take d (H (htonl i ++ List.take d (List.drop (d * i % 2 ^ 32) buf))))).length
        = buf.length := by
      apply writeAt_length
      rw [hlen]; omega
    simp only [diffuse_loop, hh, ne_eq, not_true_eq_false, ↓reduceIte]
    have := ih (i + 1) _ (by rw [hw]; rw [hmul] at hb; linarith [Nat.mul_add d i 1, Nat.mul_add d (i+1) k])
    rw [hw] at this
    refine ⟨this.1, this.2.1, ?_⟩
    rw [this.2.2]; omega

theorem diffuse_ok {σ : Type} (B : HashBackend σ) (name : List Nat) (d : Nat)
    (H : List Nat → List Nat) (hOK : HashOK B name d H) (hd : 1 ≤ d)
    (buf : List Nat) (size : Nat) (hb : size ≤ buf.length) :
    (diffuse B buf size name).1 = 0 ∧ (diffuse B buf size name).2.length = buf.length := by
  have hblocks : size / d % 2 ^ 32 ≤ size / d := Nat.mod_le _ _
  have hdm : d * (size / d) + size % d = size := Nat.div_add_mod size d
  have hmono : d * (size / d % 2 ^ 32) ≤ d * (size / d) := Nat.mul_le_mul_left d hblocks
  have hpl : size % d < d := Nat.mod_lt _ (by omega)
  have hpad : size % d % 2 ^ 32 = size % d :=
    Nat.mod_eq_of_lt (by have := hOK.2.1; omega)
  have hoff : d * (size / d % 2 ^ 32) % 2 ^ 32 ≤ d * (size / d % 2 ^ 32) := Nat.mod_le _ _
  unfold diffuse
  simp only [hashOK_size hOK, hpad]
  generalize size / d % 2 ^ 32 = n at hmono hoff ⊢
  obtain ⟨l1, l2, l3⟩ := diffuse_loop_ok B name d H hOK n 0 buf (by rw [Nat.zero_add]; omega)
  simp only [Nat.zero_add] at l3
  simp only [l1, l3, ne_eq, not_true_eq_false, ↓reduceIte]
  generalize d * n % 2 ^ 32 = off at hoff ⊢
  by_cases hp : size % d = 0
  · simp only [hp, not_true_eq_false, ↓reduceIte, l2, and_self]
  · have hh := hash_buf_ok B name d H hOK
      ((diffuse_loop B d name n 0 buf).2.1.drop off) n (size % d) (le_of_lt hpl)
    simp only [hp, not_false_eq_true, ↓reduceIte, hh, not_true_eq_false]
    refine ⟨trivial, ?_⟩
    rw [writeAt_length, l2]
    rw [List.length_take, hashOK_len hOK, l2]
    have : min (size % d) d = size % d := Nat.min_eq_left (le_of_lt hpl)
    omega

/-! ## `XORblock` -/

theorem XORblock_length (a b : List Nat) (n : Nat) (ha : n ≤ a.length) (hb : n ≤ b.length) :
    (XORblock a b n).length = n := by
  simp only [XORblock, List.length_zipWith, List.length_take]
  omega

theorem XORblock_comm (a b : List Nat) (n : Nat) : XORblock a b n = XORblock b a n := by
  unfold XORblock
  exact List.zipWith_comm_of_comm _ (fun x y => Nat.xor_comm x y) _ _

theorem XORblock_take_left (a b : List Nat) (n : Nat) :
    XORblock (a.take n) b n = XORblock a b n := by
  simp [XORblock, List.take_take]

theorem zipWith_xor_cancel : ∀ (a b : List Nat), a.length = b.length →
    List.zipWith (fun x y => x ^^^ y) (List.zipWith (fun x y => x ^^^ y) a b) b = a
  | [], [], _ => rfl
  | x :: a, y :: b, h => by
    simp only [List.zipWith_cons_cons, List.cons.injEq]
    refine ⟨Nat.xor_cancel_right y x, zipWith_xor_cancel a b (by simpa using h)⟩
  | [], _ :: _, h => by simp at h
  | _ :: _, [], h => by simp at h

theorem XORblock_cancel (S buf rest : List Nat) (n : Nat) (hS : S.length = n)
    (hb : buf.length = n) : XORblock (XORblock S buf n ++ rest) buf n = S := by
  have h1 : (XORblock S buf n).length = n := XORblock_length S buf n (by omega) (by omega)
  have e1 : S.take n = S := List.take_of_length_le (by omega)
  have e2 : buf.take n = buf := List.take_of_length_le (by omega)
  have hx : XORblock S buf n = List.zipWith (fun a b => a ^^^ b) S buf := by
    simp only [XORblock, e1, e2]
  rw [← XORblock_take_left, List.take_append_of_le_length (by omega),
    List.take_of_length_le (by omega)]
  rw [hx] at h1 ⊢
  unfold XORblock
  rw [e2, List.take_of_length_le (by omega)]
  exact zipWith_xor_cancel S buf (by omega)

theorem XORblock_zero_left (buf : List Nat) (n : Nat) (hb : buf.length = n) :
    XORblock (List.replicate n 0) buf n = buf := by
  subst hb
  unfold XORblock
  rw [List.take_of_length_le (by simp), List.take_of_length_le (by simp)]
  induction buf with
  | nil => rfl
  | cons x xs ih => simp [List.replicate_succ, ih]

/-! ## `AF_merge` computes the accumulator of the specification -/

theorem take_eq_of_take_eq {M M' : List Nat} {m n : Nat} (hmn : m ≤ n)
    (h : M.take n = M'.take n) : M.take m = M'.take m := by
  have h1 : M.take m = (M.take n).take m := by rw [List.take_take, Nat.min_eq_left hmn]
  have h2 : M'.take m = (M'.take n).take m := by rw [List.take_take, Nat.min_eq_left hmn]
  rw [h1, h2, h]

theorem readAt_congr {M M' : List Nat} {n : Nat} (off len : Nat) (h : M.take n = M'.take n)
    (hle : off + len ≤ n) : readAt M off len = readAt M' off len := by
  unfold readAt
  rw [List.take_drop, List.take_drop, take_eq_of_take_eq hle h]

theorem readAt_length (M : List Nat) (off len : Nat) (h : off + len ≤ M.length) :
    (readAt M off len).length = len := by
  simp only [readAt, List.length_take, List.length_drop]
  omega

theorem XORblock_readAt (M buf : List Nat) (L i : Nat) :
    XORblock (M.drop (L * i)) buf L = XORblock buf (readAt M (i * L) L) L := by
  rw [XORblock_comm]
  unfold XORblock readAt
  rw [List.take_take, Nat.min_self, Nat.mul_comm]

theorem af_buf_congr {σ : Type} (B : HashBackend σ) (L : Nat) (hash : List Nat)
    (M M' : List Nat) : ∀ n, M.take (L * n) = M'.take (L * n) →
      af_buf B M L hash n = af_buf B M' L hash n := by
  intro n
  induction n with
  | zero => intro _; rfl
  | succ n ih =>
    intro h
    have h1 := ih (take_eq_of_take_eq (Nat.mul_le_mul_left L (Nat.le_succ n)) h)
    simp only [af_buf, h1]
    rw [readAt_congr (n * L) L h (by rw [Nat.mul_succ, Nat.mul_comm])]

theorem af_buf_length {σ : Type} (B : HashBackend σ) (name : List Nat) (d : Nat)
    (H : List Nat → List Nat) (hOK : HashOK B name d H) (hd : 1 ≤ d) (M : List Nat) (L : Nat) :
    ∀ n, L * n ≤ M.length → (af_buf B M L name n).length = L := by
  intro n
  induction n with
  | zero => intro _; simp [af_buf]
  | succ n ih =>
    intro h
    have hn : L * n + L ≤ M.length := by rw [Nat.mul_succ] at h; exact h
    have h1 := ih (by omega)
    have hx : (XORblock (af_buf B M L name n) (readAt M (n * L) L) L).length = L :=
      XORblock_length _ _ _ (by omega)
        (by rw [readAt_length _ _ _ (by rw [Nat.mul_comm]; exact hn)])
    simp only [af_buf]
    rw [(diffuse_ok B name d H hOK hd _ L (by omega)).2, hx]

theorem AF_merge_loop_eq {σ : Type} (B : HashBackend σ) (name : List Nat) (d : Nat)
    (H : List Nat → List Nat) (hOK : HashOK B name d H) (hd : 1 ≤ d) (M : List Nat) (L : Nat) :
    ∀ k i, L * (i + k) ≤ M.length →
      AF_merge_loop B M L name k i (af_buf B M L name i)
        = some (af_buf B M L name (i + k), i + k) := by
  intro k
  induction k with
  | zero => intro i _; simp [AF_merge_loop]
  | succ k ih =>
    intro i h
    have hk : L * (i + 1 + k) ≤ M.length := by
      have : i + 1 + k = i + (k + 1) := by omega
      rw [this]; exact h
    have hi : L * (i + 1) ≤ M.length :=
      le_trans (Nat.mul_le_mul_left L (by omega)) hk
    have hlen := af_buf_length B name d H hOK hd M L (i + 1) hi
    have hlen0 := af_buf_length B name d H hOK hd M L i
      (le_trans (Nat.mul_le_mul_left L (by omega)) hi)
    have hx : (XORblock (af_buf B M L name i) (readAt M (i * L) L) L).length = L :=
      XORblock_length _ _ _ (by omega)
        (by rw [readAt_length _ _ _ (by rw [Nat.mul_comm, ← Nat.mul_succ]; exact hi)])
    have hd0 := (diffuse_ok B name d H hOK hd
      (XORblock (af_buf B M L name i) (readAt M (i * L) L) L) L (by omega)).1
    simp only [AF_merge_loop, XORblock_readAt, hd0, ne_eq, not_true_eq_false, ↓reduceIte]
    have := ih (i + 1) hk
    simp only [af_buf] at this
    rw [this]
    have e : i + 1 + k = i + (k + 1) := by omega
    rw [e]

theorem u32_pred (N : Nat) (h1 : 1 ≤ N) (h2 : N < 2 ^ 32) :
    (N + 2 ^ 32 - 1) % 2 ^ 32 = N - 1 := by
  have e : N + 2 ^ 32 - 1 = (N - 1) + 2 ^ 32 := by omega
  rw [e, Nat.add_mod_right]
  exact Nat.mod_eq_of_lt (by omega)

theorem AF_merge_eq {σ : Type} (B : HashBackend σ) (name : List Nat) (d : Nat)
    (H : List Nat → List Nat) (hOK : HashOK B name d H) (hd : 1 ≤ d)
    (M dst : List Nat) (L N : Nat) (hM : L * N ≤ M.length) (hN : 1 ≤ N) (hN32 : N < 2 ^ 32) :
    AF_merge B true M dst L N name =
      (0, writeAt dst 0
        (XORblock (af_buf B M L name (N - 1)) (readAt M ((N - 1) * L) L) L)) := by
  have hle : L * (0 + (N - 1)) ≤ M.length :=
    le_trans (Nat.mul_le_mul_left L (by omega)) hM
  have h := AF_merge_loop_eq B name d H hOK hd M L (N - 1) 0 hle
  simp only [af_buf, Nat.zero_add] at h
  unfold AF_merge
  simp only [Bool.not_true, Bool.false_eq_true, ↓reduceIte, u32_pred N hN hN32, h,
    XORblock_readAt]

/-! ## The structure of what `AF_split` writes -/

theorem writeAt_take_succ (m : List Nat) (off : Nat) (bs : List Nat)
    (h : off + bs.length ≤ m.length) :
    (writeAt m off bs).take (off + bs.length) = m.take off ++ bs := by
  unfold writeAt
  have hl : (List.take off m ++ bs).length = off + bs.length := by
    simp only [List.length_append, List.length_take]; omega
  exact List.take_left' hl

theorem draws_length {ρ : Type} (R : RandomSource ρ) (L : Nat) :
    ∀ k rng, (draws R L k rng).length = k := by
  intro k
  induction k with
  | zero => intro _; rfl
  | succ k ih => intro rng; simp [draws, ih]

theorem AF_split_loop_spec {σ ρ : Type} (B : HashBackend σ) (R : RandomSource ρ)
    (name : List Nat) (hR : RandomOK R) (L : Nat) :
    ∀ (k i : Nat) (r : Int) (dst buf : List Nat) (rng : ρ),
      L * (i + k) ≤ dst.length → buf = af_buf B dst L name i →
      (AF_split_loop B R L name k i r dst buf rng).done = true →
      (AF_split_loop B R L name k i r dst buf rng).i = i + k ∧
      (AF_split_loop B R L name k i r dst buf rng).dst =
        dst.take (L * i) ++ (draws R L k rng).flatten ++ dst.drop (L * (i + k)) ∧
      (draws R L k rng).flatten.length = L * k ∧
      (AF_split_loop B R L name k i r dst buf rng).bufblock =
        af_buf B (AF_split_loop B R L name k i r dst buf rng).dst L name (i + k) ∧
      (AF_split_loop B R L name k i r dst buf rng).rng = rngAfter R L k rng ∧
      (∀ g ∈ draws R L k rng, g.length = L) := by
  intro k
  induction k with
  | zero =>
    intro i r dst buf rng _ hbuf _
    simp [AF_split_loop, draws, rngAfter, hbuf]
  | succ k ih =>
    intro i r dst buf rng hlen hbuf hdone
    simp only [AF_split_loop] at hdone ⊢
    by_cases hg : (R.crypt_random_get rng L RndQuality.CRYPT_RND_NORMAL).1 < 0
    · simp [hg] at hdone
    simp only [hg, ↓reduceIte] at hdone ⊢
    have hgl := hR rng L RndQuality.CRYPT_RND_NORMAL (not_lt.mp hg)
    generalize hge : R.crypt_random_get rng L RndQuality.CRYPT_RND_NORMAL = g at hdone hgl ⊢
    have hmul : L * (i + (k + 1)) = L * i + L + L * k := by ring
    have hmul1 : L * (i + 1) = L * i + L := by ring
    have hmul2 : L * (i + 1 + k) = L * i + L + L * k := by ring
    by_cases hdf : (diffuse B (XORblock (List.drop (L * i) (writeAt dst (L * i) g.2.1)) buf L)
        L name).1 ≠ 0
    · simp [hdf] at hdone
    simp only [hdf, ↓reduceIte] at hdone ⊢
    have hw1 : (writeAt dst (L * i) g.2.1).length = dst.length :=
      writeAt_length _ _ _ (by rw [hgl]; omega)
    have hwt : (writeAt dst (L * i) g.2.1).take (L * i) = dst.take (L * i) :=
      writeAt_take _ _ _ _ (le_refl _) (by omega)
    have hb1 : (diffuse B (XORblock (List.drop (L * i) (writeAt dst (L * i) g.2.1)) buf L)
        L name).2 = af_buf B (writeAt dst (L * i) g.2.1) L name (i + 1) := by
      simp only [af_buf]
      rw [XORblock_readAt, hbuf, af_buf_congr B L name _ _ i hwt]
    obtain ⟨h1, h2, h3, h4, h5, h6⟩ := ih (i + 1) g.1 (writeAt dst (L * i) g.2.1) _ g.2.2
      (by rw [hw1]; omega) hb1 hdone
    have hts : (writeAt dst (L * i) g.2.1).take (L * (i + 1)) = dst.take (L * i) ++ g.2.1 := by
      have := writeAt_take_succ dst (L * i) g.2.1 (by rw [hgl]; omega)
      rw [hgl] at this
      rw [hmul1]; exact this
    have hds : (writeAt dst (L * i) g.2.1).drop (L * (i + 1 + k)) =
        dst.drop (L * (i + (k + 1))) := by
      rw [writeAt_drop_after _ _ _ _ (by rw [hgl]; omega) (by rw [hgl]; omega)]
      congr 1
      omega
    refine ⟨by rw [h1]; omega, ?_, ?_, ?_, ?_, ?_⟩
    · rw [h2, hts, hds]
      simp only [draws, hge, List.flatten_cons, List.append_assoc]
    · simp only [draws, hge, List.flatten_cons, List.length_append, h3, hgl]
      ring
    · rw [h4]
      congr 1
      omega
    · rw [h5]
      simp only [rngAfter, hge]
    · intro x hx
      simp only [draws, hge, List.mem_cons] at hx
      rcases hx with hx | hx
      · rw [hx]; exact hgl
      · exact h6 x hx

/-- With a supported hash the loop of `AF_split` is left early only by a
failed draw, and then with the negative code of that draw; when no draw
fails the loop runs to its end. -/
theorem AF_split_loop_exit {σ ρ : Type} (B : HashBackend σ) (R : RandomSource ρ)
    (name : List Nat) (d : Nat) (H : List Nat → List Nat) (hOK : HashOK B name d H)
    (hd : 1 ≤ d) (hR : RandomOK R) (L : Nat) :
    ∀ (k i : Nat) (r : Int) (dst buf : List Nat) (rng : ρ),
      L * (i + k) ≤ dst.length → buf.length = L →
      ((AF_split_loop B R L name k i r dst buf rng).done = false →
        (AF_split_loop B R L name k i r dst buf rng).r < 0) ∧
      ((∀ s n q, 0 ≤ (R.crypt_random_get s n q).1) →
        (AF_split_loop B R L name k i r dst buf rng).done = true) := by
  intro k
  induction k with
  | zero => intro i r dst buf rng _ _; simp [AF_split_loop]
  | succ k ih =>
    intro i r dst buf rng hlen hbuf
    simp only [AF_split_loop]
    by_cases hg : (R.crypt_random_get rng L RndQuality.CRYPT_RND_NORMAL).1 < 0
    · simp only [hg, ↓reduceIte, forall_const, Bool.false_eq_true, imp_false, not_forall, not_le,
        true_and]
      exact ⟨rng, L, RndQuality.CRYPT_RND_NORMAL, hg⟩
    simp only [hg, ↓reduceIte]
    have hgl := hR rng L RndQuality.CRYPT_RND_NORMAL (not_lt.mp hg)
    generalize R.crypt_random_get rng L RndQuality.CRYPT_RND_NORMAL = g at hgl ⊢
    have hmul : L * (i + (k + 1)) = L * i + L + L * k := by ring
    have hmul2 : L * (i + 1 + k) = L * i + L + L * k := by ring
    have hw1 : (writeAt dst (L * i) g.2.1).length = dst.length :=
      writeAt_length _ _ _ (by rw [hgl]; omega)
    have hx : (XORblock (List.drop (L * i) (writeAt dst (L * i) g.2.1)) buf L).length = L :=
      XORblock_length _ _ _ (by rw [List.length_drop, hw1]; omega) (by omega)
    have hdf := diffuse_ok B name d H hOK hd
      (XORblock (List.drop (L * i) (writeAt dst (L * i) g.2.1)) buf L) L (by omega)
    simp only [hdf.1, ne_eq, not_true_eq_false, ↓reduceIte]
    exact ih (i + 1) g.1 _ _ g.2.2 (by rw [hw1]; omega) (by rw [hdf.2, hx])

theorem AF_split_eq {σ ρ : Type} (B : HashBackend σ) (R : RandomSource ρ)
    (name : List Nat) (d : Nat) (H : List Nat → List Nat) (hOK : HashOK B name d H)
    (hd : 1 ≤ d) (hR : RandomOK R) (S dst : List Nat) (L N : Nat) (rng : ρ)
    (hS : S.length = L) (hdst : L * N ≤ dst.length) (hN : 1 ≤ N) (hN32 : N < 2 ^ 32)
    (h0 : (AF_split B R true S dst L N name rng).1 = 0) :
    (AF_split B R true S dst L N name rng).2.1 =
      (draws R L (N - 1) rng).flatten ++
        XORblock S (af_buf B (AF_split B R true S dst L N name rng).2.1 L name (N - 1)) L ++
        dst.drop (L * N) ∧
    (draws R L (N - 1) rng).flatten.length = L * (N - 1) ∧
    (af_buf B (AF_split B R true S dst L N name rng).2.1 L name (N - 1)).length = L ∧
    (AF_split B R true S dst L N name rng).2.2 = rngAfter R L (N - 1) rng ∧
    (∀ g ∈ draws R L (N - 1) rng, g.length = L) := by
  have hle : L * (0 + (N - 1)) ≤ dst.length :=
    le_trans (Nat.mul_le_mul_left L (by omega)) hdst
  have hLN : L * N = L * (N - 1) + L := by
    have : N = (N - 1) + 1 := by omega
    rw [this, Nat.mul_succ]; simp
  have hex := (AF_split_loop_exit B R name d H hOK hd hR L (N - 1) 0 (-EINVAL) dst
    (List.replicate L 0) rng hle (by simp)).1
  have hsp := AF_split_loop_spec B R name hR L (N - 1) 0 (-EINVAL) dst
    (List.replicate L 0) rng hle rfl
  unfold AF_split at h0 ⊢
  simp only [Bool.not_true, Bool.false_eq_true, ↓reduceIte, u32_pred N hN hN32] at h0 ⊢
  generalize AF_split_loop B R L name (N - 1) 0 (-EINVAL) dst (List.replicate L 0) rng = l
    at h0 hex hsp ⊢
  cases hdn : l.done with
  | false =>
    have := hex hdn
    simp only [hdn, Bool.false_eq_true, ↓reduceIte] at h0
    omega
  | true =>
    obtain ⟨h1, h2, h3, h4, h5, h6⟩ := hsp hdn
    simp only [Nat.zero_add, Nat.mul_zero, List.take_zero, List.nil_append] at h1 h2 h4
    simp only [↓reduceIte]
    have hbl : l.bufblock.length = L := by
      rw [h4]
      exact af_buf_length B name d H hOK hd l.dst L (N - 1)
        (by rw [h2, List.length_append, h3]; omega)
    have hxl : (XORblock S l.bufblock L).length = L :=
      XORblock_length _ _ _ (by omega) (by omega)
    have hldl : l.dst.length = dst.length := by
      rw [h2, List.length_append, h3, List.length_drop]; omega
    have ht : (writeAt l.dst (l.i * L) (XORblock S l.bufblock L)).take (L * (N - 1))
        = l.dst.take (L * (N - 1)) :=
      writeAt_take _ _ _ _ (by rw [h1, Nat.mul_comm]) (by rw [h1, hldl, Nat.mul_comm]; omega)
    have hab : af_buf B (writeAt l.dst (l.i * L) (XORblock S l.bufblock L)) L name (N - 1)
        = l.bufblock := by
      rw [af_buf_congr B L name _ _ (N - 1) ht, ← h4]
    refine ⟨?_, h3, by rw [hab]; exact hbl, h5, h6⟩
    rw [hab]
    unfold writeAt
    rw [h1, hxl, Nat.mul_comm (N - 1) L]
    have e1 : l.dst.take (L * (N - 1)) = (draws R L (N - 1) rng).flatten := by
      rw [h2]; exact List.take_left' h3
    have e2 : l.dst.drop (L * (N - 1) + L) = dst.drop (L * N) := by
      rw [h2, ← List.drop_drop, List.drop_left' h3, List.drop_drop, hLN, Nat.add_comm]
    rw [e1, e2]

theorem AF_split_success {σ ρ : Type} (B : HashBackend σ) (R : RandomSource ρ)
    (name : List Nat) (d : Nat) (H : List Nat → List Nat) (hOK : HashOK B name d H)
    (hd : 1 ≤ d) (hR : RandomOK R) (hA : ∀ s n q, 0 ≤ (R.crypt_random_get s n q).1)
    (S dst : List Nat) (L N : Nat) (rng : ρ)
    (hdst : L * N ≤ dst.length) (hN : 1 ≤ N) (hN32 : N < 2 ^ 32) :
    (AF_split B R true S dst L N name rng).1 = 0 := by
  have hle : L * (0 + (N - 1)) ≤ dst.length :=
    le_trans (Nat.mul_le_mul_left L (by omega)) hdst
  have hex := (AF_split_loop_exit B R name d H hOK hd hR L (N - 1) 0 (-EINVAL) dst
    (List.replicate L 0) rng hle (by simp)).2 hA
  unfold AF_split
  simp only [Bool.not_true, Bool.false_eq_true, ↓reduceIte, u32_pred N hN hN32, hex]

/-! ## Concrete provider and random sources -/

theorem gcrypt_HashOK (G : GcryLib) (name : List Nat)
    (hname : G.gcry_md_map_name name ≠ 0)
    (hlen : ∀ m, (G.gcry_md_read (G.gcry_md_map_name name) m).length =
      G.gcry_md_get_algo_dlen (G.gcry_md_map_name name))
    (hsmall : 1 ≤ G.gcry_md_get_algo_dlen (G.gcry_md_map_name name) ∧
      G.gcry_md_get_algo_dlen (G.gcry_md_map_name name) < 2 ^ 31) :
    HashOK (gcrypt_backend G) name (G.gcry_md_get_algo_dlen (G.gcry_md_map_name name))
      (G.gcry_md_read (G.gcry_md_map_name name)) := by
  refine ⟨by simp [gcrypt_backend, hname], hsmall, hlen,
    fun s m => s.hash_id = G.gcry_md_map_name name ∧
      s.hash_len = G.gcry_md_get_algo_dlen (G.gcry_md_map_name name) ∧ s.hd = m, ?_, ?_, ?_⟩
  · exact ⟨⟨[], G.gcry_md_map_name name, G.gcry_md_get_algo_dlen (G.gcry_md_map_name name)⟩,
      by simp [gcrypt_backend, hname], rfl, rfl, rfl⟩
  · rintro s m bs ⟨h1, h2, h3⟩
    simp [gcrypt_backend, h1, h2, h3]
  · rintro s m len ⟨h1, h2, h3⟩ hl
    have : ¬ G.gcry_md_get_algo_dlen (G.gcry_md_map_name name) < len := by omega
    simp [gcrypt_backend, h1, h2, h3, this]

theorem demo_HashOK : HashOK (gcrypt_backend demoLib) (ascii "demo") 4 demoHash :=
  gcrypt_HashOK demoLib (ascii "demo") (by decide) (fun m => by simp [demoLib])
    (by decide)

theorem constSource_ok (b : Nat) : RandomOK (constSource b) := by
  intro s n q _
  simp [constSource]

theorem metered_ok {ρ : Type} (R : RandomSource ρ) (hR : RandomOK R) : RandomOK (metered R) := by
  intro s n q h
  exact hR s.1 n q h

theorem metered_draws {ρ : Type} (R : RandomSource ρ) (L : Nat) :
    ∀ k (s : ρ) (c : Nat),
      draws (metered R) L k (s, c) = draws R L k s ∧
      rngAfter (metered R) L k (s, c) =
        (rngAfter R L k s, c + (draws R L k s).flatten.length) := by
  intro k
  induction k with
  | zero => intro s c; simp [draws, rngAfter]
  | succ k ih =>
    intro s c
    obtain ⟨h1, h2⟩ := ih (R.crypt_random_get s L RndQuality.CRYPT_RND_NORMAL).2.2
      (c + (R.crypt_random_get s L RndQuality.CRYPT_RND_NORMAL).2.1.length)
    simp only [draws, rngAfter, metered] at h1 h2 ⊢
    rw [h1, h2]
    simp only [List.flatten_cons, List.length_append, true_and, Prod.mk.injEq]
    omega

/-- A successful `AF_split` with a supported hash takes `L * (N - 1)` bytes
from the random source. -/
theorem AF_split_metered {σ ρ : Type} (B : HashBackend σ) (R : RandomSource ρ)
    (name : List Nat) (d : Nat) (H : List Nat → List Nat) (hOK : HashOK B name d H)
    (hd : 1 ≤ d) (hR : RandomOK R) (S dst : List Nat) (L N : Nat) (rng : ρ) (c : Nat)
    (hS : S.length = L) (hdst : L * N ≤ dst.length) (hN : 1 ≤ N) (hN32 : N < 2 ^ 32)
    (h0 : (AF_split B (metered R) true S dst L N name (rng, c)).1 = 0) :
    (AF_split B (metered R) true S dst L N name (rng, c)).2.2.2 = c + L * (N - 1) := by
  obtain ⟨_, h2, _, h4, _⟩ := AF_split_eq B (metered R) name d H hOK hd (metered_ok R hR)
    S dst L N (rng, c) hS hdst hN hN32 h0
  obtain ⟨m1, m2⟩ := metered_draws R L (N - 1) rng c
  rw [m1] at h2
  rw [h4, m2, h2]

/-! ## `diffuse` against its specification -/

theorem diffuse_chunk_full (block : List Nat) (d i : Nat) (h : d * (i + 1) ≤ block.length) :
    diffuse_chunk block d i = (block.drop (d * i)).take d ∧
    (diffuse_chunk block d i).length = d := by
  refine ⟨rfl, ?_⟩
  unfold diffuse_chunk
  exact readAt_length _ _ _ (by rw [Nat.mul_succ] at h; exact h)

theorem diffuse_prefix_length (H : List Nat → List Nat) (hH : ∀ m, (H m).length = d)
    (block : List Nat) :
    ∀ n, d * n ≤ block.length →
      (((List.range n).map (diffuse_out H block d)).flatten).length = d * n := by
  intro n
  induction n with
  | zero => intro _; simp
  | succ n ih =>
    intro h
    have hc := diffuse_chunk_full block d n h
    rw [List.range_succ, List.map_append, List.flatten_append, List.length_append,
      ih (le_trans (Nat.mul_le_mul_left d (Nat.le_succ n)) h)]
    simp only [List.map_cons, List.map_nil, List.flatten_cons, List.flatten_nil,
      List.append_nil, diffuse_out, List.length_take, hH, hc.2, Nat.min_self]
    rw [Nat.mul_succ]

theorem diffuse_loop_spec {σ : Type} (B : HashBackend σ) (name : List Nat) (d : Nat)
    (H : List Nat → List Nat) (hOK : HashOK B name d H) (block : List Nat) :
    ∀ (k i : Nat), d * (i + k) ≤ block.length → d * (i + k) < 2 ^ 32 →
      diffuse_loop B d name k i
        (((List.range i).map (diffuse_out H block d)).flatten ++ block.drop (d * i)) =
      (0, ((List.range (i + k)).map (diffuse_out H block d)).flatten ++
        block.drop (d * (i + k)), i + k) := by
  intro k
  induction k with
  | zero => intro i _ _; simp [diffuse_loop]
  | succ k ih =>
    intro i hlen h32
    have hmul : d * (i + (k + 1)) = d * i + d + d * k := by ring
    have hmul1 : d * (i + 1) = d * i + d := by ring
    have hi1 : d * (i + 1) ≤ block.length := by omega
    have hpl := diffuse_prefix_length H (hashOK_len hOK) block i (by omega)
    have hc := diffuse_chunk_full block d i hi1
    have hoff : d * i % 2 ^ 32 = d * i := Nat.mod_eq_of_lt (by omega)
    simp only [diffuse_loop, hoff]
    rw [List.drop_left' hpl, hash_buf_ok B name d H hOK _ i d (le_refl d)]
    simp only [ne_eq, not_true_eq_false, ↓reduceIte]
    have hout : List.take d (H (htonl i ++ List.take d (List.drop (d * i) block)))
        = diffuse_out H block d i := by
      unfold diffuse_out
      rw [hc.2, hc.1]
    have hol : (diffuse_out H block d i).length = d := by
      rw [← hout, List.length_take, hashOK_len hOK, Nat.min_self]
    rw [hout]
    have hw : writeAt (((List.range i).map (diffuse_out H block d)).flatten ++
        block.drop (d * i)) (d * i) (diffuse_out H block d i) =
        ((List.range (i + 1)).map (diffuse_out H block d)).flatten ++
          block.drop (d * (i + 1)) := by
      unfold writeAt
      rw [List.take_left' hpl, hol, ← List.drop_drop, List.drop_left' hpl, List.drop_drop,
        List.range_succ, List.map_append, List.flatten_append, hmul1]
      simp
    rw [hw]
    have hmul2 : d * (i + 1 + k) = d * i + d + d * k := by ring
    have := ih (i + 1) (by omega) (by omega)
    rw [this]
    have e : i + 1 + k = i + (k + 1) := by omega
    rw [e]

theorem ceil_div_cases (len d : Nat) (hd : 1 ≤ d) :
    (len + d - 1) / d = if len % d = 0 then len / d else len / d + 1 := by
  have hdm : d * (len / d) + len % d = len := Nat.div_add_mod len d
  have hpl : len % d < d := Nat.mod_lt _ (by omega)
  by_cases hp : len % d = 0
  · simp only [hp, ↓reduceIte]
    apply Nat.div_eq_of_lt_le
    · rw [Nat.mul_comm]; omega
    · rw [Nat.succ_mul, Nat.mul_comm]; omega
  · simp only [hp, ↓reduceIte]
    apply Nat.div_eq_of_lt_le
    · rw [Nat.succ_mul, Nat.mul_comm]; omega
    · rw [Nat.succ_mul, Nat.succ_mul, Nat.mul_comm]; omega

theorem diffuse_eq_spec {σ : Type} (B : HashBackend σ) (name : List Nat) (d : Nat)
    (H : List Nat → List Nat) (hOK : HashOK B name d H) (hd : 1 ≤ d)
    (block : List Nat) (len : Nat) (hlen : block.length = len) (h32 : len < 2 ^ 32) :
    diffuse B block len name = (0, diffuse_spec H d block) := by
  have hdm : d * (len / d) + len % d = len := Nat.div_add_mod len d
  have hpl : len % d < d := Nat.mod_lt _ (by omega)
  have hq : len / d ≤ len := Nat.div_le_self _ _
  have hblocks : len / d % 2 ^ 32 = len / d := Nat.mod_eq_of_lt (by omega)
  have hpad : len % d % 2 ^ 32 = len % d := Nat.mod_eq_of_lt (by omega)
  have hoff : d * (len / d) % 2 ^ 32 = d * (len / d) := Nat.mod_eq_of_lt (by omega)
  have hl := diffuse_loop_spec B name d H hOK block (len / d) 0 (by simp; omega)
    (by simp; omega)
  simp only [List.range_zero, List.map_nil, List.flatten_nil, Nat.mul_zero, List.drop_zero,
    List.nil_append, Nat.zero_add] at hl
  have hpl2 := diffuse_prefix_length H (hashOK_len hOK) block (len / d) (by omega)
  unfold diffuse diffuse_spec
  simp only [hashOK_size hOK, hblocks, hpad, hl, ne_eq, not_true_eq_false, ↓reduceIte, hoff]
  rw [hlen, ceil_div_cases len d hd]
  by_cases hp : len % d = 0
  · simp only [hp, not_true_eq_false, ↓reduceIte, Prod.mk.injEq, true_and]
    rw [List.drop_eq_nil_of_le (by omega), List.append_nil]
  · simp only [hp, not_false_eq_true, ↓reduceIte]
    rw [List.drop_left' hpl2, hash_buf_ok B name d H hOK _ _ _ (le_of_lt hpl)]
    simp only [ne_eq, not_true_eq_false, ↓reduceIte, Prod.mk.injEq, true_and]
    have hdl : (block.drop (d * (len / d))).length = len % d := by
      rw [List.length_drop]; omega
    have hch : diffuse_chunk block d (len / d) = block.drop (d * (len / d)) := by
      unfold diffuse_chunk readAt
      exact List.take_of_length_le (by omega)
    have hout : List.take (len % d)
        (H (htonl (len / d) ++ List.take (len % d) (List.drop (d * (len / d)) block)))
        = diffuse_out H block d (len / d) := by
      unfold diffuse_out
      rw [hch, hdl, List.take_of_length_le (le_of_eq hdl)]
    have hol : (diffuse_out H block d (len / d)).length = len % d := by
      rw [← hout, List.length_take, hashOK_len hOK]; omega
    rw [hout]
    unfold writeAt
    rw [List.take_left' hpl2, hol, List.drop_eq_nil_of_le (by
      rw [List.length_append, hpl2, hdl]), List.range_succ, List.map_append,
      List.flatten_append]
    simp

theorem diffuse_wrap_demo (block : List Nat) :
    diffuse (gcrypt_backend demoLib) block (2 ^ 34) (ascii "demo") = (0, block) := by
  unfold diffuse
  rw [hashOK_size demo_HashOK]
  have h1 : 2 ^ 34 / 4 % 2 ^ 32 = 0 := by norm_num
  have h2 : 2 ^ 34 % 4 % 2 ^ 32 = 0 := by norm_num
  simp only [h1, h2, diffuse_loop, ne_eq, not_true_eq_false, ↓reduceIte]

theorem zero_chunk_demo (n : Nat) (hn : 4 ≤ n) :
    (List.replicate n 0).take 4 ≠
      (demoHash (htonl 0 ++ diffuse_chunk (List.replicate n 0) 4 0)).take
        (diffuse_chunk (List.replicate n 0) 4 0).length := by
  have hc : diffuse_chunk (List.replicate n 0) 4 0 = [0, 0, 0, 0] := by
    simp only [diffuse_chunk, readAt, Nat.mul_zero, List.drop_zero, List.take_replicate,
      Nat.min_eq_left hn]
    rfl
  rw [hc, List.take_replicate, Nat.min_eq_left hn]
  decide

theorem AF_merge_split_aux {σ ρ : Type} (B : HashBackend σ) (R : RandomSource ρ)
    (name : List Nat) (d : Nat) (H : List Nat → List Nat) (hOK : HashOK B name d H)
    (hd : 1 ≤ d) (hR : RandomOK R) (S dst out : List Nat) (L N : Nat) (rng : ρ)
    (hS : S.length = L) (hdst : L * N ≤ dst.length) (hN : 1 ≤ N) (hN32 : N < 2 ^ 32)
    (h0 : (AF_split B R true S dst L N name rng).1 = 0) :
    AF_merge B true (AF_split B R true S dst L N name rng).2.1 out L N name
      = (0, S ++ out.drop L) := by
  obtain ⟨h1, h2, h3, _, _⟩ := AF_split_eq B R name d H hOK hd hR S dst L N rng hS hdst
    hN hN32 h0
  generalize (AF_split B R true S dst L N name rng).2.1 = M at h1 h3 ⊢
  have hx : (XORblock S (af_buf B M L name (N - 1)) L).length = L :=
    XORblock_length _ _ _ (by omega) (by omega)
  have hM : L * N ≤ M.length := by
    rw [h1]
    simp only [List.length_append, h2, hx, List.length_drop]
    have : L * N = L * (N - 1) + L := by
      have : N = (N - 1) + 1 := by omega
      rw [this, Nat.mul_succ]; simp
    omega
  rw [AF_merge_eq B name d H hOK hd M out L N hM (by omega) hN32]
  have hr : readAt M ((N - 1) * L) L = XORblock S (af_buf B M L name (N - 1)) L := by
    unfold readAt
    conv_lhs => rw [h1]
    rw [List.append_assoc, List.drop_left' (by rw [h2, Nat.mul_comm]),
      List.take_left' hx]
  have hc : XORblock (af_buf B M L name (N - 1)) (readAt M ((N - 1) * L) L) L = S := by
    rw [hr, XORblock_comm]
    have := XORblock_cancel S (af_buf B M L name (N - 1)) [] L hS h3
    rwa [List.append_nil] at this
  rw [hc]
  simp [writeAt, hS]

theorem writeAt_readAt_self (M : List Nat) (off n : Nat) (h : off + n ≤ M.length) :
    writeAt M off (readAt M off n) = M := by
  have hl : (readAt M off n).length = n := readAt_length M off n h
  unfold writeAt
  rw [hl]
  unfold readAt
  rw [List.append_assoc, ← List.drop_drop, List.take_append_drop, List.take_append_drop]

theorem XORblock_self (S : List Nat) (n : Nat) (hS : S.length = n) :
    XORblock S S n = List.replicate n 0 := by
  subst hS
  unfold XORblock
  rw [List.take_of_length_le (le_refl _)]
  induction S with
  | nil => rfl
  | cons x xs ih => simp [List.replicate_succ, ih]

theorem XORblock_zero_right (buf : List Nat) (n : Nat) (hb : buf.length = n) :
    XORblock buf (List.replicate n 0) n = buf := by
  rw [XORblock_comm]; exact XORblock_zero_left buf n hb

/-! ## Main statements on the anti-forensic splitter -/

/-- C1 (AF inverse): for a secret `S` of length `L`, `N ≥ 2` stripes, a
supported hash and any outcome of the random draws, when `AF_split` returns
`0` with `M` in its output buffer, `AF_merge` on `M` returns `0` and stores
exactly `S` in its output buffer. -/
theorem AF_merge_AF_split {σ ρ : Type} (B : HashBackend σ) (R : RandomSource ρ)
    (name : List Nat) (d : Nat) (H : List Nat → List Nat) (hOK : HashOK B name d H)
    (hR : RandomOK R) (S dst out : List Nat) (L N : Nat) (rng : ρ)
    (hS : S.length = L) (hdst : L * N ≤ dst.length) (hN : 2 ≤ N) (hN32 : N < 2 ^ 32)
    (h0 : (AF_split B R true S dst L N name rng).1 = 0) :
    AF_merge B true (AF_split B R true S dst L N name rng).2.1 out L N name
      = (0, S ++ out.drop L) :=
  AF_merge_split_aux B R name d H hOK hOK.2.1.1 hR S dst out L N rng hS hdst (by omega)
    hN32 h0

theorem AF_merge_AF_split_witness :
    AF_merge (gcrypt_backend demoLib) true
      (AF_split (gcrypt_backend demoLib) (constSource 7) true [1, 2, 3, 4, 5]
        (List.replicate 15 0) 5 3 (ascii "demo") ()).2.1
      (List.replicate 5 0) 5 3 (ascii "demo")
      = (0, [1, 2, 3, 4, 5] ++ (List.replicate 5 0).drop 5) :=
  AF_merge_AF_split (gcrypt_backend demoLib) (constSource 7) (ascii "demo") 4 demoHash
    demo_HashOK (constSource_ok 7) [1, 2, 3, 4, 5] (List.replicate 15 0)
    (List.replicate 5 0) 5 3 () (by decide) (by decide) (by decide) (by decide) (by decide)

/-- C2: for an input `M` of length `L·N` (`N ≥ 1`) and a supported hash,
`AF_merge` returns `0` and stores `buf XOR M[(N-1)·L .. N·L)`, where `buf`
starts as `L` zero bytes and is updated for `i = 0 .. N-2` in order by
`buf := diffuse(buf XOR M[i·L .. (i+1)·L), L, H)`. -/
theorem AF_merge_spec {σ : Type} (B : HashBackend σ) (name : List Nat) (d : Nat)
    (H : List Nat → List Nat) (hOK : HashOK B name d H)
    (M out : List Nat) (L N : Nat) (hM : M.length = L * N) (hN : 1 ≤ N) (hN32 : N < 2 ^ 32) :
    AF_merge B true M out L N name =
      (0, XORblock (af_buf B M L name (N - 1)) (readAt M ((N - 1) * L) L) L ++ out.drop L) := by
  have hd : 1 ≤ d := hOK.2.1.1
  rw [AF_merge_eq B name d H hOK hd M out L N (by omega) hN hN32]
  have hLN : L * N = L * (N - 1) + L := by
    have : N = (N - 1) + 1 := by omega
    rw [this, Nat.mul_succ]; simp
  have hx : (XORblock (af_buf B M L name (N - 1)) (readAt M ((N - 1) * L) L) L).length = L :=
    XORblock_length _ _ _
      (by rw [af_buf_length B name d H hOK hd M L (N - 1) (by omega)])
      (by rw [readAt_length _ _ _ (by rw [Nat.mul_comm]; omega)])
  simp [writeAt, hx]

theorem AF_merge_spec_witness :
    AF_merge (gcrypt_backend demoLib) true [9, 8, 7, 6, 5, 4] [0, 0, 0] 2 3 (ascii "demo") =
      (0, XORblock (af_buf (gcrypt_backend demoLib) [9, 8, 7, 6, 5, 4] 2 (ascii "demo") (3 - 1))
        (readAt [9, 8, 7, 6, 5, 4] ((3 - 1) * 2) 2) 2 ++ [0, 0, 0].drop 2) :=
  AF_merge_spec (gcrypt_backend demoLib) (ascii "demo") 4 demoHash demo_HashOK
    [9, 8, 7, 6, 5, 4] [0, 0, 0] 2 3 (by decide) (by decide) (by decide)

/-- C3: for a secret `S` of length `L`, `N ≥ 1` and a supported hash, a
successful `AF_split` writes exactly `L·N` bytes (the rest of the buffer is
untouched): stripes `0 .. N-2` are the successive `L`-byte draws at quality
`normal` in draw order, and the last stripe is `buf XOR S`, where `buf` starts
as `L` zero bytes and is updated after each draw by
`buf := diffuse(buf XOR stripe_i, L, H)`. -/
theorem AF_split_spec {σ ρ : Type} (B : HashBackend σ) (R : RandomSource ρ)
    (name : List Nat) (d : Nat) (H : List Nat → List Nat) (hOK : HashOK B name d H)
    (hR : RandomOK R) (S dst : List Nat) (L N : Nat) (rng : ρ)
    (hS : S.length = L) (hdst : L * N ≤ dst.length) (hN : 1 ≤ N) (hN32 : N < 2 ^ 32)
    (h0 : (AF_split B R true S dst L N name rng).1 = 0) :
    (AF_split B R true S dst L N name rng).2.1 =
      (draws R L (N - 1) rng).flatten ++
        XORblock (af_buf B (AF_split B R true S dst L N name rng).2.1 L name (N - 1)) S L ++
        dst.drop (L * N) ∧
    (draws R L (N - 1) rng).length = N - 1 ∧
    (∀ g ∈ draws R L (N - 1) rng, g.length = L) ∧
    (XORblock (af_buf B (AF_split B R true S dst L N name rng).2.1 L name (N - 1)) S L).length
      = L ∧
    (AF_split B R true S dst L N name rng).2.1.length = dst.length := by
  have hd : 1 ≤ d := hOK.2.1.1
  obtain ⟨h1, h2, h3, _, h5⟩ := AF_split_eq B R name d H hOK hd hR S dst L N rng hS hdst
    hN hN32 h0
  generalize (AF_split B R true S dst L N name rng).2.1 = M at h1 h3 ⊢
  have hx : (XORblock (af_buf B M L name (N - 1)) S L).length = L :=
    XORblock_length _ _ _ (by omega) (by omega)
  have hLN : L * N = L * (N - 1) + L := by
    have : N = (N - 1) + 1 := by omega
    rw [this, Nat.mul_succ]; simp
  refine ⟨by rw [XORblock_comm]; exact h1, draws_length R L (N - 1) rng, h5, hx, ?_⟩
  rw [h1, XORblock_comm]
  simp only [List.length_append, h2, hx, List.length_drop]
  omega

theorem AF_split_spec_witness :
    (AF_split (gcrypt_backend demoLib) (constSource 7) true [1, 2] (List.replicate 7 0) 2 3
      (ascii "demo") ()).2.1.length = (List.replicate 7 0).length :=
  (AF_split_spec (gcrypt_backend demoLib) (constSource 7) (ascii "demo") 4 demoHash
    demo_HashOK (constSource_ok 7) [1, 2] (List.replicate 7 0) 2 3 ()
    (by decide) (by decide) (by decide) (by decide) (by decide)).2.2.2.2

/-- C4, as amended: for a block of length `len < 2^32` and a supported hash
with digest size `d ≥ 1`, `diffuse` returns `0` and outputs exactly `len`
bytes formed from `ceil(len/d)` chunks of size `d` (the last one of size
`len mod d` when that is non-zero): output chunk `i` is the first `|chunk_i|`
bytes of `H(be32(i) || chunk_i)`. -/
theorem diffuse_chunks {σ : Type} (B : HashBackend σ) (name : List Nat) (d : Nat)
    (H : List Nat → List Nat) (hOK : HashOK B name d H)
    (block : List Nat) (len : Nat) (hlen : block.length = len) (h32 : len < 2 ^ 32) :
    diffuse B block len name =
      (0, ((List.range ((len + d - 1) / d)).map (diffuse_out H block d)).flatten) ∧
    (((List.range ((len + d - 1) / d)).map (diffuse_out H block d)).flatten).length = len ∧
    (∀ i, i < (len + d - 1) / d →
      diffuse_chunk block d i = (block.drop (d * i)).take d ∧
      (diffuse_chunk block d i).length = (if i < len / d then d else len % d) ∧
      diffuse_out H block d i =
        (H (htonl i ++ diffuse_chunk block d i)).take (diffuse_chunk block d i).length) := by
  have hd : 1 ≤ d := hOK.2.1.1
  have he := diffuse_eq_spec B name d H hOK hd block len hlen h32
  have hl := (diffuse_ok B name d H hOK hd block len (by omega)).2
  rw [he] at hl
  unfold diffuse_spec at he hl
  rw [hlen] at he hl
  refine ⟨he, hl, ?_⟩
  intro i hi
  refine ⟨rfl, ?_, rfl⟩
  have hdm : d * (len / d) + len % d = len := Nat.div_add_mod len d
  have hpl : len % d < d := Nat.mod_lt _ (by omega)
  by_cases hq : i < len / d
  · simp only [hq, ↓reduceIte]
    have : d * (i + 1) ≤ d * (len / d) := Nat.mul_le_mul_left d hq
    exact (diffuse_chunk_full block d i (by omega)).2
  · simp only [hq, ↓reduceIte]
    rw [ceil_div_cases len d hd] at hi
    have hi2 : i = len / d := by
      by_cases hp : len % d = 0
      · simp only [hp, ↓reduceIte] at hi; omega
      · simp only [hp, ↓reduceIte] at hi; omega
    subst hi2
    simp only [diffuse_chunk, readAt, List.length_take, List.length_drop, hlen]
    omega

theorem diffuse_chunks_witness :
    diffuse (gcrypt_backend demoLib) [1, 2, 3, 4, 5, 6] 6 (ascii "demo") =
      (0, ((List.range ((6 + 4 - 1) / 4)).map (diffuse_out demoHash [1, 2, 3, 4, 5, 6] 4)).flatten) :=
  (diffuse_chunks (gcrypt_backend demoLib) (ascii "demo") 4 demoHash demo_HashOK
    [1, 2, 3, 4, 5, 6] 6 (by decide) (by decide)).1

/-- C4 as stated fails on a block of `2^34` bytes with the 4-byte `demo`
digest: the block count `2^34 / 4` wraps to `0` in `unsigned int`, so
`diffuse` returns `0` and leaves the block as it was, while the first output
chunk of the claim is a digest prefix different from the block's first bytes. -/
theorem diffuse_large_block :
    diffuse (gcrypt_backend demoLib) (List.replicate (2 ^ 34) 0) (2 ^ 34) (ascii "demo") =
      (0, List.replicate (2 ^ 34) 0) ∧
    (List.replicate (2 ^ 34) 0).take 4 ≠
      (demoHash (htonl 0 ++ diffuse_chunk (List.replicate (2 ^ 34) 0) 4 0)).take
        (diffuse_chunk (List.replicate (2 ^ 34) 0) 4 0).length :=
  ⟨diffuse_wrap_demo _, zero_chunk_demo (2 ^ 34) (by norm_num)⟩

theorem XORblock_left_inj (a b x : List Nat) (n : Nat) (ha : a.length = n)
    (hb : b.length = n) (hx : x.length = n) (h : XORblock a x n = XORblock b x n) : a = b := by
  have h1 := XORblock_cancel a x [] n ha hx
  have h2 := XORblock_cancel b x [] n hb hx
  rw [List.append_nil] at h1 h2
  rw [← h1, ← h2, h]

theorem XORblock_right_inj (a x y : List Nat) (n : Nat) (ha : a.length = n)
    (hx : x.length = n) (hy : y.length = n) (h : XORblock a x n = XORblock a y n) : x = y := by
  rw [XORblock_comm a x, XORblock_comm a y] at h
  exact XORblock_left_inj x y a n hx hy ha h

/-- A stripe of `M` set to zero: the buffer keeps its length, the bytes before
the stripe and the stripes after it are as they were, and the stripe reads as
zero. -/
theorem zeroStripe_facts (M : List Nat) (L i : Nat) (hi : i * L + L ≤ M.length) :
    (zeroStripe M L i).length = M.length ∧
    (zeroStripe M L i).take (L * i) = M.take (L * i) ∧
    readAt (zeroStripe M L i) (i * L) L = List.replicate L 0 ∧
    ∀ j, i < j → readAt (zeroStripe M L i) (j * L) L = readAt M (j * L) L := by
  refine ⟨?_, ?_, ?_, ?_⟩
  · unfold zeroStripe
    exact writeAt_length _ _ _ (by rw [List.length_replicate]; exact hi)
  · unfold zeroStripe
    exact writeAt_take _ _ _ _ (by rw [Nat.mul_comm]) (by omega)
  · unfold zeroStripe readAt
    rw [writeAt_drop _ _ _ (by omega)]
    exact List.take_left' (by simp)
  · intro j hj
    unfold zeroStripe readAt
    have hle : i * L + L ≤ j * L := by
      have : (i + 1) * L ≤ j * L := Nat.mul_le_mul_right L hj
      rw [Nat.succ_mul] at this
      exact this
    rw [writeAt_drop_after _ _ _ _ (by rw [List.length_replicate]; exact hi)
      (by rw [List.length_replicate]; exact hle)]

/-- The accumulators of the merge of `M` and of `M` with its stripe `i` set to
zero: when stripe `i` was not all-zero and the diffuser does not send the two
differing blocks of a stripe `j ≥ i` to the same block, the accumulators differ
after every stripe from `i` on. -/
theorem af_buf_zeroStripe_ne {σ : Type} (B : HashBackend σ) (name : List Nat) (d : Nat)
    (H : List Nat → List Nat) (hOK : HashOK B name d H) (M : List Nat) (L N i : Nat)
    (hM : L * N ≤ M.length) (hi : i < N - 1)
    (hnz : readAt M (i * L) L ≠ List.replicate L 0)
    (hcoll : ∀ j, i ≤ j → j < N - 1 →
      af_buf B (zeroStripe M L i) L name (j + 1) = af_buf B M L name (j + 1) →
      XORblock (af_buf B (zeroStripe M L i) L name j) (readAt (zeroStripe M L i) (j * L) L) L =
        XORblock (af_buf B M L name j) (readAt M (j * L) L) L) :
    ∀ k, i + 1 + k ≤ N - 1 →
      af_buf B (zeroStripe M L i) L name (i + 1 + k) ≠ af_buf B M L name (i + 1 + k) := by
  have hd : 1 ≤ d := hOK.2.1.1
  have hstripe : ∀ j, j < N → j * L + L ≤ M.length := by
    intro j hj
    have : (j + 1) * L ≤ N * L := Nat.mul_le_mul_right L hj
    rw [Nat.succ_mul] at this
    rw [Nat.mul_comm N L] at this
    omega
  have hpre : ∀ j, j ≤ N → L * j ≤ M.length := by
    intro j hj
    have : L * j ≤ L * N := Nat.mul_le_mul_left L hj
    omega
  obtain ⟨hzl, hzt, hzr, hzafter⟩ := zeroStripe_facts M L i (hstripe i (by omega))
  have hsame : af_buf B (zeroStripe M L i) L name i = af_buf B M L name i :=
    af_buf_congr B L name _ _ i hzt
  have hal : ∀ j, j ≤ N → (af_buf B M L name j).length = L :=
    fun j hj => af_buf_length B name d H hOK hd M L j (hpre j hj)
  have hal1 : ∀ j, j ≤ N → (af_buf B (zeroStripe M L i) L name j).length = L :=
    fun j hj => af_buf_length B name d H hOK hd _ L j (by rw [hzl]; exact hpre j hj)
  intro k
  induction k with
  | zero =>
    intro _ heq
    have h := hcoll i (le_refl i) hi heq
    rw [hsame, hzr] at h
    exact hnz (XORblock_right_inj _ _ _ L (hal i (by omega))
      (readAt_length M (i * L) L (hstripe i (by omega))) (by simp) h.symm)
  | succ k ih =>
    intro hk heq
    have hprev := ih (by omega)
    have h := hcoll (i + 1 + k) (by omega) (by omega) heq
    rw [hzafter (i + 1 + k) (by omega)] at h
    exact hprev (XORblock_left_inj _ _ _ L (hal1 _ (by omega)) (hal _ (by omega))
      (readAt_length M ((i + 1 + k) * L) L (hstripe _ (by omega))) h)

/-- C5, as amended: with `M` the output of a successful `AF_split` of `S`
(`N ≥ 2`, supported hash). Setting to zero a stripe `i < N` of `M` that the
split left all-zero makes no difference, `AF_merge` still returns `S`. Setting
the last stripe to zero makes `AF_merge` return a value different from `S`
whenever that stripe was not all-zero. Setting to zero one of the `N - 1`
random stripes, `i < N - 1`, that was not all-zero makes `AF_merge` return a
value different from `S` whenever the diffuser does not collide on the way:
for no stripe `j` from `i` to `N - 2` does it send the two differing blocks
(accumulator XOR stripe `j`, of `M` and of `M` with stripe `i` zeroed) to the
same block. -/
theorem AF_merge_zeroStripe {σ ρ : Type} (B : HashBackend σ) (R : RandomSource ρ)
    (name : List Nat) (d : Nat) (H : List Nat → List Nat) (hOK : HashOK B name d H)
    (hR : RandomOK R) (S dst out : List Nat) (L N : Nat) (rng : ρ)
    (hS : S.length = L) (hdst : L * N ≤ dst.length) (hN : 2 ≤ N) (hN32 : N < 2 ^ 32)
    (h0 : (AF_split B R true S dst L N name rng).1 = 0) :
    (∀ i, i < N →
      readAt (AF_split B R true S dst L N name rng).2.1 (i * L) L = List.replicate L 0 →
      AF_merge B true (zeroStripe (AF_split B R true S dst L N name rng).2.1 L i) out L N name
        = (0, S ++ out.drop L)) ∧
    (readAt (AF_split B R true S dst L N name rng).2.1 ((N - 1) * L) L ≠ List.replicate L 0 →
      ∃ X, AF_merge B true (zeroStripe (AF_split B R true S dst L N name rng).2.1 L (N - 1))
        out L N name = (0, X ++ out.drop L) ∧ X.length = L ∧ X ≠ S) ∧
    (∀ i, i < N - 1 →
      readAt (AF_split B R true S dst L N name rng).2.1 (i * L) L ≠ List.replicate L 0 →
      (∀ j, i ≤ j → j < N - 1 →
        af_buf B (zeroStripe (AF_split B R true S dst L N name rng).2.1 L i) L name (j + 1) =
          af_buf B (AF_split B R true S dst L N name rng).2.1 L name (j + 1) →
        XORblock (af_buf B (zeroStripe (AF_split B R true S dst L N name rng).2.1 L i) L name j)
            (readAt (zeroStripe (AF_split B R true S dst L N name rng).2.1 L i) (j * L) L) L =
          XORblock (af_buf B (AF_split B R true S dst L N name rng).2.1 L name j)
            (readAt (AF_split B R true S dst L N name rng).2.1 (j * L) L) L) →
      ∃ X, AF_merge B true (zeroStripe (AF_split B R true S dst L N name rng).2.1 L i)
        out L N name = (0, X ++ out.drop L) ∧ X.length = L ∧ X ≠ S) := by
  have hd : 1 ≤ d := hOK.2.1.1
  have haux := AF_merge_split_aux B R name d H hOK hd hR S dst out L N rng hS hdst
    (by omega) hN32 h0
  obtain ⟨h1, h2, h3, _, _⟩ := AF_split_eq B R name d H hOK hd hR S dst L N rng hS hdst
    (by omega) hN32 h0
  generalize (AF_split B R true S dst L N name rng).2.1 = M at h1 h3 haux ⊢
  have hLN : L * N = L * (N - 1) + L := by
    have : N = (N - 1) + 1 := by omega
    rw [this, Nat.mul_succ]; simp
  have hx : (XORblock S (af_buf B M L name (N - 1)) L).length = L :=
    XORblock_length _ _ _ (by omega) (by omega)
  have hM : L * N ≤ M.length := by
    rw [h1]
    simp only [List.length_append, h2, hx, List.length_drop]
    omega
  have hlast : (N - 1) * L + L ≤ M.length := by rw [Nat.mul_comm]; omega
  have hr : readAt M ((N - 1) * L) L = XORblock S (af_buf B M L name (N - 1)) L := by
    unfold readAt
    conv_lhs => rw [h1]
    rw [List.append_assoc, List.drop_left' (by rw [h2, Nat.mul_comm]),
      List.take_left' hx]
  refine ⟨?_, ?_, ?_⟩
  · intro i hi hz
    have hil : i * L + L ≤ M.length := by
      have : (i + 1) * L ≤ N * L := Nat.mul_le_mul_right L hi
      rw [Nat.succ_mul] at this
      rw [Nat.mul_comm N L] at this
      omega
    unfold zeroStripe
    rw [← hz, writeAt_readAt_self M (i * L) L hil]
    exact haux
  · intro hnz
    obtain ⟨hzl, hzt, hzr, _⟩ := zeroStripe_facts M L (N - 1) hlast
    refine ⟨af_buf B M L name (N - 1), ?_, h3, ?_⟩
    · rw [AF_merge_eq B name d H hOK hd _ out L N (by rw [hzl]; exact hM) (by omega) hN32,
        hzr, af_buf_congr B L name _ _ (N - 1) hzt, XORblock_zero_right _ _ h3]
      simp [writeAt, h3]
    · intro hbs
      apply hnz
      rw [hr, hbs]
      exact XORblock_self S L hS
  · intro i hi hnz hcoll
    have hil : i * L + L ≤ M.length := by
      have : (i + 1) * L ≤ N * L := Nat.mul_le_mul_right L (by omega)
      rw [Nat.succ_mul] at this
      rw [Nat.mul_comm N L] at this
      omega
    obtain ⟨hzl, _, _, hzafter⟩ := zeroStripe_facts M L i hil
    have hne := af_buf_zeroStripe_ne B name d H hOK M L N i hM hi hnz hcoll (N - 1 - (i + 1))
      (by omega)
    have he : i + 1 + (N - 1 - (i + 1)) = N - 1 := by omega
    rw [he] at hne
    have ha1 : (af_buf B (zeroStripe M L i) L name (N - 1)).length = L :=
      af_buf_length B name d H hOK hd _ L (N - 1) (by rw [hzl]; omega)
    have hxl : (XORblock (af_buf B (zeroStripe M L i) L name (N - 1))
        (readAt M ((N - 1) * L) L) L).length = L :=
      XORblock_length _ _ _ (by omega) (by rw [readAt_length M _ L hlast])
    refine ⟨XORblock (af_buf B (zeroStripe M L i) L name (N - 1))
      (readAt M ((N - 1) * L) L) L, ?_, hxl, ?_⟩
    · rw [AF_merge_eq B name d H hOK hd _ out L N (by rw [hzl]; exact hM) (by omega) hN32,
        hzafter (N - 1) hi]
      simp [writeAt, hxl]
    · intro hXS
      apply hne
      have hS2 : XORblock (af_buf B M L name (N - 1)) (readAt M ((N - 1) * L) L) L = S := by
        rw [hr, XORblock_comm]
        have := XORblock_cancel S (af_buf B M L name (N - 1)) [] L hS h3
        rwa [List.append_nil] at this
      exact XORblock_left_inj _ _ _ L ha1 h3 (readAt_length M _ L hlast) (hXS.trans hS2.symm)

theorem AF_merge_zeroStripe_witness :
    AF_merge (gcrypt_backend demoLib) true
        (zeroStripe (AF_split (gcrypt_backend demoLib) (constSource 0) true [5, 6]
          (List.replicate 6 0) 2 3 (ascii "demo") ()).2.1 2 1) [0, 0] 2 3 (ascii "demo")
      = (0, [5, 6] ++ [0, 0].drop 2) ∧
    ∃ X, AF_merge (gcrypt_backend demoLib) true
        (zeroStripe (AF_split (gcrypt_backend demoLib) (constSource 7) true [5, 6]
          (List.replicate 6 0) 2 3 (ascii "demo") ()).2.1 2 1) [0, 0] 2 3 (ascii "demo")
      = (0, X ++ [0, 0].drop 2) ∧ X.length = 2 ∧ X ≠ [5, 6] :=
  ⟨(AF_merge_zeroStripe (gcrypt_backend demoLib) (constSource 0) (ascii "demo") 4 demoHash
      demo_HashOK (constSource_ok 0) [5, 6] (List.replicate 6 0) [0, 0] 2 3 ()
      (by decide) (by decide) (by decide) (by decide) (by decide)).1 1 (by decide) (by decide),
    (AF_merge_zeroStripe (gcrypt_backend demoLib) (constSource 7) (ascii "demo") 4 demoHash
      demo_HashOK (constSource_ok 7) [5, 6] (List.replicate 6 0) [0, 0] 2 3 ()
      (by decide) (by decide) (by decide) (by decide) (by decide)).2.2 1 (by decide)
      (by decide)
      (by
        intro j h1 h2
        have hj : j = 1 := by omega
        subst hj
        decide)⟩

/-- C5 as stated fails in two ways. With a random source that delivers zero
bytes, stripe `0` of the split of `[5, 6]` over 3 stripes is already zero, and
after it is replaced with zero bytes `AF_merge` still returns `[5, 6]`. With a
random source that delivers the byte 7 and the 4-byte `demo` digest, stripe `0`
of the split is `[7, 7]`, and after it is replaced with zero bytes the
diffuser sends the differing blocks of stripe `1` to the same block, so
`AF_merge` again returns `[5, 6]`. -/
theorem AF_merge_zeroStripe_same :
    (AF_split (gcrypt_backend demoLib) (constSource 0) true [5, 6]
        (List.replicate 6 0) 2 3 (ascii "demo") ()).1 = 0 ∧
    AF_merge (gcrypt_backend demoLib) true
        (zeroStripe (AF_split (gcrypt_backend demoLib) (constSource 0) true [5, 6]
          (List.replicate 6 0) 2 3 (ascii "demo") ()).2.1 2 0) [0, 0] 2 3 (ascii "demo")
      = (0, [5, 6]) ∧
    AF_split (gcrypt_backend demoLib) (constSource 7) true [5, 6]
        (List.replicate 6 0) 2 3 (ascii "demo") () = (0, [7, 7, 7, 7, 229, 39], ()) ∧
    AF_merge (gcrypt_backend demoLib) true (zeroStripe [7, 7, 7, 7, 229, 39] 2 0) [0, 0] 2 3
        (ascii "demo") = (0, [5, 6]) ∧
    af_buf (gcrypt_backend demoLib) [7, 7, 7, 7, 229, 39] 2 (ascii "demo") 1 ≠
      af_buf (gcrypt_backend demoLib) (zeroStripe [7, 7, 7, 7, 229, 39] 2 0) 2 (ascii "demo") 1 ∧
    af_buf (gcrypt_backend demoLib) [7, 7, 7, 7, 229, 39] 2 (ascii "demo") 2 =
      af_buf (gcrypt_backend demoLib) (zeroStripe [7, 7, 7, 7, 229, 39] 2 0) 2 (ascii "demo") 2 := by
  decide

/-- C6, as amended: a successful `AF_split` of a key of `key_bytes` bytes over
`N = 4000` stripes with a supported hash takes exactly `key_bytes * 3999`
bytes from the random source (the last stripe is computed, not drawn). -/
theorem AF_split_random_bytes {σ ρ : Type} (B : HashBackend σ) (R : RandomSource ρ)
    (name : List Nat) (d : Nat) (H : List Nat → List Nat) (hOK : HashOK B name d H)
    (hR : RandomOK R) (K dst : List Nat) (key_bytes : Nat) (rng : ρ) (c : Nat)
    (hK : K.length = key_bytes) (hdst : key_bytes * 4000 ≤ dst.length)
    (h0 : (AF_split B (metered R) true K dst key_bytes 4000 name (rng, c)).1 = 0) :
    (AF_split B (metered R) true K dst key_bytes 4000 name (rng, c)).2.2.2
      = c + key_bytes * 3999 :=
  AF_split_metered B R name d H hOK hOK.2.1.1 hR K dst key_bytes 4000 rng c hK hdst
    (by decide) (by decide) h0

theorem AF_split_random_bytes_witness :
    (AF_split (gcrypt_backend demoLib) (metered (constSource 0)) true [1, 2]
      (List.replicate 8000 0) 2 4000 (ascii "demo") ((), 0)).2.2.2 = 0 + 2 * 3999 :=
  AF_split_random_bytes (gcrypt_backend demoLib) (constSource 0) (ascii "demo") 4 demoHash
    demo_HashOK (constSource_ok 0) [1, 2] (List.replicate 8000 0) 2 () 0 rfl
    (le_of_eq (List.length_replicate 8000 0).symm)
    (AF_split_success (gcrypt_backend demoLib) (metered (constSource 0)) (ascii "demo") 4
      demoHash demo_HashOK (by decide) (metered_ok _ (constSource_ok 0))
      (fun _ _ _ => le_refl _) [1, 2] (List.replicate 8000 0) 2 4000 ((), 0)
      (le_of_eq (List.length_replicate 8000 0).symm) (by decide) (by decide))

/-- C6 as stated fails: splitting a 2-byte key over 4000 stripes succeeds and
takes `2 * 3999 = 7998` bytes from the random source, not `2 * 4000`. -/
theorem AF_split_random_bytes_not_4000 :
    (AF_split (gcrypt_backend demoLib) (metered (constSource 0)) true [1, 2]
      (List.replicate 8000 0) 2 4000 (ascii "demo") ((), 0)).1 = 0 ∧
    (AF_split (gcrypt_backend demoLib) (metered (constSource 0)) true [1, 2]
      (List.replicate 8000 0) 2 4000 (ascii "demo") ((), 0)).2.2.2 ≠ 2 * 4000 := by
  have h0 := AF_split_success (gcrypt_backend demoLib) (metered (constSource 0))
    (ascii "demo") 4 demoHash demo_HashOK (by decide) (metered_ok _ (constSource_ok 0))
    (fun _ _ _ => le_refl _) [1, 2] (List.replicate 8000 0) 2 4000 ((), 0)
    (le_of_eq (List.length_replicate 8000 0).symm) (by decide) (by decide)
  refine ⟨h0, ?_⟩
  rw [AF_split_metered (gcrypt_backend demoLib) (constSource 0) (ascii "demo") 4 demoHash
    demo_HashOK (by decide) (constSource_ok 0) [1, 2] (List.replicate 8000 0) 2 4000 () 0 rfl
    (le_of_eq (List.length_replicate 8000 0).symm) (by decide) (by decide) h0]
  decide

/-! ## Plain passphrase hashing -/

theorem toSize_natCast (d : Nat) (h : d < 2 ^ 64) : toSize (d : Int) = d := by
  unfold toSize
  have : ((d : Int) % (2 ^ 64 : Int)) = (d : Int) := by
    apply Int.emod_eq_of_lt
    · exact Int.natCast_nonneg d
    · exact_mod_cast h
  rw [this]
  simp

theorem hash_write_A_ok {σ : Type} (B : HashBackend σ) (inv : σ → List Nat → Prop)
    (hw : ∀ s m bs, inv s m →
      (B.crypt_hash_write s bs).1 = 0 ∧ inv (B.crypt_hash_write s bs).2 (m ++ bs)) :
    ∀ (n : Nat) (md : σ) (m : List Nat) (r : Int), inv md m →
      (hash_write_A B n md r).1 = r ∧
      inv (hash_write_A B n md r).2 (m ++ List.replicate n 65) := by
  intro n
  induction n with
  | zero => intro md m r h; simpa [hash_write_A] using h
  | succ n ih =>
    intro md m r h
    obtain ⟨h1, h2⟩ := hw md m [65] h
    have := ih (B.crypt_hash_write md [65]).2 (m ++ [65]) r h2
    simp only [List.append_assoc, List.singleton_append] at this
    simp only [hash_write_A, h1, ne_eq, not_true_eq_false, ↓reduceIte, List.replicate_succ]
    exact this

theorem hash_loop_zero {σ : Type} (B : HashBackend σ) (P : List Nat) (ps fuel len : Nat)
    (md : σ) (round : Nat) (key : List Nat) (off : Nat) :
    hash_loop B P ps fuel 0 len md round key off = some ⟨0, key, round, md⟩ := by
  cases fuel <;> simp [hash_loop]

/-- The bytes that the rounds `round, round + 1, ...` contribute to a key of
`ks` remaining bytes. -/
theorem plain_stream_step (H : List Nat → List Nat) (d : Nat) (hd : 1 ≤ d)
    (hH : ∀ m, (H m).length = d) (P : List Nat) (round ks : Nat) (hks : d ≤ ks) :
    (ks + d - 1) / d = (ks - d + d - 1) / d + 1 ∧
    (((List.range' round ((ks + d - 1) / d)).map
        fun r => H (List.replicate r 65 ++ P)).flatten).take ks =
      H (List.replicate round 65 ++ P) ++
      (((List.range' (round + 1) ((ks - d + d - 1) / d)).map
        fun r => H (List.replicate r 65 ++ P)).flatten).take (ks - d) := by
  have hc : (ks + d - 1) / d = (ks - d + d - 1) / d + 1 := by
    have e : ks + d - 1 = (ks - d + d - 1) + d := by omega
    rw [e, Nat.add_div_right _ (by omega)]
  refine ⟨hc, ?_⟩
  rw [hc, List.range'_succ, List.map_cons, List.flatten_cons, List.take_append_eq_append_take,
    hH, List.take_of_length_le (by rw [hH]; exact hks)]

theorem hash_loop_ok {σ : Type} (B : HashBackend σ) (d : Nat)
    (H : List Nat → List Nat) (hd : 1 ≤ d) (hH : ∀ m, (H m).length = d)
    (inv : σ → List Nat → Prop)
    (hw : ∀ s m bs, inv s m →
      (B.crypt_hash_write s bs).1 = 0 ∧ inv (B.crypt_hash_write s bs).2 (m ++ bs))
    (hf : ∀ s m len, inv s m → len ≤ d →
      (B.crypt_hash_final s len).1 = 0 ∧
      (B.crypt_hash_final s len).2.1 = (H m).take len ∧
      inv (B.crypt_hash_final s len).2.2 [])
    (P : List Nat) (ps : Nat) :
    ∀ (fuel ks : Nat) (md : σ) (round : Nat) (key : List Nat) (off : Nat),
      inv md [] → ks ≤ fuel → off + ks ≤ key.length →
      ∃ md1, hash_loop B P ps fuel ks d md round key off =
        some ⟨0, key.take off ++
          (((List.range' round ((ks + d - 1) / d)).map
            fun r => H (List.replicate r 65 ++ P.take ps)).flatten).take ks ++
          key.drop (off + ks), round + (ks + d - 1) / d, md1⟩ := by
  intro fuel
  induction fuel with
  | zero =>
    intro ks md round key off _ hks _
    have h0 : ks = 0 := by omega
    subst h0
    have hz : (d - 1) / d = 0 := Nat.div_eq_of_lt (by omega)
    exact ⟨md, by simp [hash_loop, hz]⟩
  | succ fuel ih =>
    intro ks md round key off hinv hks hkey
    by_cases h0 : ks = 0
    · subst h0
      have hz : (d - 1) / d = 0 := Nat.div_eq_of_lt (by omega)
      exact ⟨md, by simp [hash_loop, hz]⟩
    obtain ⟨a1, a2⟩ := hash_write_A_ok B inv hw round md [] 0 hinv
    obtain ⟨w1, w2⟩ := hw _ _ (P.take ps) a2
    simp only [List.nil_append] at w2
    by_cases hlt : d > ks
    · obtain ⟨f1, f2, f3⟩ := hf _ _ ks w2 (by omega)
      have hc : (ks + d - 1) / d = 1 := by
        apply Nat.div_eq_of_lt_le <;> omega
      refine ⟨(B.crypt_hash_final (B.crypt_hash_write (hash_write_A B round md 0).2
        (P.take ps)).2 ks).2.2, ?_⟩
      simp only [hash_loop, h0, ↓reduceIte, a1, w1, ne_eq, not_true_eq_false, hlt, f1, f2,
        Nat.sub_self, hash_loop_zero, hc]
      have hl : (List.take ks (H (List.replicate round 65 ++ List.take ps P))).length = ks := by
        rw [List.length_take, hH]; omega
      simp [writeAt, hl, List.range']
    · obtain ⟨f1, f2, f3⟩ := hf _ _ d w2 (le_refl d)
      obtain ⟨hc, hst⟩ := plain_stream_step H d hd hH (P.take ps) round ks (by omega)
      have hD : (H (List.replicate round 65 ++ List.take ps P)).length = d := hH _
      have hkl : (writeAt key off (H (List.replicate round 65 ++ List.take ps P))).length
          = key.length := writeAt_length _ _ _ (by rw [hD]; omega)
      obtain ⟨md1, hrec⟩ := ih (ks - d) _ (round + 1)
        (writeAt key off (H (List.replicate round 65 ++ List.take ps P))) (off + d) f3
        (by omega) (by rw [hkl]; omega)
      refine ⟨md1, ?_⟩
      simp only [hash_loop, h0, ↓reduceIte, a1, w1, ne_eq, not_true_eq_false, hlt, f1, f2,
        List.take_of_length_le (le_of_eq hD)]
      rw [hrec, hst, hc]
      have ht := writeAt_take_succ key off (H (List.replicate round 65 ++ List.take ps P))
        (by rw [hD]; omega)
      rw [hD] at ht
      have hdr := writeAt_drop_after key off (H (List.replicate round 65 ++ List.take ps P))
        (off + d + (ks - d)) (by rw [hD]; omega) (by rw [hD]; omega)
      rw [ht, hdr]
      have e1 : off + d + (ks - d) = off + ks := by omega
      have e2 : round + 1 + (ks - d + d - 1) / d = round + ((ks - d + d - 1) / d + 1) := by
        omega
      rw [e1, e2]
      simp only [List.append_assoc]

theorem flatten_map_length {α : Type} (f : α → List Nat) (d : Nat)
    (hf : ∀ x, (f x).length = d) :
    ∀ l : List α, ((l.map f).flatten).length = l.length * d := by
  intro l
  induction l with
  | nil => simp
  | cons x xs ih =>
    simp only [List.map_cons, List.flatten_cons, List.length_append, hf, ih, List.length_cons]
    ring

theorem plain_key_length (H : List Nat → List Nat) (d : Nat) (hd : 1 ≤ d)
    (hH : ∀ m, (H m).length = d) (P : List Nat) (ks : Nat) :
    (plain_key H d P ks).length = ks := by
  unfold plain_key
  rw [List.length_take, flatten_map_length _ d (fun r => hH _), List.length_range]
  have h1 := ceil_div_cases ks d hd
  have hdm : d * (ks / d) + ks % d = ks := Nat.div_add_mod ks d
  have hpl : ks % d < d := Nat.mod_lt _ (by omega)
  apply Nat.min_eq_left
  rw [h1]
  by_cases hp : ks % d = 0
  · simp only [hp, ↓reduceIte]; rw [Nat.mul_comm]; omega
  · simp only [hp, ↓reduceIte]; rw [Nat.succ_mul, Nat.mul_comm]; omega

theorem hash_ok {σ : Type} (B : HashBackend σ) (name : List Nat) (d : Nat)
    (H : List Nat → List Nat) (hOK : HashOK B name d H) (hd : 1 ≤ d)
    (key : List Nat) (ks : Nat) (P : List Nat) (ps : Nat) (hkey : ks ≤ key.length) :
    (∃ st, hash_run B name ks key ps P = some (Except.ok st) ∧ st.r = 0 ∧
      st.key = plain_key H d (P.take ps) ks ++ key.drop ks ∧
      st.round = (ks + d - 1) / d) ∧
    hash B name ks key ps P = some (0, plain_key H d (P.take ps) ks ++ key.drop ks) := by
  have hsz : toSize (B.crypt_hash_size name) = d := by
    rw [hOK.1]; exact toSize_natCast d (by have := hOK.2.1; omega)
  obtain ⟨_, _, hH, inv, ⟨s, hinit, hs⟩, hw, hf⟩ := hOK
  obtain ⟨md1, hl⟩ := hash_loop_ok B d H hd hH inv hw hf P ps ks ks s 0 key 0 hs (le_refl _)
    (by omega)
  simp only [List.take_zero, List.nil_append, Nat.zero_add, ← List.range_eq_range'] at hl
  have hr : hash_run B name ks key ps P = some (Except.ok
      ⟨0, plain_key H d (P.take ps) ks ++ key.drop ks, (ks + d - 1) / d, md1⟩) := by
    unfold hash_run plain_key
    rw [hinit]
    simp only [hsz, hl, Option.map_some']
  refine ⟨⟨_, hr, rfl, rfl, rfl⟩, ?_⟩
  unfold hash
  rw [hr]
  rfl

theorem plain_hash_spec_plain (hash_name : List Nat) (key_size : Nat)
    (hlen : hash_name.length < 256) (hcolon : 58 ∉ hash_name) :
    plain_hash_spec hash_name key_size = Except.ok (hash_name, key_size, 0) := by
  unfold plain_hash_spec PLAIN_HASH_LEN_MAX
  have : ¬ hash_name.length ≥ 256 := by omega
  simp only [this, ↓reduceIte, hcolon]

theorem split_colon (name suffix : List Nat) (hcolon : 58 ∉ name) :
    (name ++ 58 :: suffix).takeWhile (fun c => c != 58) = name ∧
    ((name ++ 58 :: suffix).dropWhile (fun c => c != 58)).drop 1 = suffix := by
  induction name with
  | nil => simp
  | cons x xs ih =>
    have hx : x ≠ 58 := fun h => hcolon (by simp [h])
    have hxs : 58 ∉ xs := fun h => hcolon (by simp [h])
    obtain ⟨i1, i2⟩ := ih hxs
    simp only [List.cons_append, List.takeWhile_cons, List.dropWhile_cons, bne_iff_ne, ne_eq,
      hx, not_false_eq_true, ↓reduceIte, i1, i2, and_self]

theorem plain_hash_spec_len (name suffix : List Nat) (len key_size : Nat)
    (hcolon : 58 ∉ name) (hl : (name ++ 58 :: suffix).length < 256)
    (hatoi : atoi suffix = (len : Int)) (hle : len ≤ key_size) (hks : key_size < 2 ^ 64) :
    plain_hash_spec (name ++ 58 :: suffix) key_size =
      Except.ok (name, len, key_size - len) := by
  unfold plain_hash_spec PLAIN_HASH_LEN_MAX
  have h1 : ¬ (name ++ 58 :: suffix).length ≥ 256 := by omega
  have h2 : 58 ∈ name ++ 58 :: suffix := by simp
  obtain ⟨s1, s2⟩ := split_colon name suffix hcolon
  have h3 : toSize (atoi suffix) = len := by
    rw [hatoi]; exact toSize_natCast len (by omega)
  have h4 : ¬ len > key_size := by omega
  simp only [h1, ↓reduceIte, h2, s1, s2, h3, h4]

/-! ## Main statements on plain passphrase hashing -/

/-- C7: for a hash specification without a length suffix, a supported hash
with digest size `d` and digest function `H`, and any passphrase `P`,
`crypt_plain_hash` returns `0` with the first `key_size` bytes of
`D_0 || D_1 || ...`, `D_r = H('A' repeated r times || P)`, in the key buffer;
the loop of `hash` makes exactly `ceil(key_size / d)` rounds, one digest each.
For `key_size ≤ d` the key is the prefix of `H(P)`, and for a 32-byte digest
and `key_size = 48` it is `H(P)` followed by the first 16 bytes of
`H("A" || P)`. -/
theorem crypt_plain_hash_spec {σ : Type} (B : HashBackend σ) (hash_name : List Nat) (d : Nat)
    (H : List Nat → List Nat) (hOK : HashOK B hash_name d H)
    (hlen : hash_name.length < 256) (hcolon : 58 ∉ hash_name)
    (key : List Nat) (key_size : Nat) (P : List Nat) (ps : Nat)
    (hkey : key_size ≤ key.length) :
    crypt_plain_hash B hash_name key key_size P ps =
      some (0, plain_key H d (P.take ps) key_size ++ key.drop key_size) ∧
    (plain_key H d (P.take ps) key_size).length = key_size ∧
    (∃ st, hash_run B hash_name key_size key ps P = some (Except.ok st) ∧
      st.round = (key_size + d - 1) / d) ∧
    (key_size ≤ d → plain_key H d (P.take ps) key_size = (H (P.take ps)).take key_size) ∧
    (d = 32 → key_size = 48 → plain_key H d (P.take ps) key_size =
      H (P.take ps) ++ (H (65 :: P.take ps)).take 16) := by
  have hd : 1 ≤ d := hOK.2.1.1
  obtain ⟨⟨st, hr, _, _, hround⟩, hh⟩ := hash_ok B hash_name d H hOK hd key key_size P ps hkey
  have hH := hashOK_len hOK
  refine ⟨?_, plain_key_length H d hd hH _ _, ⟨st, hr, hround⟩, ?_, ?_⟩
  · unfold crypt_plain_hash
    rw [plain_hash_spec_plain hash_name key_size hlen hcolon]
    simp only [hh, ne_eq, not_true_eq_false, and_false, ↓reduceIte]
  · intro hle
    unfold plain_key
    by_cases h0 : key_size = 0
    · subst h0
      simp
    · have hc : (key_size + d - 1) / d = 1 := by
        apply Nat.div_eq_of_lt_le <;> omega
      rw [hc]
      simp [List.range_succ]
  · intro h32 h48
    subst h32 h48
    unfold plain_key
    have hc : (48 + 32 - 1) / 32 = 2 := by norm_num
    rw [hc]
    simp only [List.range_succ, List.range_zero, List.nil_append, List.cons_append,
      List.map_cons, List.map_nil, List.flatten_cons, List.flatten_nil, List.append_nil,
      List.replicate_zero, List.replicate_succ]
    rw [List.take_append_eq_append_take, hH, List.take_of_length_le (by rw [hH]; omega)]

theorem crypt_plain_hash_spec_witness :
    crypt_plain_hash (gcrypt_backend demoLib) (ascii "demo") (List.replicate 6 9) 6
        (ascii "password") 8 =
      some (0, plain_key demoHash 4 ((ascii "password").take 8) 6 ++ (List.replicate 6 9).drop 6) :=
  (crypt_plain_hash_spec (gcrypt_backend demoLib) (ascii "demo") 4 demoHash demo_HashOK (by decide) (by decide) (List.replicate 6 9) 6 (ascii "password") 8
    (by decide)).1

/-- C8: for a hash specification `name:len` with `0 < len ≤ key_size` (the
suffix is what `atoi` reads as `len`), a supported hash `name` with digest
function `H`, and any passphrase `P`, `crypt_plain_hash` returns `0` with a key
whose first `len` bytes are the first `len` bytes of `D_0 || D_1 || ...`,
`D_r = H('A' repeated r times || P)`, and whose remaining `key_size - len` bytes
are zero; these `len` bytes are the key that `crypt_plain_hash` delivers for the
same passphrase with the specification `name` and key length `len`. -/
theorem crypt_plain_hash_len {σ : Type} (B : HashBackend σ) (name suffix : List Nat) (d : Nat)
    (H : List Nat → List Nat) (hOK : HashOK B name d H)
    (hcolon : 58 ∉ name) (hl : (name ++ 58 :: suffix).length < 256)
    (len key_size : Nat) (hatoi : atoi suffix = (len : Int)) (hpos : 0 < len)
    (hle : len ≤ key_size) (hks : key_size < 2 ^ 64)
    (key : List Nat) (P : List Nat) (ps : Nat) (hkey : key_size ≤ key.length) :
    crypt_plain_hash B (name ++ 58 :: suffix) key key_size P ps =
      some (0, plain_key H d (P.take ps) len ++ List.replicate (key_size - len) 0 ++
        key.drop key_size) ∧
    crypt_plain_hash B name key len P ps =
      some (0, plain_key H d (P.take ps) len ++ key.drop len) ∧
    (plain_key H d (P.take ps) len).length = len ∧
    (len ≤ d → plain_key H d (P.take ps) len = (H (P.take ps)).take len) := by
  have hd : 1 ≤ d := hOK.2.1.1
  have hH := hashOK_len hOK
  have hh := (hash_ok B name d H hOK hd key len P ps (by omega)).2
  have hxl := plain_key_length H d hd hH (P.take ps) len
  refine ⟨?_, ?_, hxl, ?_⟩
  · unfold crypt_plain_hash
    rw [plain_hash_spec_len name suffix len key_size hcolon hl hatoi hle hks]
    simp only [hh, true_and, ne_eq]
    by_cases hp : key_size - len = 0
    · have : key_size = len := by omega
      subst this
      simp [hp]
    · simp only [hp, not_false_eq_true, ↓reduceIte, Option.some.injEq, Prod.mk.injEq,
        true_and]
      unfold writeAt
      rw [List.take_left' hxl, List.length_replicate, ← List.drop_drop, List.drop_left' hxl,
        List.drop_drop]
      congr 2
      omega
  · unfold crypt_plain_hash
    rw [plain_hash_spec_plain name len (by simp at hl; omega) hcolon]
    simp only [hh, ne_eq, not_true_eq_false, and_false, ↓reduceIte]
  · intro hle1
    unfold plain_key
    have hc : (len + d - 1) / d = 1 := by
      apply Nat.div_eq_of_lt_le <;> omega
    rw [hc]
    simp [List.range_succ]

theorem crypt_plain_hash_len_witness :
    crypt_plain_hash (gcrypt_backend demoLib) (ascii "demo" ++ 58 :: ascii "3")
        (List.replicate 6 9) 6 (ascii "pw") 2 =
      some (0, plain_key demoHash 4 ((ascii "pw").take 2) 3 ++ List.replicate (6 - 3) 0 ++
        (List.replicate 6 9).drop 6) ∧
    plain_key demoHash 4 ((ascii "pw").take 2) 3 = (demoHash ((ascii "pw").take 2)).take 3 :=
  ⟨(crypt_plain_hash_len (gcrypt_backend demoLib) (ascii "demo") (ascii "3") 4 demoHash
      demo_HashOK (by decide) (by decide) 3 6 (by decide) (by decide) (by decide)
      (by decide) (List.replicate 6 9) (ascii "pw") 2 (by decide)).1,
    (crypt_plain_hash_len (gcrypt_backend demoLib) (ascii "demo") (ascii "3") 4 demoHash
      demo_HashOK (by decide) (by decide) 3 6 (by decide) (by decide) (by decide)
      (by decide) (List.replicate 6 9) (ascii "pw") 2 (by decide)).2.2.2 (by decide)⟩

theorem flagAgrees_step (b : Bool) (r rc : Int) (h : FlagAgrees b r) :
    FlagAgrees (b || decide (rc ≠ 0)) (if rc ≠ 0 then 1 else r) := by
  by_cases hrc : rc = 0
  · simpa [hrc] using h
  · rcases h with ⟨_, h2⟩ | ⟨_, h2⟩ <;> simp [FlagAgrees, hrc, h2]

theorem hash_write_A_flagged {σ : Type} (B : HashBackend σ) :
    ∀ (n : Nat) (md : σ × Bool) (r : Int), FlagAgrees md.2 r →
      FlagAgrees (hash_write_A (flagged B) n md r).2.2 (hash_write_A (flagged B) n md r).1 := by
  intro n
  induction n with
  | zero => intro md r h; simpa [hash_write_A] using h
  | succ n ih =>
    intro md r h
    simp only [hash_write_A]
    exact ih _ _ (flagAgrees_step md.2 r _ h)

theorem hash_loop_flagged {σ : Type} (B : HashBackend σ) (P : List Nat) (ps : Nat) :
    ∀ (fuel ks len : Nat) (md : σ × Bool) (round : Nat) (key : List Nat) (off : Nat)
      (st : PlainHash (σ × Bool)), md.2 = false →
      hash_loop (flagged B) P ps fuel ks len md round key off = some st →
      FlagAgrees st.md.2 st.r := by
  intro fuel
  induction fuel with
  | zero =>
    intro ks len md round key off st hb h
    by_cases h0 : ks = 0
    · simp only [hash_loop, h0, ↓reduceIte, Option.some.injEq] at h
      subst h
      exact Or.inl ⟨rfl, hb⟩
    · simp [hash_loop, h0] at h
  | succ fuel ih =>
    intro ks len md round key off st hb h
    by_cases h0 : ks = 0
    · simp only [hash_loop, h0, ↓reduceIte, Option.some.injEq] at h
      subst h
      exact Or.inl ⟨rfl, hb⟩
    · simp only [hash_loop, h0, ↓reduceIte] at h
      have ha := hash_write_A_flagged B round md 0 (Or.inl ⟨rfl, hb⟩)
      generalize hash_write_A (flagged B) round md 0 = a at h ha
      have hw : FlagAgrees ((flagged B).crypt_hash_write a.2 (P.take ps)).2.2
          (if ((flagged B).crypt_hash_write a.2 (P.take ps)).1 ≠ 0 then 1 else a.1) :=
        flagAgrees_step a.2.2 a.1 (B.crypt_hash_write a.2.1 (P.take ps)).1 ha
      generalize (flagged B).crypt_hash_write a.2 (P.take ps) = w at h hw
      generalize (if w.1 ≠ 0 then (1 : Int) else a.1) = r1 at h hw
      generalize (if len > ks then ks else len) = len1 at h
      have hf : FlagAgrees ((flagged B).crypt_hash_final w.2 len1).2.2.2
          (if ((flagged B).crypt_hash_final w.2 len1).1 ≠ 0 then 1 else r1) :=
        flagAgrees_step w.2.2 r1 (B.crypt_hash_final w.2.1 len1).1 hw
      generalize (flagged B).crypt_hash_final w.2 len1 = f at h hf
      generalize (if f.1 ≠ 0 then (1 : Int) else r1) = r2 at h hf
      by_cases hr2 : r2 = 0
      · simp only [hr2, ne_eq, not_true_eq_false, ↓reduceIte] at h
        refine ih _ _ _ _ _ _ st ?_ h
        rcases hf with ⟨_, h2⟩ | ⟨h1, _⟩
        · exact h2
        · rw [h1] at hr2; exact absurd hr2 (by decide)
      · simp only [ne_eq, hr2, not_false_eq_true, ↓reduceIte, Option.some.injEq] at h
        subst h
        exact hf

/-- With a hash size other than 0 every round of the loop of `hash` takes at
least one byte off `key_size`, so the loop ends within `key_size` rounds. -/
theorem hash_loop_total {σ : Type} (B : HashBackend σ) (P : List Nat) (ps : Nat) :
    ∀ (fuel ks len : Nat) (md : σ) (round : Nat) (key : List Nat) (off : Nat),
      1 ≤ len → ks ≤ fuel →
      ∃ st, hash_loop B P ps fuel ks len md round key off = some st := by
  intro fuel
  induction fuel with
  | zero =>
    intro ks len md round key off _ hks
    have h0 : ks = 0 := by omega
    exact ⟨⟨0, key, round, md⟩, by simp [hash_loop, h0]⟩
  | succ fuel ih =>
    intro ks len md round key off hlen hks
    by_cases h0 : ks = 0
    · exact ⟨⟨0, key, round, md⟩, by simp [hash_loop, h0]⟩
    · simp only [hash_loop, h0, ↓reduceIte]
      have hlen1 : 1 ≤ (if len > ks then ks else len) ∧ (if len > ks then ks else len) ≤ ks := by
        split_ifs <;> omega
      generalize (if len > ks then ks else len) = len1 at hlen1 ⊢
      generalize hash_write_A B round md 0 = a
      generalize B.crypt_hash_write a.2 (P.take ps) = w
      generalize (if w.1 ≠ 0 then (1 : Int) else a.1) = r1
      generalize B.crypt_hash_final w.2 len1 = f
      generalize (if f.1 ≠ 0 then (1 : Int) else r1) = r2
      by_cases hr2 : r2 = 0
      · simp only [hr2, ne_eq, not_true_eq_false, ↓reduceIte]
        exact ih _ _ _ _ _ _ hlen1.1 (by omega)
      · simp only [ne_eq, hr2, not_false_eq_true, ↓reduceIte]
        exact ⟨_, rfl⟩

theorem hash_write_A_forget {σ : Type} (B : HashBackend σ) :
    ∀ (n : Nat) (md : σ × Bool) (r : Int),
      (hash_write_A (flagged B) n md r).1 = (hash_write_A B n md.1 r).1 ∧
      (hash_write_A (flagged B) n md r).2.1 = (hash_write_A B n md.1 r).2 := by
  intro n
  induction n with
  | zero => intro md r; exact ⟨rfl, rfl⟩
  | succ n ih =>
    intro md r
    simp only [hash_write_A]
    exact ih _ _

/-- The instrumented provider runs the loop of `hash` as the provider itself
does: the same return value and the same key. -/
theorem hash_loop_forget {σ : Type} (B : HashBackend σ) (P : List Nat) (ps : Nat) :
    ∀ (fuel ks len : Nat) (md : σ × Bool) (round : Nat) (key : List Nat) (off : Nat),
      (hash_loop (flagged B) P ps fuel ks len md round key off).map
          (fun st => (st.r, st.key)) =
        (hash_loop B P ps fuel ks len md.1 round key off).map (fun st => (st.r, st.key)) := by
  intro fuel
  induction fuel with
  | zero =>
    intro ks len md round key off
    by_cases h0 : ks = 0 <;> simp [hash_loop, h0]
  | succ fuel ih =>
    intro ks len md round key off
    by_cases h0 : ks = 0
    · simp [hash_loop, h0]
    · obtain ⟨a1, a2⟩ := hash_write_A_forget B round md 0
      have ew1 : ∀ (x : σ × Bool) bs,
          ((flagged B).crypt_hash_write x bs).1 = (B.crypt_hash_write x.1 bs).1 :=
        fun _ _ => rfl
      have ew2 : ∀ (x : σ × Bool) bs,
          ((flagged B).crypt_hash_write x bs).2.1 = (B.crypt_hash_write x.1 bs).2 :=
        fun _ _ => rfl
      have ef1 : ∀ (x : σ × Bool) n,
          ((flagged B).crypt_hash_final x n).1 = (B.crypt_hash_final x.1 n).1 :=
        fun _ _ => rfl
      have ef2 : ∀ (x : σ × Bool) n,
          ((flagged B).crypt_hash_final x n).2.1 = (B.crypt_hash_final x.1 n).2.1 :=
        fun _ _ => rfl
      have ef3 : ∀ (x : σ × Bool) n,
          ((flagged B).crypt_hash_final x n).2.2.1 = (B.crypt_hash_final x.1 n).2.2 :=
        fun _ _ => rfl
      simp only [hash_loop, h0, ↓reduceIte]
      rw [a1, ew1, ef1, ef2, ew2, a2]
      split_ifs <;> first | rfl | rw [ih, ef3, ew2, a2]

/-- The instrumented provider gives `crypt_plain_hash` the result that the provider
itself gives. -/
theorem crypt_plain_hash_flagged {σ : Type} (B : HashBackend σ) (hash_name : List Nat)
    (key : List Nat) (key_size : Nat) (P : List Nat) (ps : Nat) :
    crypt_plain_hash (flagged B) hash_name key key_size P ps =
      crypt_plain_hash B hash_name key key_size P ps := by
  have hh : ∀ name hs, hash (flagged B) name hs key ps P = hash B name hs key ps P := by
    intro name hs
    unfold hash hash_run
    cases hi : B.crypt_hash_init name with
    | none => simp [flagged, hi]
    | some s =>
      have hfi : (flagged B).crypt_hash_init name = some (s, false) := by
        simp only [flagged, hi, Option.map_some']
      have hsz : (flagged B).crypt_hash_size name = B.crypt_hash_size name := rfl
      have := hash_loop_forget B P ps hs hs (toSize (B.crypt_hash_size name)) (s, false) 0 key 0
      simp only [hfi, hsz, Option.map_map]
      exact this
  unfold crypt_plain_hash
  cases plain_hash_spec hash_name key_size with
  | error e => rfl
  | ok v =>
    obtain ⟨n, hs, pad⟩ := v
    simp only [hh]

/-- C9, as amended: once the hash specification has passed the length checks
of `crypt_plain_hash` (which fail with `-EINVAL` first), the call fails with
`-ENOENT` when the provider does not know the hash name. When the name is
known and the provider reports a hash size other than 0, the call returns;
if a hash write or final failed in some round it returns a non-zero value
(the value is `1`), and it returns `0` exactly when none failed. The failures
are read off a provider instrumented with a flag, which gives the same
result as the provider itself. -/
theorem crypt_plain_hash_errors {σ : Type} (B : HashBackend σ) (hash_name name : List Nat)
    (hs pad : Nat) (key : List Nat) (key_size : Nat) (P : List Nat) (ps : Nat)
    (hparse : plain_hash_spec hash_name key_size = Except.ok (name, hs, pad)) :
    (B.crypt_hash_init name = none →
      crypt_plain_hash B hash_name key key_size P ps = some (-ENOENT, key)) ∧
    (B.crypt_hash_init name ≠ none → 1 ≤ toSize (B.crypt_hash_size name) →
      ∃ r k st, crypt_plain_hash B hash_name key key_size P ps = some (r, k) ∧
        crypt_plain_hash (flagged B) hash_name key key_size P ps = some (r, k) ∧
        hash_run (flagged B) name hs key ps P = some (Except.ok st) ∧ r = st.r ∧
        (st.md.2 = true → r = 1) ∧ (r = 0 → st.md.2 = false) ∧
        (st.md.2 = false → r = 0)) := by
  constructor
  · intro hinit
    unfold crypt_plain_hash
    rw [hparse]
    simp [hash, hash_run, hinit, ENOENT]
  · intro hinit hsize
    obtain ⟨s, hs1⟩ := Option.ne_none_iff_exists'.mp hinit
    have hfi : (flagged B).crypt_hash_init name = some (s, false) := by
      simp only [flagged, hs1, Option.map_some']
    have hsz : (flagged B).crypt_hash_size name = B.crypt_hash_size name := rfl
    obtain ⟨st, hl⟩ := hash_loop_total (flagged B) P ps hs hs
      (toSize (B.crypt_hash_size name)) (s, false) 0 key 0 hsize (le_refl _)
    have hfa := hash_loop_flagged B P ps _ _ _ _ _ _ _ st rfl hl
    have hrun : hash_run (flagged B) name hs key ps P = some (Except.ok st) := by
      simp only [hash_run, hfi, hsz, hl, Option.map_some']
    have hres : ∃ k, crypt_plain_hash (flagged B) hash_name key key_size P ps =
        some (st.r, k) := by
      unfold crypt_plain_hash
      rw [hparse]
      simp only [hash, hrun, Option.map_some']
      split_ifs
      · exact ⟨_, rfl⟩
      · exact ⟨_, rfl⟩
    obtain ⟨k, hk⟩ := hres
    refine ⟨st.r, k, st, ?_, hk, hrun, rfl, ?_, ?_, ?_⟩
    · rw [← crypt_plain_hash_flagged]; exact hk
    · intro hb
      rcases hfa with ⟨_, h2⟩ | ⟨h1, _⟩
      · rw [hb] at h2; exact absurd h2 (by decide)
      · exact h1
    · intro h0
      rcases hfa with ⟨_, h2⟩ | ⟨h1, _⟩
      · exact h2
      · rw [h1] at h0; exact absurd h0 (by decide)
    · intro hb
      rcases hfa with ⟨h1, _⟩ | ⟨_, h2⟩
      · exact h1
      · rw [hb] at h2; exact absurd h2 (by decide)

theorem crypt_plain_hash_errors_witness :
    crypt_plain_hash (gcrypt_backend demoLib) (ascii "nope") (List.replicate 8 9) 6
      (ascii "password") 8 = some (-ENOENT, List.replicate 8 9) ∧
    ∃ r k st, crypt_plain_hash brokenBackend (ascii "demo") (List.replicate 8 9) 6
        (ascii "password") 8 = some (r, k) ∧
      crypt_plain_hash (flagged brokenBackend) (ascii "demo") (List.replicate 8 9) 6
        (ascii "password") 8 = some (r, k) ∧
      hash_run (flagged brokenBackend) (ascii "demo") 6 (List.replicate 8 9) 8
        (ascii "password") = some (Except.ok st) ∧ r = st.r ∧
      (st.md.2 = true → r = 1) ∧ (r = 0 → st.md.2 = false) ∧ (st.md.2 = false → r = 0) :=
  ⟨(crypt_plain_hash_errors (gcrypt_backend demoLib) (ascii "nope") (ascii "nope") 6 0
      (List.replicate 8 9) 6 (ascii "password") 8 rfl).1 rfl,
    (crypt_plain_hash_errors brokenBackend (ascii "demo") (ascii "demo") 6 0
      (List.replicate 8 9) 6 (ascii "password") 8 rfl).2 (by decide) (by decide)⟩

/-- C9 as stated fails: with a provider whose `crypt_hash_write` fails with
`-EIO`, `crypt_plain_hash` returns `1`, which is not a negative errno value;
and for the specification `nope:99` with a 6-byte key it returns `-EINVAL`,
not `-ENOENT`, although the provider does not know the name `nope`. -/
theorem crypt_plain_hash_write_failure :
    crypt_plain_hash brokenBackend (ascii "demo") (List.replicate 8 9) 6 (ascii "password") 8
      = some (1, [0, 0, 0, 0, 9, 9, 9, 9]) ∧
    (brokenBackend.crypt_hash_write () (ascii "password")).1 = - EIO ∧ ¬ ((1 : Int) < 0) ∧
    crypt_plain_hash (gcrypt_backend demoLib) (ascii "nope:99") (List.replicate 8 9) 6
      (ascii "password") 8 = some (-EINVAL, List.replicate 8 9) ∧
    ((gcrypt_backend demoLib).crypt_hash_init (ascii "nope")).isNone = true := by
  decide

/-! ## Loop-AES key files -/

theorem set_getD_self : ∀ (l : List Nat) (n : Nat), l.set n (l.getD n 0) = l
  | [], _ => rfl
  | _ :: _, 0 => rfl
  | x :: xs, n + 1 => by
    simp only [List.set_cons_succ, List.getD_cons_succ, set_getD_self xs n]

theorem keyfile_is_gpg_buffer (buffer : List Nat) : (keyfile_is_gpg buffer).2 = buffer := by
  unfold keyfile_is_gpg
  simp only [List.set_set, set_getD_self]

theorem drop_length_takeWhile (p : Nat → Bool) :
    ∀ l : List Nat, l.drop (l.takeWhile p).length = l.dropWhile p
  | [] => rfl
  | x :: xs => by
    by_cases h : p x
    · simp [List.takeWhile_cons, List.dropWhile_cons, h, drop_length_takeWhile p xs]
    · simp [List.takeWhile_cons, List.dropWhile_cons, h]

theorem length_dropWhile_le (p : Nat → Bool) :
    ∀ l : List Nat, (l.dropWhile p).length ≤ l.length
  | [] => by simp
  | x :: xs => by
    by_cases h : p x
    · simp only [List.dropWhile_cons, h, ↓reduceIte, List.length_cons]
      exact Nat.le_succ_of_le (length_dropWhile_le p xs)
    · simp [List.dropWhile_cons, h]

theorem length_dropWhile_dropWhile_lt (p : Nat → Bool) (l : List Nat) (hl : l ≠ []) :
    ((l.dropWhile (fun c => !p c)).dropWhile p).length < l.length := by
  cases l with
  | nil => exact absurd rfl hl
  | cons x xs =>
    by_cases h : p x
    · have h1 : (x :: xs).dropWhile (fun c => !p c) = x :: xs := by
        simp [List.dropWhile_cons, h]
      rw [h1, List.dropWhile_cons]
      simp only [h, ↓reduceIte, List.length_cons]
      exact Nat.lt_succ_of_le (length_dropWhile_le p xs)
    · have h1 : (x :: xs).dropWhile (fun c => !p c) = xs.dropWhile (fun c => !p c) := by
        simp [List.dropWhile_cons, h]
      rw [h1, List.length_cons]
      exact Nat.lt_succ_of_le
        (le_trans (length_dropWhile_le p _) (length_dropWhile_le _ xs))

theorem keyfile_records_fuel : ∀ (n : Nat) (buf : List Nat), buf.length ≤ n →
    keyfile_records n buf = keyfile_records buf.length buf := by
  intro n
  induction n using Nat.strong_induction_on with
  | _ n ih =>
    intro buf hn
    cases buf with
    | nil => cases n <;> simp [keyfile_records]
    | cons x xs =>
      cases n with
      | zero => simp at hn
      | succ n =>
        have hlt := length_dropWhile_dropWhile_lt isKeySep (x :: xs) (by simp)
        simp only [List.length_cons] at hlt hn
        simp only [keyfile_records, List.length_cons]
        rw [ih n (by omega) _ (by omega), ih xs.length (by omega) _ (by omega)]

theorem keyfile_records_cons (buf : List Nat) (hb : buf ≠ []) :
    keyfile_records buf.length buf =
      buf.takeWhile (fun c => !isKeySep c) ::
        keyfile_records ((buf.dropWhile (fun c => !isKeySep c)).dropWhile isKeySep).length
          ((buf.dropWhile (fun c => !isKeySep c)).dropWhile isKeySep) := by
  have hlt := length_dropWhile_dropWhile_lt isKeySep buf hb
  cases hlen : buf.length with
  | zero => exact absurd (List.length_eq_zero.mp hlen) hb
  | succ n =>
    simp only [keyfile_records, hb, ↓reduceIte]
    rw [keyfile_records_fuel n _ (by omega)]

theorem remove_eol_nonzero : (fun c => remove_eol c != 0) = (fun c => !isKeySep c) := by
  funext c
  unfold remove_eol isKeySep
  by_cases h1 : c = 10
  · subst h1; rfl
  by_cases h2 : c = 13
  · subst h2; rfl
  by_cases h3 : c = 0
  · subst h3; rfl
  have e1 : (c == 10) = false := by simpa using h1
  have e2 : (c == 13) = false := by simpa using h2
  have e3 : (c == 0) = false := by simpa using h3
  simp [h1, h2, e1, e2, e3, bne]

theorem remove_eol_zero : (fun c => remove_eol c == 0) = isKeySep := by
  funext c
  unfold remove_eol isKeySep
  by_cases h1 : c = 10
  · subst h1; rfl
  by_cases h2 : c = 13
  · subst h2; rfl
  by_cases h3 : c = 0
  · subst h3; rfl
  have e1 : (c == 10) = false := by simpa using h1
  have e2 : (c == 13) = false := by simpa using h2
  have e3 : (c == 0) = false := by simpa using h3
  simp [h1, h2, e1, e2, e3]

theorem takeWhile_remove_eol_nonzero (l : List Nat) :
    ((l.map remove_eol).takeWhile (fun c => c != 0)).length =
      (l.takeWhile (fun c => !isKeySep c)).length := by
  rw [List.takeWhile_map, List.length_map]
  have : ((fun c => c != 0) ∘ remove_eol) = (fun c => !isKeySep c) := remove_eol_nonzero
  rw [this]

theorem takeWhile_remove_eol_zero (l : List Nat) :
    ((l.map remove_eol).takeWhile (fun c => c == 0)).length =
      (l.takeWhile isKeySep).length := by
  rw [List.takeWhile_map, List.length_map]
  have : ((fun c => c == 0) ∘ remove_eol) = isKeySep := remove_eol_zero
  rw [this]

theorem strlen_at_remove_eol (buffer : List Nat) (off : Nat) :
    strlen_at (buffer.map remove_eol) off =
      ((buffer.drop off).takeWhile (fun c => !isKeySep c)).length := by
  unfold strlen_at
  rw [← List.map_drop, takeWhile_remove_eol_nonzero]

theorem length_takeWhile_le' (p : Nat → Bool) (l : List Nat) :
    (l.takeWhile p).length + (l.dropWhile p).length = l.length := by
  conv_rhs => rw [← List.takeWhile_append_dropWhile p l]
  rw [List.length_append]

theorem keyfile_records_nil_iff (buf : List Nat) :
    (keyfile_records buf.length buf).length = 0 ↔ buf = [] := by
  constructor
  · intro h
    by_contra hb
    rw [keyfile_records_cons buf hb] at h
    simp at h
  · intro h
    subst h
    rfl

/-- The pointers that the scanning loop stores are the starts of the first
records of the buffer, their strings have the lengths of these records, and
the loop reaches the end of the buffer exactly when there are no more records
than free entries. -/
theorem scan_keys_spec (buffer : List Nat) :
    ∀ (n offset : Nat) (keys : List Nat), offset ≤ buffer.length →
      ∃ offs, (scan_keys (buffer.map remove_eol) n offset keys).1 = keys ++ offs ∧
        offs.map (strlen_at (buffer.map remove_eol)) =
          ((keyfile_records (buffer.drop offset).length (buffer.drop offset)).take n).map
            List.length ∧
        ((scan_keys (buffer.map remove_eol) n offset keys).2 = buffer.length ↔
          (keyfile_records (buffer.drop offset).length (buffer.drop offset)).length ≤ n) := by
  intro n
  induction n with
  | zero =>
    intro offset keys hoff
    refine ⟨[], by simp [scan_keys], by simp, ?_⟩
    simp only [scan_keys, Nat.le_zero_eq]
    rw [keyfile_records_nil_iff, List.drop_eq_nil_iff]
    omega
  | succ n ih =>
    intro offset keys hoff
    by_cases hlt : offset < buffer.length
    · have hrest : buffer.drop offset ≠ [] := by
        intro h
        rw [List.drop_eq_nil_iff] at h
        omega
      have hlen1 := length_takeWhile_le' (fun c => !isKeySep c) (buffer.drop offset)
      have hlen2 := length_takeWhile_le' isKeySep
        ((buffer.drop offset).dropWhile (fun c => !isKeySep c))
      have hdl : (buffer.drop offset).length = buffer.length - offset := List.length_drop _ _
      have ho1 : buffer.drop (offset +
          ((buffer.drop offset).takeWhile (fun c => !isKeySep c)).length) =
          (buffer.drop offset).dropWhile (fun c => !isKeySep c) := by
        rw [← List.drop_drop, drop_length_takeWhile]
      have ho2 : buffer.drop (offset +
          ((buffer.drop offset).takeWhile (fun c => !isKeySep c)).length +
          (((buffer.drop offset).dropWhile (fun c => !isKeySep c)).takeWhile isKeySep).length) =
          ((buffer.drop offset).dropWhile (fun c => !isKeySep c)).dropWhile isKeySep := by
        rw [← List.drop_drop, ho1, drop_length_takeWhile]
      have hstep : scan_keys (buffer.map remove_eol) (n + 1) offset keys =
          scan_keys (buffer.map remove_eol) n (offset +
            ((buffer.drop offset).takeWhile (fun c => !isKeySep c)).length +
            (((buffer.drop offset).dropWhile (fun c => !isKeySep c)).takeWhile
              isKeySep).length) (keys ++ [offset]) := by
        simp only [scan_keys, List.length_map, hlt, ↓reduceIte]
        rw [← List.map_drop, takeWhile_remove_eol_nonzero, ← List.map_drop, ho1,
          takeWhile_remove_eol_zero]
      obtain ⟨offs, h1, h2, h3⟩ := ih (offset +
            ((buffer.drop offset).takeWhile (fun c => !isKeySep c)).length +
            (((buffer.drop offset).dropWhile (fun c => !isKeySep c)).takeWhile
              isKeySep).length) (keys ++ [offset]) (by omega)
      rw [ho2] at h2 h3
      rw [hstep, keyfile_records_cons _ hrest]
      refine ⟨offset :: offs, by rw [h1]; simp, ?_, ?_⟩
      · simp only [List.map_cons, List.take_succ_cons, h2, strlen_at_remove_eol]
      · rw [h3]
        simp
    · have hoe : offset = buffer.length := by omega
      have hnil : buffer.drop offset = [] := by
        rw [List.drop_eq_nil_iff]; omega
      refine ⟨[], by simp [scan_keys, hlt], by simp [hnil, keyfile_records], ?_⟩
      simp [scan_keys, hlt, hnil, keyfile_records, hoe]

/-- C10, as amended: `LOOPAES_parse_keyfile` fails with `-EINVAL` and leaves
`*vk` and `*keys_count` as they were whenever the number `K` of records
obtained by cutting the buffer at `\n`, `\r` and NUL bytes is not 1, 64 or 65,
or the records do not all have the same non-zero length (an empty buffer has
no record and is rejected too). -/
theorem LOOPAES_parse_keyfile_rejects {σ : Type} (B : HashBackend σ) (M : Heap) (hdr : Nat)
    (key_size : Nat) (vk0 : Option volume_key) (hash : Option (List Nat)) (kc0 : Nat)
    (buffer : List Nat)
    (h : ((keyfile_records buffer.length buffer).length ≠ 1 ∧
          (keyfile_records buffer.length buffer).length ≠ 64 ∧
          (keyfile_records buffer.length buffer).length ≠ 65) ∨
        ∃ r ∈ keyfile_records buffer.length buffer,
          r.length = 0 ∨ r.length ≠ ((keyfile_records buffer.length buffer).headD []).length) :
    LOOPAES_parse_keyfile B M hdr key_size vk0 hash kc0 buffer = (-EINVAL, vk0, kc0) := by
  obtain ⟨offs, h1, h2, h3⟩ := scan_keys_spec buffer LOOPAES_KEYS_MAX 0 [] (Nat.zero_le _)
  simp only [List.drop_zero, List.nil_append] at h1 h2 h3
  unfold LOOPAES_parse_keyfile
  by_cases hl0 : buffer.length = 0
  · simp only [hl0, ↓reduceIte]
  simp only [hl0, ↓reduceIte]
  by_cases hg : (keyfile_is_gpg buffer).1 ≠ 0
  · rw [if_pos hg]
  rw [if_neg hg]
  simp only [keyfile_is_gpg_buffer]
  refine if_pos ?_
  rw [h1]
  generalize (scan_keys (List.map remove_eol buffer) LOOPAES_KEYS_MAX 0 []).2 = off at h3 ⊢
  generalize keyfile_records buffer.length buffer = recs at h h2 h3
  by_cases hK : recs.length ≤ LOOPAES_KEYS_MAX
  · rw [List.take_of_length_le hK] at h2
    have hcount : offs.length = recs.length := by
      have := congrArg List.length h2
      simpa using this
    rcases h with hc | ⟨r, hr, hbad⟩
    · right; right
      rw [hcount]; exact hc
    · right; left
      cases recs with
      | nil => simp at hr
      | cons r0 rs =>
        cases offs with
        | nil => simp at hcount
        | cons o os =>
          simp only [List.map_cons, List.cons.injEq] at h2
          simp only [List.headD_cons] at hbad
          simp only [List.length_cons, ne_eq, Nat.add_one_ne_zero, not_false_eq_true,
            ↓reduceIte, List.getD_cons_zero, ite_eq_right_iff]
          intro hall
          rw [h2.1]
          have hmem : r.length ∈ (r0 :: rs).map List.length := List.mem_map_of_mem _ hr
          rw [List.map_cons, ← h2.1, ← h2.2, ← List.map_cons] at hmem
          obtain ⟨k, hk, hkr⟩ := List.mem_map.mp hmem
          have := List.all_eq_true.mp hall k hk
          simp only [beq_iff_eq] at this
          rw [hkr, h2.1] at this
          rcases hbad with hz | hne
          · rw [← this]; exact hz
          · exact absurd this hne
  · left
    intro hoff
    exact hK (h3.mp hoff)

theorem LOOPAES_parse_keyfile_rejects_witness :
    LOOPAES_parse_keyfile (gcrypt_backend demoLib) demoHeap 8 4 none (some (ascii "demo")) 0
      (ascii "abc\nabcd\n") = (-EINVAL, none, 0) :=
  LOOPAES_parse_keyfile_rejects (gcrypt_backend demoLib) demoHeap 8 4 none
    (some (ascii "demo")) 0 (ascii "abc\nabcd\n") (by decide)

set_option maxRecDepth 1000000 in
/-- C10 as stated fails: a key file of two lines, the second of which holds
63 one-byte strings separated by NUL bytes, has 2 records when cut at `\n`
and `\r`, of lengths 1 and 125, yet `LOOPAES_parse_keyfile` accepts it as 64
keys and returns `0` with a volume key. -/
theorem LOOPAES_parse_keyfile_nul_separated :
    (keyfile_lines nulKeyfile.length nulKeyfile).map List.length = [1, 125] ∧
    (LOOPAES_parse_keyfile (gcrypt_backend demoLib) demoHeap 8 4 none (some (ascii "demo")) 0
      nulKeyfile).1 = 0 ∧
    (LOOPAES_parse_keyfile (gcrypt_backend demoLib) demoHeap 8 4 none (some (ascii "demo")) 0
      nulKeyfile).2.1 ≠ none ∧
    (LOOPAES_parse_keyfile (gcrypt_backend demoLib) demoHeap 8 4 none (some (ascii "demo")) 0
      nulKeyfile).2.2 = 64 := by
  decide

/-! ## GPG-wrapped key files -/

theorem pgp_literal : ascii "BEGIN PGP MESSAGE" =
    [66, 69, 71, 73, 78, 32, 80, 71, 80, 32, 77, 69, 83, 83, 65, 71, 69] := by
  decide

theorem keyfile_is_gpg_literal (c : Nat) (rest : List Nat) :
    (keyfile_is_gpg (ascii "BEGIN PGP MESSAGE" ++ c :: rest)).1 = 1 := by
  have hidx : 17 ≤ (if (ascii "BEGIN PGP MESSAGE" ++ c :: rest).length < 100
      then (ascii "BEGIN PGP MESSAGE" ++ c :: rest).length - 1 else 100) := by
    rw [pgp_literal]
    simp only [List.length_append, List.length_cons, List.length_nil]
    split <;> omega
  unfold keyfile_is_gpg
  generalize (if (ascii "BEGIN PGP MESSAGE" ++ c :: rest).length < 100
      then (ascii "BEGIN PGP MESSAGE" ++ c :: rest).length - 1 else 100) = index at hidx
  obtain ⟨j, rfl⟩ : ∃ j, index = j + 17 := ⟨index - 17, by omega⟩
  rw [pgp_literal]
  simp only [strstr, List.any_eq_true, List.mem_tails, List.cons_append, List.nil_append,
    List.set_cons_succ]
  rw [if_pos]
  rw [List.any_eq_true]
  refine ⟨_, (List.mem_tails _ _).2 (List.suffix_refl _), ?_⟩
  simp [List.takeWhile_cons]

/-- C11, as amended: `LOOPAES_parse_keyfile` fails with `-EINVAL`, before any
record is looked for or hashed (`*vk` and `*keys_count` are left as they
were, whatever the hash provider), for every buffer that begins with the
literal `BEGIN PGP MESSAGE` followed by at least one more byte. -/
theorem LOOPAES_parse_keyfile_gpg {σ : Type} (B : HashBackend σ) (M : Heap) (hdr : Nat)
    (key_size : Nat) (vk0 : Option volume_key) (hash : Option (List Nat)) (kc0 : Nat)
    (c : Nat) (rest : List Nat) :
    (keyfile_is_gpg (ascii "BEGIN PGP MESSAGE" ++ c :: rest)).1 = 1 ∧
    LOOPAES_parse_keyfile B M hdr key_size vk0 hash kc0
      (ascii "BEGIN PGP MESSAGE" ++ c :: rest) = (-EINVAL, vk0, kc0) := by
  have hg := keyfile_is_gpg_literal c rest
  refine ⟨hg, ?_⟩
  unfold LOOPAES_parse_keyfile
  have hl : (ascii "BEGIN PGP MESSAGE" ++ c :: rest).length ≠ 0 := by simp
  rw [if_neg hl]
  simp only [hg, ne_eq, one_ne_zero, not_false_eq_true, ↓reduceIte]

/-- C11 as stated fails: for the 17-byte buffer that is exactly the literal
`BEGIN PGP MESSAGE`, `keyfile_is_gpg` cuts the string at the last byte and
finds nothing; the buffer is read as one record, hashed, and the call returns
`0` with a volume key. -/
theorem LOOPAES_parse_keyfile_gpg_literal_only :
    (keyfile_is_gpg (ascii "BEGIN PGP MESSAGE")).1 = 0 ∧
    LOOPAES_parse_keyfile (gcrypt_backend demoLib) demoHeap 8 4 none (some (ascii "demo")) 0
      (ascii "BEGIN PGP MESSAGE") = (0, some ⟨4, [15, 46, 77, 108]⟩, 1) := by
  decide

/-! ## The volume key of an accepted loop-AES key file -/

theorem hash_key_ok {σ : Type} (B : HashBackend σ) (name : List Nat) (d : Nat)
    (H : List Nat → List Nat) (hOK : HashOK B name d H)
    (src : List Nat) (src_len len : Nat) (hlen : len ≤ d) :
    hash_key B src src_len len name = (0, (H (src.take src_len)).take len) := by
  obtain ⟨_, _, _, inv, ⟨s, hinit, hs⟩, hw, hf⟩ := hOK
  unfold hash_key
  rw [hinit]
  obtain ⟨hw1, hw2⟩ := hw s [] (src.take src_len) hs
  obtain ⟨hf1, hf2, _⟩ := hf _ _ len hw2 hlen
  simp only [hw1, ne_eq, not_true_eq_false, ↓reduceIte, hf1, hf2, List.nil_append]

theorem writeAt_append_length (P Q bs : List Nat) :
    writeAt (P ++ Q) P.length bs = P ++ bs ++ Q.drop bs.length := by
  unfold writeAt
  rw [List.take_left, ← List.drop_drop, List.drop_left]

theorem writeAt_writeAt_append (m : List Nat) (off : Nat) (xs ys : List Nat)
    (h : off ≤ m.length) :
    writeAt (writeAt m off xs) (off + xs.length) ys = writeAt m off (xs ++ ys) := by
  obtain ⟨P, Q, rfl, rfl⟩ : ∃ P Q, m = P ++ Q ∧ off = P.length :=
    ⟨m.take off, m.drop off, (List.take_append_drop off m).symm, by simp; omega⟩
  rw [writeAt_append_length, writeAt_append_length]
  have : P.length + xs.length = (P ++ xs).length := by simp
  rw [this, writeAt_append_length]
  simp [List.drop_drop, Nat.add_comm]

theorem writeAt_tweak (key : List Nat) (off : Nat) (t : Nat) (D : List Nat)
    (hD : 1 ≤ D.length) (h : off ≤ key.length) :
    writeAt (writeAt key off D) off [((writeAt key off D).getD off 0) ^^^ t] =
      writeAt key off (tweak_first t D) := by
  obtain ⟨P, Q, rfl, rfl⟩ : ∃ P Q, key = P ++ Q ∧ off = P.length :=
    ⟨key.take off, key.drop off, (List.take_append_drop off key).symm, by simp; omega⟩
  cases D with
  | nil => simp at hD
  | cons b bs =>
    rw [writeAt_append_length, List.append_assoc, writeAt_append_length, writeAt_append_length]
    have hg : (P ++ (b :: bs ++ List.drop (b :: bs).length Q)).getD P.length 0 = b := by
      rw [List.getD_eq_getElem?_getD, List.getElem?_append_right (le_refl _)]
      simp
    rw [hg]
    simp [tweak_first]

theorem tweak_first_length (t : Nat) (D : List Nat) : (tweak_first t D).length = D.length := by
  cases D <;> rfl

theorem writeAt_length_ge (m : List Nat) (off : Nat) (bs : List Nat) (h : off ≤ m.length) :
    off + bs.length ≤ (writeAt m off bs).length := by
  simp only [writeAt, List.length_append, List.length_take, List.length_drop]
  omega

theorem writeAt_nil (m : List Nat) (off : Nat) : writeAt m off [] = m := by
  simp [writeAt]

/-- With a supported hash the loop of `hash_keys` succeeds at every key and
stores, at consecutive places of `key_len_output` bytes, the digests of the
strings at the pointers, each with its first byte XORed with the tweak. -/
theorem hash_keys_loop_ok {σ : Type} (B : HashBackend σ) (name : List Nat) (d : Nat)
    (H : List Nat → List Nat) (hOK : HashOK B name d H) (buffer : List Nat)
    (t L n : Nat) (hn1 : 1 ≤ n) (hn : n ≤ d) :
    ∀ (ks : List Nat) (i : Nat) (r : Int) (key : List Nat), i * n ≤ key.length →
      hash_keys_loop B buffer name t L n ks i r key =
        (if ks = [] then r else 0,
          writeAt key (i * n)
            (ks.map fun k => tweak_first t ((H ((buffer.drop k).take L)).take n)).flatten) := by
  intro ks
  induction ks with
  | nil =>
    intro i r key _
    simp [hash_keys_loop, writeAt_nil]
  | cons k ks ih =>
    intro i r key hkey
    have hD : ((H ((buffer.drop k).take L)).take n).length = n := by
      rw [List.length_take, hashOK_len hOK]; omega
    simp only [hash_keys_loop, hash_key_ok B name d H hOK _ L n hn, lt_self_iff_false,
      ↓reduceIte, reduceCtorEq]
    rw [writeAt_tweak key (i * n) t _ (by omega) hkey]
    have hX : (tweak_first t ((H ((buffer.drop k).take L)).take n)).length = n := by
      rw [tweak_first_length, hD]
    rw [ih (i + 1) 0 _ (by
      have := writeAt_length_ge key (i * n) (tweak_first t ((H ((buffer.drop k).take L)).take n)) hkey
      rw [hX] at this
      rw [Nat.add_mul, Nat.one_mul]; exact this)]
    have e : (i + 1) * n = i * n +
        (tweak_first t ((H ((buffer.drop k).take L)).take n)).length := by
      rw [hX, Nat.add_mul, Nat.one_mul]
    rw [e, writeAt_writeAt_append _ _ _ _ hkey]
    simp

theorem neg_EINVAL_ne_zero : (-EINVAL : Int) ≠ 0 := by decide

theorem neg_ENOMEM_ne_zero : (-ENOMEM : Int) ≠ 0 := by decide

theorem writeAt_zero_full (m bs : List Nat) (h : bs.length = m.length) :
    writeAt m 0 bs = bs := by
  unfold writeAt
  rw [List.take_zero, List.nil_append, List.drop_eq_nil_of_le (by omega), List.append_nil]

theorem hash_name_resolved (hash : Option (List Nat)) (n : Nat) (hname : List Nat) :
    (hash = some hname ∨ (hash = none ∧ get_hash n = some hname)) →
    (match hash with
      | some h => some h
      | none => get_hash n) = some hname := by
  intro hname_eq
  rcases hname_eq with h | ⟨h, h'⟩
  · rw [h]
  · rw [h, h']

/-- With a supported hash that delivers `n` bytes and a heap that hands out
blocks of the requested size, a call of `hash_keys` that returns 0 has stored
a volume key of `K * n` bytes: the tweaked digests of the strings at the `K`
pointers, in order. -/
theorem hash_keys_ok {σ : Type} (B : HashBackend σ) (M : Heap) (hdr : Nat)
    (vk0 : Option volume_key) (hash : Option (List Nat)) (buf : List Nat) (keys : List Nat)
    (K n : Nat) (hname : List Nat) (d : Nat) (H : List Nat → List Nat)
    (hname_eq : hash = some hname ∨ (hash = none ∧ get_hash n = some hname))
    (hOK : HashOK B hname d H) (hn : n ≤ d) (hwrap : n * K < 2 ^ 32)
    (hM : ∀ m b, M.malloc m = some b → b.length = m) (hK : K = keys.length)
    (hacc : (hash_keys B M hdr vk0 hash buf keys K n).1 = 0) :
    hash_keys B M hdr vk0 hash buf keys K n =
      (0, some ⟨K * n, (keys.map fun k => tweak_first (get_tweak K)
        ((H ((buf.drop k).take (strlen_at buf (keys.getD 0 0)))).take n)).flatten⟩) := by
  have hnm := hash_name_resolved hash n hname hname_eq
  unfold hash_keys at hacc ⊢
  simp only [hnm] at hacc ⊢
  by_cases hz : K = 0 ∨ n = 0 ∨ strlen_at buf (keys.getD 0 0) = 0
  · rw [if_pos hz] at hacc
    exact absurd hacc neg_EINVAL_ne_zero
  rw [if_neg hz] at hacc ⊢
  have hmod : (n * K) % 2 ^ 32 = n * K := Nat.mod_eq_of_lt hwrap
  rw [hmod] at hacc ⊢
  unfold crypt_alloc_volume_key at hacc ⊢
  cases hb : M.malloc (hdr + n * K) with
  | none =>
    rw [hb] at hacc
    exact absurd hacc neg_ENOMEM_ne_zero
  | some block =>
    have hbl := hM _ _ hb
    have hn1 : 1 ≤ n := by
      rcases Nat.eq_zero_or_pos n with h | h
      · exact absurd (Or.inr (Or.inl h)) hz
      · exact h
    have hK1 : 1 ≤ K := by
      rcases Nat.eq_zero_or_pos K with h | h
      · exact absurd (Or.inl h) hz
      · exact h
    have htake : keys.take K = keys := List.take_of_length_le (by omega)
    have hloop := hash_keys_loop_ok B hname d H hOK buf (get_tweak K)
      (strlen_at buf (keys.getD 0 0)) n hn1 hn keys 0 0 (block.drop hdr) (by simp)
    have hF : ((keys.map fun k => tweak_first (get_tweak K)
        ((H ((buf.drop k).take (strlen_at buf (keys.getD 0 0)))).take n)).flatten).length =
        (block.drop hdr).length := by
      rw [flatten_map_length _ n (fun k => by
        rw [tweak_first_length, List.length_take, hashOK_len hOK]; omega)]
      rw [List.length_drop, hbl, ← hK, Nat.mul_comm]
      omega
    rw [Nat.zero_mul, writeAt_zero_full _ _ hF] at hloop
    simp only [htake, hloop, ite_self, lt_self_iff_false, ↓reduceIte]
    rw [Nat.mul_comm]

theorem take_remove_eol_record : ∀ l : List Nat,
    (l.map remove_eol).take (l.takeWhile (fun c => !isKeySep c)).length =
      l.takeWhile (fun c => !isKeySep c)
  | [] => rfl
  | x :: xs => by
    by_cases h : isKeySep x = true
    · simp [List.takeWhile_cons, h]
    · have hx : remove_eol x = x := by
        unfold remove_eol
        unfold isKeySep at h
        by_cases h1 : x = 10
        · subst h1; exact absurd rfl h
        by_cases h2 : x = 13
        · subst h2; exact absurd rfl h
        simp [h1, h2]
      simp [List.takeWhile_cons, h, hx, take_remove_eol_record xs]

/-- The strings at the pointers that the scanning loop stores are the first
records of the buffer, in order. -/
theorem scan_keys_records (buffer : List Nat) :
    ∀ (n offset : Nat) (keys : List Nat), offset ≤ buffer.length →
      ∃ offs, (scan_keys (buffer.map remove_eol) n offset keys).1 = keys ++ offs ∧
        offs.map (fun k => (buffer.drop k).takeWhile (fun c => !isKeySep c)) =
          (keyfile_records (buffer.drop offset).length (buffer.drop offset)).take n := by
  intro n
  induction n with
  | zero =>
    intro offset keys hoff
    exact ⟨[], by simp [scan_keys], by simp⟩
  | succ n ih =>
    intro offset keys hoff
    by_cases hlt : offset < buffer.length
    · have hrest : buffer.drop offset ≠ [] := by
        intro h
        rw [List.drop_eq_nil_iff] at h
        omega
      have hlen1 := length_takeWhile_le' (fun c => !isKeySep c) (buffer.drop offset)
      have hlen2 := length_takeWhile_le' isKeySep
        ((buffer.drop offset).dropWhile (fun c => !isKeySep c))
      have hdl : (buffer.drop offset).length = buffer.length - offset := List.length_drop _ _
      have ho1 : buffer.drop (offset +
          ((buffer.drop offset).takeWhile (fun c => !isKeySep c)).length) =
          (buffer.drop offset).dropWhile (fun c => !isKeySep c) := by
        rw [← List.drop_drop, drop_length_takeWhile]
      have ho2 : buffer.drop (offset +
          ((buffer.drop offset).takeWhile (fun c => !isKeySep c)).length +
          (((buffer.drop offset).dropWhile (fun c => !isKeySep c)).takeWhile isKeySep).length) =
          ((buffer.drop offset).dropWhile (fun c => !isKeySep c)).dropWhile isKeySep := by
        rw [← List.drop_drop, ho1, drop_length_takeWhile]
      have hstep : scan_keys (buffer.map remove_eol) (n + 1) offset keys =
          scan_keys (buffer.map remove_eol) n (offset +
            ((buffer.drop offset).takeWhile (fun c => !isKeySep c)).length +
            (((buffer.drop offset).dropWhile (fun c => !isKeySep c)).takeWhile
              isKeySep).length) (keys ++ [offset]) := by
        simp only [scan_keys, List.length_map, hlt, ↓reduceIte]
        rw [← List.map_drop, takeWhile_remove_eol_nonzero, ← List.map_drop, ho1,
          takeWhile_remove_eol_zero]
      obtain ⟨offs, h1, h2⟩ := ih (offset +
            ((buffer.drop offset).takeWhile (fun c => !isKeySep c)).length +
            (((buffer.drop offset).dropWhile (fun c => !isKeySep c)).takeWhile
              isKeySep).length) (keys ++ [offset]) (by omega)
      rw [ho2] at h2
      rw [hstep, keyfile_records_cons _ hrest]
      refine ⟨offset :: offs, by rw [h1]; simp, ?_⟩
      simp only [List.map_cons, List.take_succ_cons, h2]
    · have hnil : buffer.drop offset = [] := by
        rw [List.drop_eq_nil_iff]; omega
      exact ⟨[], by simp [scan_keys, hlt], by simp [hnil, keyfile_records]⟩

theorem readAt_flatten_uniform (n : Nat) : ∀ (L : List (List Nat)) (i : Nat),
    (∀ x ∈ L, x.length = n) → i < L.length →
      readAt L.flatten (i * n) n = L.getD i []
  | [], i, _, hi => by simp at hi
  | x :: xs, 0, hL, _ => by
    have hx : x.length = n := hL x (List.mem_cons_self _ _)
    simp only [readAt, Nat.zero_mul, List.drop_zero, List.flatten_cons, List.getD_cons_zero]
    rw [List.take_append_of_le_length (by omega), List.take_of_length_le (by omega)]
  | x :: xs, i + 1, hL, hi => by
    have hx : x.length = n := hL x (List.mem_cons_self _ _)
    have ih := readAt_flatten_uniform n xs i (fun y hy => hL y (List.mem_cons_of_mem _ hy))
      (by simpa using hi)
    simp only [List.flatten_cons, List.getD_cons_succ]
    rw [← ih]
    unfold readAt
    have e : (i + 1) * n = x.length + i * n := by rw [hx]; ring
    rw [e, ← List.drop_drop, List.drop_left]

theorem ite_fst_zero {α : Type} {c : Prop} [Decidable c] {a b : Int × α}
    (h : (if c then a else b).1 = 0) (ha : a.1 ≠ 0) : ¬ c := by
  intro hc
  rw [if_pos hc] at h
  exact ha h

/-- A key file that `LOOPAES_parse_keyfile` does not reject before hashing: the
pointers found are those of all the records, the records number 1, 64 or 65
and have one length, and the result is that of `hash_keys`. -/
theorem LOOPAES_parse_keyfile_accepted {σ : Type} (B : HashBackend σ) (M : Heap) (hdr n : Nat)
    (vk0 : Option volume_key) (hash : Option (List Nat)) (kc0 : Nat) (buffer : List Nat)
    (hacc : (LOOPAES_parse_keyfile B M hdr n vk0 hash kc0 buffer).1 = 0) :
    ∃ offs : List Nat,
      offs.map (fun k => (buffer.drop k).takeWhile (fun c => !isKeySep c)) =
        keyfile_records buffer.length buffer ∧
      (∀ k ∈ offs, strlen_at (buffer.map remove_eol) k =
        strlen_at (buffer.map remove_eol) (offs.getD 0 0)) ∧
      (offs.length = 1 ∨ offs.length = 64 ∨ offs.length = 65) ∧
      LOOPAES_parse_keyfile B M hdr n vk0 hash kc0 buffer =
        ((hash_keys B M hdr vk0 hash (buffer.map remove_eol) offs offs.length n).1,
         (hash_keys B M hdr vk0 hash (buffer.map remove_eol) offs offs.length n).2,
         offs.length) := by
  obtain ⟨offs, h1, h2, h3⟩ := scan_keys_spec buffer LOOPAES_KEYS_MAX 0 [] (Nat.zero_le _)
  obtain ⟨offs', h1', h2'⟩ := scan_keys_records buffer LOOPAES_KEYS_MAX 0 [] (Nat.zero_le _)
  simp only [List.drop_zero, List.nil_append] at h1 h2 h3 h1' h2'
  have hoo : offs' = offs := by rw [h1] at h1'; exact h1'.symm
  subst hoo
  unfold LOOPAES_parse_keyfile at hacc ⊢
  by_cases hl0 : buffer.length = 0
  · rw [if_pos hl0] at hacc
    exact absurd hacc neg_EINVAL_ne_zero
  simp only [hl0, ↓reduceIte] at hacc ⊢
  by_cases hg : (keyfile_is_gpg buffer).1 ≠ 0
  · rw [if_pos hg] at hacc
    exact absurd hacc neg_EINVAL_ne_zero
  rw [if_neg hg] at hacc ⊢
  simp only [keyfile_is_gpg_buffer] at hacc ⊢
  rw [h1] at hacc ⊢
  generalize (scan_keys (List.map remove_eol buffer) LOOPAES_KEYS_MAX 0 []).2 = off
    at h3 hacc ⊢
  generalize keyfile_records buffer.length buffer = recs at h2 h3 h2' ⊢
  have hrej := ite_fst_zero hacc neg_EINVAL_ne_zero
  · rw [if_neg hrej]
    simp only [not_or, not_and_or, not_not, ne_eq] at hrej
    obtain ⟨hoff, hlen, hcount⟩ := hrej
    have hK := h3.mp hoff
    rw [List.take_of_length_le hK] at h2'
    refine ⟨offs', h2', ?_, ?_, rfl⟩
    · intro k hk
      by_cases hall : (offs'.all fun k => strlen_at (List.map remove_eol buffer) k ==
          if offs'.length = 0 then 0
          else strlen_at (List.map remove_eol buffer) (offs'.getD 0 0)) = true
      · have := List.all_eq_true.mp hall k hk
        have hne : offs'.length ≠ 0 := by
          intro h0
          rw [List.length_eq_zero] at h0
          rw [h0] at hk
          simp at hk
        simpa [hne] using this
      · exfalso
        apply hlen
        simp only [ite_not] at hall ⊢
        rw [if_neg hall]
    · tauto

/-- C12, as amended: for every key file that `LOOPAES_parse_keyfile` accepts
(it returns 0), with `K` the number of records obtained by cutting the buffer
at `\n`, `\r` and NUL bytes, `n` the output key length, a supported hash `H`
that delivers `n` bytes and an allocator that hands out blocks of the
requested size: `K` is 1, 64 or 65, `*keys_count` is `K`, the volume key has
length `K * n` and is the concatenation, in input order, of the first `n`
bytes of `H(record_i)` with only the first byte XORed with the tweak, so that
bytes `[i*n, (i+1)*n)` are those of record `i`; the tweak is 0x00 for `K = 1`,
0x55 for `K = 64` and 0xF4 for `K = 65`. -/
theorem LOOPAES_parse_keyfile_key {σ : Type} (B : HashBackend σ) (M : Heap) (hdr n : Nat)
    (vk0 : Option volume_key) (hash : Option (List Nat)) (kc0 : Nat) (buffer : List Nat)
    (hname : List Nat) (d : Nat) (H : List Nat → List Nat)
    (hname_eq : hash = some hname ∨ (hash = none ∧ get_hash n = some hname))
    (hOK : HashOK B hname d H) (hn : n ≤ d) (hwrap : n * 65 < 2 ^ 32)
    (hM : ∀ m b, M.malloc m = some b → b.length = m)
    (hacc : (LOOPAES_parse_keyfile B M hdr n vk0 hash kc0 buffer).1 = 0) :
    ((keyfile_records buffer.length buffer).length = 1 ∨
      (keyfile_records buffer.length buffer).length = 64 ∨
      (keyfile_records buffer.length buffer).length = 65) ∧
    LOOPAES_parse_keyfile B M hdr n vk0 hash kc0 buffer =
      (0, some ⟨(keyfile_records buffer.length buffer).length * n,
          ((keyfile_records buffer.length buffer).map fun r =>
            tweak_first (get_tweak (keyfile_records buffer.length buffer).length)
              ((H r).take n)).flatten⟩,
        (keyfile_records buffer.length buffer).length) ∧
    (∀ i, i < (keyfile_records buffer.length buffer).length →
      readAt (((keyfile_records buffer.length buffer).map fun r =>
            tweak_first (get_tweak (keyfile_records buffer.length buffer).length)
              ((H r).take n)).flatten) (i * n) n =
        tweak_first (get_tweak (keyfile_records buffer.length buffer).length)
          ((H ((keyfile_records buffer.length buffer).getD i [])).take n)) ∧
    get_tweak 1 = 0x00 ∧ get_tweak 64 = 0x55 ∧ get_tweak 65 = 0xF4 := by
  obtain ⟨offs, hrec, hlen, hcount, hres⟩ :=
    LOOPAES_parse_keyfile_accepted B M hdr n vk0 hash kc0 buffer hacc
  have hblock : ∀ r : List Nat, (tweak_first
      (get_tweak (keyfile_records buffer.length buffer).length) ((H r).take n)).length = n := by
    intro r
    rw [tweak_first_length, List.length_take, hashOK_len hOK]; omega
  have hKlen : (keyfile_records buffer.length buffer).length = offs.length := by
    rw [← hrec, List.length_map]
  refine ⟨by rw [hKlen]; exact hcount, ?_, ?_, rfl, rfl, rfl⟩
  · rw [hres] at hacc
    have hw : n * offs.length < 2 ^ 32 := by
      have : offs.length ≤ 65 := by omega
      calc n * offs.length ≤ n * 65 := Nat.mul_le_mul_left n this
        _ < 2 ^ 32 := hwrap
    have hk := hash_keys_ok B M hdr vk0 hash (buffer.map remove_eol) offs offs.length n
      hname d H hname_eq hOK hn hw hM rfl hacc
    rw [hres, hk, hKlen, ← hrec, List.map_map]
    have hmap : (offs.map fun k => tweak_first (get_tweak offs.length)
          ((H (((buffer.map remove_eol).drop k).take
            (strlen_at (buffer.map remove_eol) (offs.getD 0 0)))).take n)) =
        offs.map ((fun r => tweak_first (get_tweak offs.length) ((H r).take n)) ∘
          fun k => (buffer.drop k).takeWhile (fun c => !isKeySep c)) := by
      apply List.map_congr_left
      intro k hk
      simp only [Function.comp]
      rw [← hlen k hk, strlen_at_remove_eol, ← List.map_drop, take_remove_eol_record]
    rw [hmap]
  · intro i hi
    rw [readAt_flatten_uniform n _ i (by
        intro x hx
        obtain ⟨r, _, rfl⟩ := List.mem_map.mp hx
        exact hblock r) (by simpa using hi)]
    rw [List.getD_eq_getElem?_getD, List.getD_eq_getElem?_getD, List.getElem?_map]
    rw [List.getElem?_eq_getElem hi]
    rfl

set_option maxRecDepth 1000000 in
theorem LOOPAES_parse_keyfile_key_witness :
    LOOPAES_parse_keyfile (gcrypt_backend demoLib) demoHeap 8 4 none (some (ascii "demo")) 0
        (List.replicate 65 (ascii "ab\n")).flatten =
      (0, some ⟨65 * 4,
        (List.replicate 65 (tweak_first 0xF4 ((demoHash (ascii "ab")).take 4))).flatten⟩, 65) :=
  (LOOPAES_parse_keyfile_key (gcrypt_backend demoLib) demoHeap 8 4 none
    (some (ascii "demo")) 0 (List.replicate 65 (ascii "ab\n")).flatten (ascii "demo") 4 demoHash
    (Or.inl rfl) demo_HashOK (by decide) (by decide)
    (by intro m b hb; simp only [demoHeap, Option.some.injEq] at hb; rw [← hb]; simp)
    (by decide)).2.1.trans (by decide)

/-- C12 as stated fails: the key file `a\0\n` has one record when split on
`\n` and `\r`, the two bytes `a\0`; it is accepted with `*keys_count = 1`, but
the volume key is the digest of the one byte `a`, not that of the record. -/
theorem LOOPAES_parse_keyfile_key_nul :
    keyfile_lines 3 [97, 0, 10] = [[97, 0]] ∧
    LOOPAES_parse_keyfile (gcrypt_backend demoLib) demoHeap 8 4 none (some (ascii "demo")) 0
      [97, 0, 10] = (0, some ⟨4, (demoHash [97]).take 4⟩, 1) ∧
    (demoHash [97]).take 4 ≠ tweak_first 0x00 ((demoHash [97, 0]).take 4) := by
  decide

/-! ## The hash of loop-AES records -/

/-- The loop of `hash_keys` asks the provider for the hash `name` only: two
providers that give `hash_key` the same result for `name` give the loop the same
result. -/
theorem hash_keys_loop_congr {σ τ : Type} (B : HashBackend σ) (B1 : HashBackend τ)
    (buffer name : List Nat) (t L n : Nat)
    (hB : ∀ src len, hash_key B1 src len n name = hash_key B src len n name) :
    ∀ (ks : List Nat) (i : Nat) (r : Int) (key : List Nat),
      hash_keys_loop B1 buffer name t L n ks i r key =
        hash_keys_loop B buffer name t L n ks i r key := by
  intro ks
  induction ks with
  | nil => intro i r key; rfl
  | cons k ks ih =>
    intro i r key
    simp only [hash_keys_loop, hB, ih]

/-- C13: the hash of the loop-AES records is the hash of the specification's
table (`loopaes_hash`: the override when one is given, else sha256 for output
key length 16, sha384 for 24, sha512 for 32). When the table gives the name
`hname`, `hash_keys` depends on the provider through `hash_key` for `hname` only, and
with a provider that supports `hname` with the digest function `H` a call that
returns 0 has stored, for every record in order, the first `key_len_output`
bytes of `H(record)` with the first byte XORed with the tweak. When the table
gives no hash, that is with no override and another output key length,
`hash_keys` returns `-EINVAL`, leaves `*vk` as it was and allocates no volume
key. -/
theorem hash_keys_hash_name {σ τ : Type} (B : HashBackend σ) (B1 : HashBackend τ) (M : Heap)
    (hdr : Nat) (vk0 : Option volume_key) (hash_override : Option (List Nat))
    (buffer : List Nat) (input_keys : List Nat) (keys_count : Nat) (key_len_output : Nat) :
    (∀ hname, loopaes_hash hash_override key_len_output = some hname →
      (∀ src len, hash_key B1 src len key_len_output hname =
        hash_key B src len key_len_output hname) →
      hash_keys B1 M hdr vk0 hash_override buffer input_keys keys_count key_len_output =
        hash_keys B M hdr vk0 hash_override buffer input_keys keys_count key_len_output) ∧
    (∀ hname d H, loopaes_hash hash_override key_len_output = some hname →
      HashOK B hname d H → key_len_output ≤ d → key_len_output * keys_count < 2 ^ 32 →
      (∀ m b, M.malloc m = some b → b.length = m) → keys_count = input_keys.length →
      (hash_keys B M hdr vk0 hash_override buffer input_keys keys_count key_len_output).1 = 0 →
      hash_keys B M hdr vk0 hash_override buffer input_keys keys_count key_len_output =
        (0, some ⟨keys_count * key_len_output,
          (input_keys.map fun k => tweak_first (get_tweak keys_count)
            ((H ((buffer.drop k).take (strlen_at buffer (input_keys.getD 0 0)))).take
              key_len_output)).flatten⟩)) ∧
    (loopaes_hash hash_override key_len_output = none →
      hash_keys B M hdr vk0 hash_override buffer input_keys keys_count key_len_output =
        (-EINVAL, vk0) ∧
      hash_keys_freed B M hdr hash_override buffer input_keys keys_count key_len_output =
        none) ∧
    (∀ h : List Nat, loopaes_hash (some h) key_len_output = some h) ∧
    loopaes_hash none 16 = some (ascii "sha256") ∧
    loopaes_hash none 24 = some (ascii "sha384") ∧
    loopaes_hash none 32 = some (ascii "sha512") ∧
    (loopaes_hash hash_override key_len_output = none ↔
      (hash_override = none ∧ key_len_output ≠ 16 ∧ key_len_output ≠ 24 ∧
        key_len_output ≠ 32)) := by
  have hres : (match hash_override with
      | some h => some h
      | none => get_hash key_len_output) = loopaes_hash hash_override key_len_output := by
    cases hash_override <;> rfl
  have hne : ∀ hname, loopaes_hash hash_override key_len_output = some hname →
      (hash_override = some hname ∨
        (hash_override = none ∧ get_hash key_len_output = some hname)) := by
    intro hname h
    cases hash_override with
    | none => exact Or.inr ⟨rfl, h⟩
    | some x => exact Or.inl h
  refine ⟨?_, ?_, ?_, fun _ => rfl, rfl, rfl, rfl, ?_⟩
  · intro hname hn hB
    unfold hash_keys
    simp only [hres, hn, hash_keys_loop_congr B B1 buffer hname _ _ key_len_output hB]
  · intro hname d H hn hOK hle hwrap hM hK hacc
    exact hash_keys_ok B M hdr vk0 hash_override buffer input_keys keys_count key_len_output
      hname d H (hne hname hn) hOK hle hwrap hM hK hacc
  · intro hn
    unfold hash_keys hash_keys_freed
    simp only [hres, hn, and_self]
  · cases hash_override with
    | none =>
      simp only [loopaes_hash, true_and]
      split_ifs <;> simp_all
    | some h => simp [loopaes_hash]

set_option maxRecDepth 1000000 in
theorem hash_keys_hash_name_witness :
    hash_keys (gcrypt_backend demoLib) demoHeap 8 none (some (ascii "demo"))
        (ascii "secret" ++ [0]) [0] 1 4 =
      (0, some ⟨1 * 4, ([0].map fun k => tweak_first (get_tweak 1)
        ((demoHash (((ascii "secret" ++ [0]).drop k).take
          (strlen_at (ascii "secret" ++ [0]) ([0].getD 0 0)))).take 4)).flatten⟩) ∧
    hash_keys (gcrypt_backend nameLib) demoHeap 8 none none (ascii "secret" ++ [0]) [0] 1 16 =
      (0, some ⟨16, List.replicate 16 1⟩) ∧
    hash_keys (gcrypt_backend nameLib) demoHeap 8 none none (ascii "secret" ++ [0]) [0] 1 24 =
      (0, some ⟨24, List.replicate 24 2⟩) ∧
    hash_keys (gcrypt_backend nameLib) demoHeap 8 none none (ascii "secret" ++ [0]) [0] 1 32 =
      (0, some ⟨32, List.replicate 32 3⟩) ∧
    hash_keys (gcrypt_backend nameLib) demoHeap 8 none (some (ascii "sha512"))
        (ascii "secret" ++ [0]) [0] 1 16 = (0, some ⟨16, List.replicate 16 3⟩) ∧
    hash_keys (gcrypt_backend nameLib) demoHeap 8 none none (ascii "secret" ++ [0]) [0] 1 20 =
      (-EINVAL, none) :=
  ⟨(hash_keys_hash_name (gcrypt_backend demoLib) (gcrypt_backend demoLib) demoHeap 8 none
      (some (ascii "demo")) (ascii "secret" ++ [0]) [0] 1 4).2.1 (ascii "demo") 4 demoHash rfl
      demo_HashOK (by decide) (by decide)
      (by intro m b hb; simp only [demoHeap, Option.some.injEq] at hb; rw [← hb]; simp)
      rfl (by decide),
    by decide, by decide, by decide, by decide, by decide⟩

/-! ## lib/volumekey.c -/

/-- C14, as amended: for every length `len`, a successful
`crypt_alloc_volume_key(len, src)` returns a volume key whose `keylength` is
`len` and whose `len` key bytes equal the first `len` bytes of `src` when `src`
is given, and are the bytes that the fresh block held (they are not
initialised) when `src` is absent. -/
theorem crypt_alloc_volume_key_spec (M : Heap) (hdr len : Nat) (block : List Nat)
    (hb : M.malloc (hdr + len) = some block) (hlen : block.length = hdr + len) :
    (∀ src : List Nat, len ≤ src.length →
      crypt_alloc_volume_key M hdr len (some src) = some ⟨len, src.take len⟩) ∧
    crypt_alloc_volume_key M hdr len none = some ⟨len, readAt block hdr len⟩ := by
  unfold crypt_alloc_volume_key
  rw [hb]
  have hd : (block.drop hdr).length = len := by
    rw [List.length_drop]; omega
  refine ⟨?_, ?_⟩
  · intro src _
    simp only [Option.some.injEq, volume_key.mk.injEq, true_and]
    rw [List.drop_eq_nil_of_le (by omega), List.append_nil]
  · simp only [readAt, Option.some.injEq, volume_key.mk.injEq, true_and]
    rw [List.take_of_length_le (by omega)]

theorem crypt_alloc_volume_key_spec_witness :
    crypt_alloc_volume_key demoHeap 8 4 (some [1, 2, 3, 4, 5]) = some ⟨4, [1, 2, 3, 4]⟩ ∧
    crypt_alloc_volume_key demoHeap 8 4 none =
      some ⟨4, readAt (List.replicate 12 0xAA) 8 4⟩ :=
  ⟨(crypt_alloc_volume_key_spec demoHeap 8 4 (List.replicate 12 0xAA) rfl rfl).1
      [1, 2, 3, 4, 5] (by decide),
    (crypt_alloc_volume_key_spec demoHeap 8 4 (List.replicate 12 0xAA) rfl rfl).2⟩

/-- C14 as stated fails: on a heap whose fresh blocks hold the byte `0xAA`,
`crypt_alloc_volume_key(4, NULL)` returns a key whose four bytes are `0xAA`,
not zero. -/
theorem crypt_alloc_volume_key_not_zeroed :
    crypt_alloc_volume_key demoHeap 8 4 none = some ⟨4, [0xAA, 0xAA, 0xAA, 0xAA]⟩ ∧
    [0xAA, 0xAA, 0xAA, 0xAA] ≠ List.replicate 4 0 := by
  decide

/-- C15: `crypt_free_volume_key` on a key hands to `free` a block whose
`keylength` is 0 and whose first `keylength` key bytes (all the key material)
are zero, byte by byte, and the bytes after them are as they were; on a null
key it releases nothing. -/
theorem crypt_free_volume_key_wipes (vk : volume_key) :
    crypt_free_volume_key none = none ∧
    ∃ freed, crypt_free_volume_key (some vk) = some freed ∧
      freed.keylength = 0 ∧
      freed.key.take vk.keylength = List.replicate vk.keylength 0 ∧
      (∀ i, i < vk.keylength → freed.key.getD i 1 = 0) ∧
      freed.key.drop vk.keylength = vk.key.drop vk.keylength := by
  refine ⟨rfl, _, rfl, rfl, ?_, ?_, ?_⟩
  · simp only [writeAt, List.take_zero, List.nil_append, Nat.zero_add, List.length_replicate]
    rw [List.take_left']
    simp
  · intro i hi
    simp only [writeAt, List.take_zero, List.nil_append, Nat.zero_add, List.length_replicate]
    rw [List.getD_eq_getElem?_getD, List.getElem?_append_left (by simpa using hi)]
    simp [hi]
  · simp only [writeAt, List.take_zero, List.nil_append, Nat.zero_add, List.length_replicate]
    rw [List.drop_left']
    simp

theorem stockSource_ok : RandomOK stockSource := by
  intro s n q h
  unfold stockSource at h ⊢
  by_cases hs : n ≤ s
  · simp [hs]
  · simp only [hs, ↓reduceIte] at h
    exact absurd h (by decide)

/-- C16: when the allocation succeeds, `crypt_generate_volume_key(len)` asks
the random source for `len` bytes at quality `CRYPT_RND_KEY`; if the source
succeeds, the call returns a key of length `len` whose bytes are exactly
those delivered, and releases nothing; if the source reports failure, it
returns no key, and the block it had allocated is handed to `free` with
`keylength` 0 and its `len` key bytes zero. -/
theorem crypt_generate_volume_key_spec {ρ : Type} (M : Heap) (R : RandomSource ρ)
    (hdr len : Nat) (rng : ρ) (block : List Nat)
    (hb : M.malloc (hdr + len) = some block) (hlen : block.length = hdr + len)
    (hR : RandomOK R) :
    (0 ≤ (R.crypt_random_get rng len RndQuality.CRYPT_RND_KEY).1 →
      crypt_generate_volume_key M R hdr len rng =
        (some ⟨len, (R.crypt_random_get rng len RndQuality.CRYPT_RND_KEY).2.1⟩, none,
          (R.crypt_random_get rng len RndQuality.CRYPT_RND_KEY).2.2)) ∧
    ((R.crypt_random_get rng len RndQuality.CRYPT_RND_KEY).1 < 0 →
      ∃ freed, crypt_generate_volume_key M R hdr len rng =
        (none, some freed, (R.crypt_random_get rng len RndQuality.CRYPT_RND_KEY).2.2) ∧
        freed.keylength = 0 ∧ freed.key.take len = List.replicate len 0) := by
  have hd : (block.drop hdr).length = len := by
    rw [List.length_drop]; omega
  unfold crypt_generate_volume_key crypt_alloc_volume_key
  rw [hb]
  refine ⟨?_, ?_⟩
  · intro h
    have hl := hR rng len RndQuality.CRYPT_RND_KEY h
    simp only [not_lt.mpr h, ↓reduceIte, Prod.mk.injEq, Option.some.injEq,
      volume_key.mk.injEq, true_and, and_true]
    exact writeAt_zero_full _ _ (by rw [hl, hd])
  · intro h
    simp only [h, ↓reduceIte]
    refine ⟨_, rfl, rfl, ?_⟩
    simp only [writeAt, List.take_zero, List.nil_append, Nat.zero_add, List.length_replicate]
    rw [List.take_left']
    simp

theorem crypt_generate_volume_key_spec_witness :
    crypt_generate_volume_key demoHeap stockSource 8 4 10 =
      (some ⟨4, [7, 7, 7, 7]⟩, none, 6) ∧
    ∃ freed, crypt_generate_volume_key demoHeap stockSource 8 4 2 = (none, some freed, 0) ∧
      freed.keylength = 0 ∧ freed.key.take 4 = List.replicate 4 0 :=
  ⟨(crypt_generate_volume_key_spec demoHeap stockSource 8 4 10 (List.replicate 12 0xAA)
      rfl rfl stockSource_ok).1 (by decide),
    (crypt_generate_volume_key_spec demoHeap stockSource 8 4 2 (List.replicate 12 0xAA)
      rfl rfl stockSource_ok).2 (by decide)⟩

/-! ## The table line built by `get_params` -/

set_option maxRecDepth 1000000 in
theorem fmt_02x_byte : ∀ v, v < 256 → fmt_02x v = [hexdigit (v / 16), hexdigit (v % 16)] := by
  decide

theorem fmt_02x_key_byte (b : Nat) :
    fmt_02x (b % 256) = [hexdigit (b / 16 % 16), hexdigit (b % 16)] := by
  rw [fmt_02x_byte (b % 256) (Nat.mod_lt _ (by decide))]
  have h1 : b % 256 / 16 = b / 16 % 16 := by omega
  have h2 : b % 256 % 16 = b % 16 := by omega
  rw [h1, h2]

theorem hexkey_spec_length (key : List Nat) : (hexkey_spec key).length = 2 * key.length := by
  unfold hexkey_spec
  rw [flatten_map_length (fun b => [hexdigit (b / 16 % 16), hexdigit (b % 16)]) 2
    (fun _ => rfl), Nat.mul_comm]

theorem hexkey_spec_cons (b : Nat) (key : List Nat) :
    hexkey_spec (b :: key) = [hexdigit (b / 16 % 16), hexdigit (b % 16)] ++ hexkey_spec key := by
  simp [hexkey_spec]

/-- The loop of `hex_key` leaves the digits already stored, appends the digits of
the bytes it converts and ends the string after them. -/
theorem hex_key_loop_spec (key : List Nat) :
    ∀ (n i : Nat) (hexkey : List Nat), i + n ≤ key.length →
      hexkey.length = 2 * (i + n) + 1 →
      hex_key_loop key n i hexkey =
        if n = 0 then hexkey
        else hexkey.take (2 * i) ++ hexkey_spec ((key.drop i).take n) ++ [0] := by
  intro n
  induction n with
  | zero => intro i hexkey _ _; rfl
  | succ n ih =>
    intro i hexkey hin hlen
    have hi : i < key.length := by omega
    have hget : key.getD i 0 = key[i] := by
      rw [List.getD_eq_getElem?_getD, List.getElem?_eq_getElem hi]; rfl
    have hdrop : key.drop i = key[i] :: key.drop (i + 1) := List.drop_eq_getElem_cons hi
    have hw : writeAt hexkey (i * 2) (fmt_02x (key.getD i 0 % 256) ++ [0]) =
        hexkey.take (2 * i) ++ [hexdigit (key[i] / 16 % 16), hexdigit (key[i] % 16)] ++ [0] ++
          hexkey.drop (2 * i + 3) := by
      rw [hget, fmt_02x_key_byte]
      unfold writeAt
      simp [Nat.mul_comm]
    have hwl : (writeAt hexkey (i * 2) (fmt_02x (key.getD i 0 % 256) ++ [0])).length =
        2 * (i + 1 + n) + 1 := by
      rw [writeAt_length _ _ _ (by rw [hget, fmt_02x_key_byte]; simp; omega), hlen]
      ring
    simp only [hex_key_loop, Nat.add_one_ne_zero, ↓reduceIte]
    rw [ih (i + 1) _ (by omega) hwl, hdrop, List.take_succ_cons, hexkey_spec_cons]
    have htk : (writeAt hexkey (i * 2) (fmt_02x (key.getD i 0 % 256) ++ [0])).take
        (2 * (i + 1)) =
        hexkey.take (2 * i) ++ [hexdigit (key[i] / 16 % 16), hexdigit (key[i] % 16)] := by
      rw [hw]
      have hl : (hexkey.take (2 * i) ++
          [hexdigit (key[i] / 16 % 16), hexdigit (key[i] % 16)]).length = 2 * (i + 1) := by
        simp only [List.length_append, List.length_take, List.length_cons, List.length_nil]
        omega
      rw [List.append_assoc (hexkey.take (2 * i) ++ _), List.take_left' hl]
    by_cases hn : n = 0
    · subst hn
      simp only [↓reduceIte, List.take_zero]
      rw [hw, List.drop_eq_nil_of_le (by omega)]
      simp [hexkey_spec]
    · rw [if_neg hn, htk]
      simp

theorem cstr_append_nul (A rest : List Nat) (hA : ∀ c ∈ A, c ≠ 0) :
    cstr (A ++ 0 :: rest) = A := by
  unfold cstr
  induction A with
  | nil => simp
  | cons a as ih =>
    have ha : a ≠ 0 := hA a (List.mem_cons_self _ _)
    simp only [List.cons_append, List.takeWhile_cons, bne_iff_ne, ne_eq, ha, not_false_eq_true,
      ↓reduceIte, List.cons.injEq, true_and]
    exact ih (fun c hc => hA c (List.mem_cons_of_mem _ hc))

theorem cstr_nonzero (b : List Nat) : ∀ c ∈ cstr b, c ≠ 0 := by
  intro c hc
  have := List.mem_takeWhile_imp hc
  simpa using this

theorem digitChar_nonzero (k : Nat) : (Nat.digitChar k).toNat ≠ 0 := by
  by_cases h : k < 16
  · interval_cases k <;> decide
  · have e : Nat.digitChar k = '*' := by
      unfold Nat.digitChar
      repeat rw [if_neg (by omega)]
    rw [e]
    decide

theorem toDigitsCore_nonzero (base : Nat) : ∀ (fuel n : Nat) (ds : List Char),
    (∀ c ∈ ds, c.toNat ≠ 0) → ∀ c ∈ Nat.toDigitsCore base fuel n ds, c.toNat ≠ 0 := by
  intro fuel
  induction fuel with
  | zero => intro n ds hds; simpa [Nat.toDigitsCore] using hds
  | succ fuel ih =>
    intro n ds hds
    have hds1 : ∀ c ∈ Nat.digitChar (n % base) :: ds, c.toNat ≠ 0 := by
      intro c hc
      rcases List.mem_cons.mp hc with h | h
      · rw [h]; exact digitChar_nonzero _
      · exact hds c h
    simp only [Nat.toDigitsCore]
    split
    · exact hds1
    · exact ih _ _ hds1

theorem fmt_u64_nonzero (v : Nat) : ∀ c ∈ fmt_u64 v, c ≠ 0 := by
  intro c hc
  unfold fmt_u64 Nat.toDigits at hc
  obtain ⟨ch, hch, rfl⟩ := List.mem_map.mp hc
  exact toDigitsCore_nonzero 10 _ _ [] (by simp) ch hch

set_option maxRecDepth 100000 in
theorem hexdigit_nonzero : ∀ n, n < 16 → hexdigit n ≠ 0 := by
  decide

theorem hexkey_spec_nonzero (key : List Nat) : ∀ c ∈ hexkey_spec key, c ≠ 0 := by
  intro c hc
  unfold hexkey_spec at hc
  obtain ⟨l, hl, hcl⟩ := List.mem_flatten.mp hc
  obtain ⟨b, _, rfl⟩ := List.mem_map.mp hl
  simp only [List.mem_cons, List.mem_singleton, List.not_mem_nil, or_false] at hcl
  rcases hcl with h | h
  · rw [h]; exact hexdigit_nonzero _ (Nat.mod_lt _ (by decide))
  · rw [h]; exact hexdigit_nonzero _ (Nat.mod_lt _ (by decide))

/-- For a non-empty key and a buffer of `2 * key_size + 1` bytes, `hex_key`
leaves the hex key followed by a NUL in the buffer, whatever the buffer
held. -/
theorem hex_key_spec (hexkey key : List Nat) (hk : key ≠ [])
    (hlen : hexkey.length = key.length * 2 + 1) :
    hex_key hexkey key.length key = hexkey_spec key ++ [0] := by
  have hpos : key.length ≠ 0 := fun h => hk (List.length_eq_zero.mp h)
  unfold hex_key
  rw [hex_key_loop_spec key key.length 0 hexkey (by omega) (by omega), if_neg hpos]
  simp

/-- The text that `get_params` formats: the cipher, the hex key, the two
numbers in decimal and the device, separated by single spaces. -/
theorem get_params_text (M : Heap) (device : List Nat) (skip offset : Nat) (cipher : List Nat)
    (key b1 b2 : List Nat) (hk : key ≠ [])
    (hM : ∀ m b, M.malloc m = some b → b.length = m)
    (hb1 : M.malloc (key.length * 2 + 1) = some b1)
    (hb2 : M.malloc (2 * key.length + (cstr cipher).length + (cstr device).length + 64) =
      some b2) :
    get_params M device skip offset cipher key.length key =
      some (writeAt b2 0 (cstr cipher ++ [32] ++ hexkey_spec key ++ [32] ++ fmt_u64 skip ++
        [32] ++ cstr device ++ [32] ++ fmt_u64 offset ++ [0])) := by
  have hh := hex_key_spec b1 key hk (hM _ _ hb1)
  have hc : cstr (hexkey_spec key ++ [0]) = hexkey_spec key :=
    cstr_append_nul _ [] (hexkey_spec_nonzero key)
  unfold get_params crypt_safe_alloc
  simp only [hb1, hh, hc, hexkey_spec_length, hb2]

/-- The table line of a non-empty key: for every cipher spec, device string,
non-empty key and skip/offset, when its two allocations succeed `get_params`
returns exactly
`cipher || ' ' || hexkey || ' ' || decimal(skip) || ' ' || device || ' ' ||
decimal(offset)`, where `hexkey` has exactly `2 * key_size` characters and
characters `2i`, `2i+1` are the high and the low nibble of key byte `i` written
with the digits `0-9a-f` (lower-case, zero-padded), whatever the fresh
buffers held. -/
theorem get_params_spec (M : Heap) (device : List Nat) (skip offset : Nat) (cipher : List Nat)
    (key b1 b2 : List Nat) (hk : key ≠ [])
    (hM : ∀ m b, M.malloc m = some b → b.length = m)
    (hb1 : M.malloc (key.length * 2 + 1) = some b1)
    (hb2 : M.malloc (2 * key.length + (cstr cipher).length + (cstr device).length + 64) =
      some b2) :
    ∃ params, get_params M device skip offset cipher key.length key = some params ∧
      cstr params = cstr cipher ++ [32] ++ hexkey_spec key ++ [32] ++ fmt_u64 skip ++
        [32] ++ cstr device ++ [32] ++ fmt_u64 offset ∧
      (hexkey_spec key).length = 2 * key.length ∧
      (∀ i, i < key.length → readAt (hexkey_spec key) (i * 2) 2 =
        [hexdigit (key.getD i 0 / 16 % 16), hexdigit (key.getD i 0 % 16)]) ∧
      (List.range 16).map hexdigit = ascii "0123456789abcdef" := by
  refine ⟨_, get_params_text M device skip offset cipher key b1 b2 hk hM hb1 hb2, ?_,
    hexkey_spec_length key, ?_, by decide⟩
  · unfold writeAt
    rw [List.take_zero, List.nil_append, List.append_assoc _ [0], List.singleton_append]
    apply cstr_append_nul
    intro c hc
    simp only [List.mem_append, List.mem_singleton] at hc
    rcases hc with ((((((((h | h) | h) | h) | h) | h) | h) | h) | h)
    · exact cstr_nonzero _ c h
    · rw [h]; decide
    · exact hexkey_spec_nonzero _ c h
    · rw [h]; decide
    · exact fmt_u64_nonzero _ c h
    · rw [h]; decide
    · exact cstr_nonzero _ c h
    · rw [h]; decide
    · exact fmt_u64_nonzero _ c h
  · intro i hi
    unfold hexkey_spec
    rw [readAt_flatten_uniform 2 _ i (by
        intro x hx
        obtain ⟨b, _, rfl⟩ := List.mem_map.mp hx
        rfl) (by simpa using hi)]
    rw [List.getD_eq_getElem?_getD, List.getD_eq_getElem?_getD, List.getElem?_map,
      List.getElem?_eq_getElem hi]
    rfl

theorem get_params_spec_witness :
    ∃ params, get_params demoHeap (ascii "/dev/sda") 0 2048 (ascii "aes-cbc-essiv:sha256") 3
        [0, 0xAB, 0x1F] = some params ∧
      cstr params = ascii "aes-cbc-essiv:sha256 00ab1f 0 /dev/sda 2048" :=
  let ⟨p, h1, h2, _⟩ := get_params_spec demoHeap (ascii "/dev/sda") 0 2048
    (ascii "aes-cbc-essiv:sha256") [0, 0xAB, 0x1F] (List.replicate 7 0xAA)
    (List.replicate 98 0xAA) (by decide)
    (by intro m b hb; simp only [demoHeap, Option.some.injEq] at hb; rw [← hb]; simp)
    rfl rfl
  ⟨p, h1, h2.trans (by decide)⟩

/-- C17, the code at the failing input: for the empty key `hex_key` stores
nothing in the one-byte buffer `hexkey`, which `get_params` has not cleared, and
the hex key that `get_params` measures with `strlen` and formats with `%s` is what
the fresh buffer held; on a heap whose blocks hold the byte `0xAA` the line has
that byte where the claim has an empty hex key. -/
theorem get_params_empty_key :
    (get_params demoHeap (ascii "/dev/sda") 0 2048 (ascii "aes") 0 []).map cstr =
      some (ascii "aes" ++ [32, 0xAA, 32] ++ ascii "0 /dev/sda 2048") ∧
    ascii "aes" ++ [32, 0xAA, 32] ++ ascii "0 /dev/sda 2048" ≠
      cstr (ascii "aes") ++ [32] ++ hexkey_spec [] ++ [32] ++ fmt_u64 0 ++ [32] ++
        cstr (ascii "/dev/sda") ++ [32] ++ fmt_u64 2048 := by
  decide

/-! ## The DM-UUID composed by `dm_prepare_uuid` -/

theorem isxdigit_ne_dash (c : Nat) (h : isxdigit c = true) : (c != 45) = true := by
  unfold isxdigit at h
  simp only [Bool.or_eq_true, Bool.and_eq_true, decide_eq_true_eq] at h
  simp only [bne_iff_ne, ne_eq]
  omega

/-- A string that `uuid_parse` accepts has 32 characters other than `-`. -/
theorem uuid_filter_length (l : List Nat) (hlen : l.length = 36)
    (hall : ((List.range 36).all fun i =>
        if i = 8 ∨ i = 13 ∨ i = 18 ∨ i = 23 then l.getD i 0 == 45
        else isxdigit (l.getD i 0)) = true) :
    (l.filter (fun c => c != 45)).length = 32 := by
  simp only [List.all_eq_true, List.mem_range] at hall
  cases l with
  | nil => simp at hlen
  | cons a0 l =>
  cases l with
  | nil => simp at hlen
  | cons a1 l =>
  cases l with
  | nil => simp at hlen
  | cons a2 l =>
  cases l with
  | nil => simp at hlen
  | cons a3 l =>
  cases l with
  | nil => simp at hlen
  | cons a4 l =>
  cases l with
  | nil => simp at hlen
  | cons a5 l =>
  cases l with
  | nil => simp at hlen
  | cons a6 l =>
  cases l with
  | nil => simp at hlen
  | cons a7 l =>
  cases l with
  | nil => simp at hlen
  | cons a8 l =>
  cases l with
  | nil => simp at hlen
  | cons a9 l =>
  cases l with
  | nil => simp at hlen
  | cons a10 l =>
  cases l with
  | nil => simp at hlen
  | cons a11 l =>
  cases l with
  | nil => simp at hlen
  | cons a12 l =>
  cases l with
  | nil => simp at hlen
  | cons a13 l =>
  cases l with
  | nil => simp at hlen
  | cons a14 l =>
  cases l with
  | nil => simp at hlen
  | cons a15 l =>
  cases l with
  | nil => simp at hlen
  | cons a16 l =>
  cases l with
  | nil => simp at hlen
  | cons a17 l =>
  cases l with
  | nil => simp at hlen
  | cons a18 l =>
  cases l with
  | nil => simp at hlen
  | cons a19 l =>
  cases l with
  | nil => simp at hlen
  | cons a20 l =>
  cases l with
  | nil => simp at hlen
  | cons a21 l =>
  cases l with
  | nil => simp at hlen
  | cons a22 l =>
  cases l with
  | nil => simp at hlen
  | cons a23 l =>
  cases l with
  | nil => simp at hlen
  | cons a24 l =>
  cases l with
  | nil => simp at hlen
  | cons a25 l =>
  cases l with
  | nil => simp at hlen
  | cons a26 l =>
  cases l with
  | nil => simp at hlen
  | cons a27 l =>
  cases l with
  | nil => simp at hlen
  | cons a28 l =>
  cases l with
  | nil => simp at hlen
  | cons a29 l =>
  cases l with
  | nil => simp at hlen
  | cons a30 l =>
  cases l with
  | nil => simp at hlen
  | cons a31 l =>
  cases l with
  | nil => simp at hlen
  | cons a32 l =>
  cases l with
  | nil => simp at hlen
  | cons a33 l =>
  cases l with
  | nil => simp at hlen
  | cons a34 l =>
  cases l with
  | nil => simp at hlen
  | cons a35 l =>
  cases l with
  | cons b l => simp at hlen
  | nil =>
  have h0 : (a0 != 45) = true := isxdigit_ne_dash a0 (by simpa using hall 0 (by omega))
  have h1 : (a1 != 45) = true := isxdigit_ne_dash a1 (by simpa using hall 1 (by omega))
  have h2 : (a2 != 45) = true := isxdigit_ne_dash a2 (by simpa using hall 2 (by omega))
  have h3 : (a3 != 45) = true := isxdigit_ne_dash a3 (by simpa using hall 3 (by omega))
  have h4 : (a4 != 45) = true := isxdigit_ne_dash a4 (by simpa using hall 4 (by omega))
  have h5 : (a5 != 45) = true := isxdigit_ne_dash a5 (by simpa using hall 5 (by omega))
  have h6 : (a6 != 45) = true := isxdigit_ne_dash a6 (by simpa using hall 6 (by omega))
  have h7 : (a7 != 45) = true := isxdigit_ne_dash a7 (by simpa using hall 7 (by omega))
  have h8 : a8 = 45 := by simpa using hall 8 (by omega)
  have h9 : (a9 != 45) = true := isxdigit_ne_dash a9 (by simpa using hall 9 (by omega))
  have h10 : (a10 != 45) = true := isxdigit_ne_dash a10 (by simpa using hall 10 (by omega))
  have h11 : (a11 != 45) = true := isxdigit_ne_dash a11 (by simpa using hall 11 (by omega))
  have h12 : (a12 != 45) = true := isxdigit_ne_dash a12 (by simpa using hall 12 (by omega))
  have h13 : a13 = 45 := by simpa using hall 13 (by omega)
  have h14 : (a14 != 45) = true := isxdigit_ne_dash a14 (by simpa using hall 14 (by omega))
  have h15 : (a15 != 45) = true := isxdigit_ne_dash a15 (by simpa using hall 15 (by omega))
  have h16 : (a16 != 45) = true := isxdigit_ne_dash a16 (by simpa using hall 16 (by omega))
  have h17 : (a17 != 45) = true := isxdigit_ne_dash a17 (by simpa using hall 17 (by omega))
  have h18 : a18 = 45 := by simpa using hall 18 (by omega)
  have h19 : (a19 != 45) = true := isxdigit_ne_dash a19 (by simpa using hall 19 (by omega))
  have h20 : (a20 != 45) = true := isxdigit_ne_dash a20 (by simpa using hall 20 (by omega))
  have h21 : (a21 != 45) = true := isxdigit_ne_dash a21 (by simpa using hall 21 (by omega))
  have h22 : (a22 != 45) = true := isxdigit_ne_dash a22 (by simpa using hall 22 (by omega))
  have h23 : a23 = 45 := by simpa using hall 23 (by omega)
  have h24 : (a24 != 45) = true := isxdigit_ne_dash a24 (by simpa using hall 24 (by omega))
  have h25 : (a25 != 45) = true := isxdigit_ne_dash a25 (by simpa using hall 25 (by omega))
  have h26 : (a26 != 45) = true := isxdigit_ne_dash a26 (by simpa using hall 26 (by omega))
  have h27 : (a27 != 45) = true := isxdigit_ne_dash a27 (by simpa using hall 27 (by omega))
  have h28 : (a28 != 45) = true := isxdigit_ne_dash a28 (by simpa using hall 28 (by omega))
  have h29 : (a29 != 45) = true := isxdigit_ne_dash a29 (by simpa using hall 29 (by omega))
  have h30 : (a30 != 45) = true := isxdigit_ne_dash a30 (by simpa using hall 30 (by omega))
  have h31 : (a31 != 45) = true := isxdigit_ne_dash a31 (by simpa using hall 31 (by omega))
  have h32 : (a32 != 45) = true := isxdigit_ne_dash a32 (by simpa using hall 32 (by omega))
  have h33 : (a33 != 45) = true := isxdigit_ne_dash a33 (by simpa using hall 33 (by omega))
  have h34 : (a34 != 45) = true := isxdigit_ne_dash a34 (by simpa using hall 34 (by omega))
  have h35 : (a35 != 45) = true := isxdigit_ne_dash a35 (by simpa using hall 35 (by omega))
  simp only [List.filter, h0, h1, h2, h3, h4, h5, h6, h7, h8, h9, h10, h11, h12, h13, h14, h15, h16, h17, h18, h19, h20, h21, h22, h23, h24, h25, h26, h27, h28, h29, h30, h31, h32, h33, h34, h35]
  rfl

theorem remove_dashes_loop_spec (uuid : List Nat) :
    ∀ (n i ptr : Nat) (uuid2 : List Nat), ptr ≤ uuid2.length →
      remove_dashes_loop uuid n i ptr uuid2 =
        writeAt uuid2 ptr
          (((List.range n).map fun j => uuid.getD (i + j) 0).filter fun c => c != 45) := by
  intro n
  induction n with
  | zero => intro i ptr uuid2 _; simp [remove_dashes_loop, writeAt_nil]
  | succ n ih =>
    intro i ptr uuid2 hptr
    have hr : ((List.range (n + 1)).map fun j => uuid.getD (i + j) 0) =
        uuid.getD i 0 :: (List.range n).map fun j => uuid.getD (i + 1 + j) 0 := by
      rw [List.range_succ_eq_map, List.map_cons, List.map_map]
      simp only [Nat.add_zero, List.cons.injEq, true_and]
      apply List.map_congr_left
      intro j _
      simp only [Function.comp, Nat.succ_eq_add_one]
      congr 1
      omega
    rw [hr]
    by_cases hd : uuid.getD i 0 ≠ 45
    · have hb : (uuid.getD i 0 != 45) = true := by simpa using hd
      have hl := writeAt_length_ge uuid2 ptr [uuid.getD i 0] hptr
      simp only [remove_dashes_loop, List.filter_cons, hb, ↓reduceIte]
      rw [if_pos hd, ih (i + 1) (ptr + 1) _ hl]
      exact writeAt_writeAt_append uuid2 ptr [uuid.getD i 0] _ hptr
    · have hb : (uuid.getD i 0 != 45) = false := by simpa using hd
      simp only [remove_dashes_loop, List.filter_cons, hb]
      rw [if_neg hd]
      exact ih (i + 1) ptr uuid2 hptr

theorem getD_cstr (b : List Nat) : ∀ j, j < (cstr b).length → b.getD j 0 = (cstr b).getD j 0 := by
  unfold cstr
  induction b with
  | nil => intro j hj; simp at hj
  | cons x xs ih =>
    intro j hj
    by_cases hx : (x != 0) = true
    · simp only [List.takeWhile_cons, hx, ↓reduceIte, List.length_cons] at hj ⊢
      cases j with
      | zero => rfl
      | succ j => simpa using ih j (by omega)
    · simp [List.takeWhile_cons, hx] at hj

theorem getD_cstr_end (b : List Nat) : b.getD (cstr b).length 0 = 0 := by
  unfold cstr
  induction b with
  | nil => rfl
  | cons x xs ih =>
    by_cases hx : (x != 0) = true
    · simpa [List.takeWhile_cons, hx] using ih
    · have : x = 0 := by simpa using hx
      simp [List.takeWhile_cons, this]

theorem range_map_cstr (b : List Nat) :
    ((List.range ((cstr b).length + 1)).map fun j => b.getD (0 + j) 0) = cstr b ++ [0] := by
  apply List.ext_getElem
  · simp
  · intro j h1 h2
    simp only [List.length_map, List.length_range] at h1
    simp only [List.getElem_map, List.getElem_range, Nat.zero_add]
    by_cases hj : j < (cstr b).length
    · rw [getD_cstr b j hj, List.getElem_append_left hj, List.getD_eq_getElem?_getD,
        List.getElem?_eq_getElem hj]
      rfl
    · have : j = (cstr b).length := by omega
      subst this
      rw [getD_cstr_end]
      simp

theorem snprintf_fits (buflen : Nat) (text : List Nat) (hz : ∀ c ∈ text, c ≠ 0)
    (hfit : text.length < buflen) : cstr (snprintf buflen text) = text := by
  unfold snprintf
  rw [if_neg (by omega), List.take_of_length_le (by omega)]
  exact cstr_append_nul text [] hz

theorem ascii_prefix_nonzero : ∀ c ∈ ascii "CRYPT-", c ≠ 0 := by decide

/-- For a string that `uuid_parse` accepts, the loop of `dm_prepare_uuid` leaves in
`uuid2` the 32 characters of the string other than `-`. -/
theorem remove_dashes_parsed (u : List Nat) (h : uuid_parse u = 0) :
    cstr (remove_dashes_loop u UUID_LEN 0 0 (List.replicate UUID_LEN 0)) =
        (cstr u).filter (fun c => c != 45) ∧
      ((cstr u).filter (fun c => c != 45)).length = 32 ∧
      (remove_dashes_loop u UUID_LEN 0 0 (List.replicate UUID_LEN 0)).getD 0 0 ≠ 0 := by
  unfold uuid_parse at h
  split at h
  swap
  · exact absurd h (by decide)
  rename_i hc
  obtain ⟨hlen, hall⟩ := hc
  have h32 := uuid_filter_length (cstr u) hlen hall
  have hU : UUID_LEN = (cstr u).length + 1 := by rw [hlen]; rfl
  have hF : ∀ c ∈ (cstr u).filter (fun c => c != 45), c ≠ 0 := fun c hc =>
    cstr_nonzero u c (List.mem_filter.mp hc).1
  have hloop : ∃ rest, remove_dashes_loop u UUID_LEN 0 0 (List.replicate UUID_LEN 0) =
      (cstr u).filter (fun c => c != 45) ++ 0 :: rest := by
    have hr := range_map_cstr u
    rw [← hU] at hr
    rw [remove_dashes_loop_spec u UUID_LEN 0 0 _ (Nat.zero_le _), hr, List.filter_append]
    refine ⟨List.replicate (UUID_LEN - ((List.filter (fun c => c != 45) (cstr u)).length + 1)) 0,
      ?_⟩
    simp [writeAt]
  obtain ⟨rest, hloop⟩ := hloop
  rw [hloop]
  refine ⟨cstr_append_nul _ _ hF, h32, ?_⟩
  cases hf : (cstr u).filter (fun c => c != 45) with
  | nil => rw [hf] at h32; simp at h32
  | cons a as =>
    rw [hf] at hF
    simpa using hF a (List.mem_cons_self _ _)

/-- C18: for a non-null type, a uuid string that parses as a UUID and a name
such that the result fits in the buffer, `dm_prepare_uuid` stores
`"CRYPT-" + type + "-" + (uuid with every '-' removed, 32 characters) + "-" +
name` and reports no truncation; when the uuid is absent or does not parse,
the uuid part and its dash are left out: `"CRYPT-" + type + "-" + name`. -/
theorem dm_prepare_uuid_spec (name t : List Nat) (buflen : Nat) :
    (∀ u : List Nat, uuid_parse u = 0 →
      (ascii "CRYPT-" ++ cstr t ++ ascii "-" ++ (cstr u).filter (fun c => c != 45) ++
        ascii "-" ++ cstr name).length < buflen →
      cstr (dm_prepare_uuid name (some t) (some u) buflen).1 =
          ascii "CRYPT-" ++ cstr t ++ ascii "-" ++ (cstr u).filter (fun c => c != 45) ++
            ascii "-" ++ cstr name ∧
        ((cstr u).filter (fun c => c != 45)).length = 32 ∧
        (dm_prepare_uuid name (some t) (some u) buflen).2 = false) ∧
    (∀ uuid : Option (List Nat), (uuid = none ∨ ∃ u, uuid = some u ∧ uuid_parse u ≠ 0) →
      (ascii "CRYPT-" ++ cstr t ++ ascii "-" ++ cstr name).length < buflen →
      cstr (dm_prepare_uuid name (some t) uuid buflen).1 =
          ascii "CRYPT-" ++ cstr t ++ ascii "-" ++ cstr name ∧
        (dm_prepare_uuid name (some t) uuid buflen).2 = false) := by
  have hdash : ∀ c ∈ ascii "-", c ≠ 0 := by decide
  refine ⟨?_, ?_⟩
  · intro u hu hfit
    obtain ⟨h1, h2, h3⟩ := remove_dashes_parsed u hu
    have htext : ∀ c ∈ ascii "CRYPT-" ++ cstr t ++ ascii "-" ++
        (cstr u).filter (fun c => c != 45) ++ ascii "-" ++ cstr name, c ≠ 0 := by
      intro c hc
      simp only [List.mem_append] at hc
      rcases hc with ((((h | h) | h) | h) | h) | h
      · exact ascii_prefix_nonzero c h
      · exact cstr_nonzero _ c h
      · exact hdash c h
      · exact cstr_nonzero u c (List.mem_filter.mp h).1
      · exact hdash c h
      · exact cstr_nonzero _ c h
    unfold dm_prepare_uuid
    simp only [hu, ↓reduceIte, h1, h3, ne_eq, not_false_eq_true, Option.isSome_some]
    refine ⟨snprintf_fits _ _ htext hfit, h2, ?_⟩
    rw [decide_eq_false_iff_not, not_le]
    exact lt_of_le_of_lt (Nat.mod_le _ _) hfit
  · intro uuid huuid hfit
    have htext : ∀ c ∈ ascii "CRYPT-" ++ cstr t ++ ascii "-" ++ cstr name, c ≠ 0 := by
      intro c hc
      simp only [List.mem_append] at hc
      rcases hc with ((h | h) | h) | h
      · exact ascii_prefix_nonzero c h
      · exact cstr_nonzero _ c h
      · exact hdash c h
      · exact cstr_nonzero _ c h
    have hz : (List.replicate UUID_LEN 0).getD 0 0 = 0 := by decide
    have huuid2 : (match uuid with
        | some u => if uuid_parse u = 0 then
            remove_dashes_loop u UUID_LEN 0 0 (List.replicate UUID_LEN 0)
          else List.replicate UUID_LEN 0
        | none => List.replicate UUID_LEN 0) = List.replicate UUID_LEN 0 := by
      rcases huuid with h | ⟨u, h, hne⟩
      · rw [h]
      · rw [h]; simp only [hne, ↓reduceIte]
    unfold dm_prepare_uuid
    simp only [huuid2, hz, ne_eq, not_true_eq_false, ↓reduceIte, List.append_nil,
      Option.isSome_some]
    refine ⟨snprintf_fits _ _ htext hfit, ?_⟩
    rw [decide_eq_false_iff_not, not_le]
    exact lt_of_le_of_lt (Nat.mod_le _ _) hfit

theorem dm_prepare_uuid_spec_witness :
    cstr (dm_prepare_uuid (ascii "home") (some (ascii "LUKS1"))
        (some (ascii "12345678-9abc-DEF0-1234-56789abcdef0")) DM_UUID_LEN).1 =
      ascii "CRYPT-LUKS1-123456789abcDEF0123456789abcdef0-home" ∧
    cstr (dm_prepare_uuid (ascii "home") (some (ascii "LUKS1")) (some (ascii "no-uuid"))
        DM_UUID_LEN).1 = ascii "CRYPT-LUKS1-home" :=
  ⟨((dm_prepare_uuid_spec (ascii "home") (ascii "LUKS1") DM_UUID_LEN).1
      (ascii "12345678-9abc-DEF0-1234-56789abcdef0") (by decide) (by decide)).1.trans
      (by decide),
    ((dm_prepare_uuid_spec (ascii "home") (ascii "LUKS1") DM_UUID_LEN).2
      (some (ascii "no-uuid")) (Or.inr ⟨_, rfl, by decide⟩) (by decide)).1.trans (by decide)⟩

/-! ## `dm_create_device` and a DM-UUID that does not fit -/

/-- For a type and a uuid string that parses, `dm_prepare_uuid` formats the
composed DM-UUID with `snprintf` and reports a truncation when the length of
the composed string is not below `buflen`. -/
theorem dm_prepare_uuid_parsed (name t u : List Nat) (buflen : Nat) (hu : uuid_parse u = 0) :
    dm_prepare_uuid name (some t) (some u) buflen =
      (snprintf buflen (ascii "CRYPT-" ++ cstr t ++ ascii "-" ++
          (cstr u).filter (fun c => c != 45) ++ ascii "-" ++ cstr name),
        decide ((ascii "CRYPT-" ++ cstr t ++ ascii "-" ++
          (cstr u).filter (fun c => c != 45) ++ ascii "-" ++ cstr name).length % 2 ^ 32
            ≥ buflen)) := by
  obtain ⟨h1, _, h3⟩ := remove_dashes_parsed u hu
  unfold dm_prepare_uuid
  simp only [hu, ↓reduceIte, h1, h3, ne_eq, not_false_eq_true, Option.isSome_some]

theorem uuid_text_nonzero (name t u : List Nat) :
    ∀ c ∈ ascii "CRYPT-" ++ cstr t ++ ascii "-" ++ (cstr u).filter (fun c => c != 45) ++
      ascii "-" ++ cstr name, c ≠ 0 := by
  have hdash : ∀ c ∈ ascii "-", c ≠ 0 := by decide
  intro c hc
  simp only [List.mem_append] at hc
  rcases hc with ((((h | h) | h) | h) | h) | h
  · exact ascii_prefix_nonzero c h
  · exact cstr_nonzero _ c h
  · exact hdash c h
  · exact cstr_nonzero u c (List.mem_filter.mp h).1
  · exact hdash c h
  · exact cstr_nonzero _ c h

theorem cstr_take_nonzero (text rest : List Nat) (n : Nat) (hz : ∀ c ∈ text, c ≠ 0) :
    cstr (text.take n ++ 0 :: rest) = text.take n :=
  cstr_append_nul _ _ (fun c hc => hz c (List.mem_of_mem_take hc))

theorem logged_call_log {κ : Type} (L : DmLib κ) (s : κ × List (dm_call × Int)) (c : dm_call) :
    ((logged L).call s c).2.2 = s.2 ++ [(c, (L.call s.1 c).1.r)] := rfl

theorem logged_call_extends {κ : Type} (L : DmLib κ) (s : κ × List (dm_call × Int))
    (c : dm_call) (l : List (dm_call × Int)) (h : l <+: s.2) :
    l <+: ((logged L).call s c).2.2 :=
  h.trans ⟨_, rfl⟩

/-- The probe of the kernel only adds to the record of the calls. -/
theorem dm_check_versions_extends {κ : Type} (L : DmLib κ) (g : dm_globals)
    (s : κ × List (dm_call × Int)) (l : List (dm_call × Int)) (h : l <+: s.2) :
    l <+: (_dm_check_versions (logged L) g s).2.2.2 := by
  simp only [_dm_check_versions]
  split_ifs
  · exact h
  all_goals
    repeat apply logged_call_extends
    exact h

theorem dm_flags_extends {κ : Type} (L : DmLib κ) (g : dm_globals)
    (s : κ × List (dm_call × Int)) (l : List (dm_call × Int)) (h : l <+: s.2) :
    l <+: (dm_flags (logged L) g s).2.2.2 := by
  simp only [dm_flags]
  split_ifs
  · exact dm_check_versions_extends L g s l h
  · exact h

/-- When every call succeeds, the first part of a creation goes through and
the CREATE task has been given the string of the UUID buffer. -/
theorem dm_create_task_ok {κ : Type} (L : DmLib κ) (hL : ∀ k c, (L.call k c).1.r ≠ 0)
    (name dev_uuid : List Nat) (udev_flags : Nat) (s : κ × List (dm_call × Int)) :
    ∃ cookie s1, dm_create_task (logged L) name dev_uuid udev_flags 0 s =
        (true, some dm_task_type.DM_DEVICE_CREATE, cookie, s1) ∧
      dm_call.dm_task_set_uuid dm_task_type.DM_DEVICE_CREATE (cstr dev_uuid) ∈
        s1.2.map Prod.fst := by
  have hL1 : ∀ (s : κ × List (dm_call × Int)) c, ((logged L).call s c).1.r ≠ 0 :=
    fun s c => hL s.1 c
  unfold dm_create_task
  simp only [ne_eq, not_true_eq_false, ↓reduceIte, hL1, not_false_eq_true]
  refine ⟨_, _, rfl, ?_⟩
  simp [logged_call_log]

/-- When every call succeeds, the end of a creation that went through returns
0 and only adds to the record of the calls. -/
theorem dm_create_out_ok {κ : Type} (L : DmLib κ) (hL : ∀ k c, (L.call k c).1.r ≠ 0)
    (name : List Nat) (reload : Int) (cookie : Nat) (dmt : Option dm_task_type)
    (g : dm_globals) (s : κ × List (dm_call × Int)) :
    ∃ s1, dm_create_out (logged L) name reload cookie dmt 0 g s = some (0, g, s1) ∧
      s.2 <+: s1.2 := by
  have hL1 : ∀ (s : κ × List (dm_call × Int)) c, ((logged L).call s c).1.r ≠ 0 :=
    fun s c => hL s.1 c
  unfold dm_create_out dm_create_out_no_removal
  simp only [ne_eq, not_true_eq_false, ↓reduceIte, hL1, not_false_eq_true, lt_self_iff_false,
    false_and]
  cases dmt <;> refine ⟨_, rfl, ?_⟩ <;> (repeat apply logged_call_extends) <;>
    exact List.prefix_refl _

theorem mem_calls_of_prefix {l1 l2 : List (dm_call × Int)} (h : l1 <+: l2) (c : dm_call)
    (hc : c ∈ l1.map Prod.fst) : c ∈ l2.map Prod.fst := by
  obtain ⟨ev, rfl⟩ := h
  rw [List.map_append]
  exact List.mem_append_left _ hc

theorem dm_create_out_calls {κ : Type} (L : DmLib κ) (hL : ∀ k c, (L.call k c).1.r ≠ 0)
    (name : List Nat) (reload : Int) (cookie : Nat) (dmt : Option dm_task_type)
    (g : dm_globals) (s : κ × List (dm_call × Int)) (c1 c2 : dm_call)
    (h1 : c1 ∈ s.2.map Prod.fst) (h2 : c2 ∈ s.2.map Prod.fst) :
    ∃ x, dm_create_out (logged L) name reload cookie dmt 0 g s = some x ∧ x.1 = 0 ∧
      c1 ∈ x.2.2.2.map Prod.fst ∧ c2 ∈ x.2.2.2.map Prod.fst := by
  obtain ⟨s1, ho, hpre⟩ := dm_create_out_ok L hL name reload cookie dmt g s
  exact ⟨_, ho, rfl, mem_calls_of_prefix hpre c1 h1, mem_calls_of_prefix hpre c2 h2⟩

/-- With an environment in which every call succeeds, a creation goes through
whatever the DM-UUID buffer holds: `dm_create_device` returns 0, the CREATE task
has been given the string of the buffer as its UUID and has been run. -/
theorem dm_create_device_all_ok {κ : Type} (M : Heap) (L : DmLib κ)
    (hL : ∀ k c, (L.call k c).1.r ≠ 0) (name device cipher : List Nat)
    (type uuid : Option (List Nat)) (size skip offset key_size : Nat) (key : List Nat)
    (read_only : Int) (g : dm_globals) (k : κ) (params : List Nat)
    (hp : get_params M device skip offset cipher key_size key = some params) :
    ∃ x, dm_create_device M (logged L) name device cipher type uuid size skip offset
        key_size key read_only 0 g (k, []) = some x ∧ x.1 = 0 ∧
      dm_call.dm_task_set_uuid dm_task_type.DM_DEVICE_CREATE
        (cstr (dm_prepare_uuid name type uuid DM_UUID_LEN).1) ∈ x.2.2.2.map Prod.fst ∧
      dm_call.dm_task_run dm_task_type.DM_DEVICE_CREATE ∈ x.2.2.2.map Prod.fst := by
  have hL1 : ∀ (s : κ × List (dm_call × Int)) c, ((logged L).call s c).1.r ≠ 0 :=
    fun s c => hL s.1 c
  unfold dm_create_device
  rw [hp]
  simp only [ne_eq, not_true_eq_false, ↓reduceIte]
  generalize (match type with
    | some t => if (cstr t).take 4 = ascii "TEMP" then CRYPT_TEMP_UDEV_FLAGS else 0
    | none => 0) = udev_flags
  obtain ⟨cookie, s1, ht, hmem⟩ := dm_create_task_ok L hL name
    (dm_prepare_uuid name type uuid DM_UUID_LEN).1 udev_flags (k, [])
  simp only [ht, Bool.true_eq_false, ↓reduceIte]
  have hfl := dm_flags_extends L g s1 s1.2 (List.prefix_refl _)
  generalize dm_flags (logged L) g s1 = fl at hfl ⊢
  obtain ⟨flags, g1, s2⟩ := fl
  have hmem2 := mem_calls_of_prefix hfl _ hmem
  by_cases hsec : flags.DM_SECURE_SUPPORTED = true <;> by_cases hro : read_only = 0 <;>
    simp only [hsec, hro, hL1, ne_eq, not_true_eq_false, not_false_eq_true, ↓reduceIte,
      one_ne_zero, Bool.false_eq_true] <;>
    apply dm_create_out_calls L hL <;>
    simp [logged_call_log, hmem2]

/-- C19, as amended: when the composed DM-UUID of a device with a type and a
uuid that parses (a LUKS1 device) does not fit in the 129-byte UUID buffer,
`dm_prepare_uuid` keeps its first 128 characters and reports the truncation
with `log_err`, and `dm_create_device` goes on with the truncated string: in
every environment in which every call succeeds it gives the CREATE task those
128 characters as its UUID, runs it and returns 0. -/
theorem dm_create_device_truncated {κ : Type} (M : Heap) (L : DmLib κ)
    (name device cipher t u : List Nat)
    (size skip offset key_size : Nat) (key : List Nat) (read_only : Int) (g : dm_globals)
    (k : κ) (params : List Nat) (hL : ∀ k c, (L.call k c).1.r ≠ 0)
    (hu : uuid_parse u = 0)
    (hlong : DM_UUID_LEN ≤ (ascii "CRYPT-" ++ cstr t ++ ascii "-" ++
      (cstr u).filter (fun c => c != 45) ++ ascii "-" ++ cstr name).length)
    (h32 : (ascii "CRYPT-" ++ cstr t ++ ascii "-" ++
      (cstr u).filter (fun c => c != 45) ++ ascii "-" ++ cstr name).length < 2 ^ 32)
    (hp : get_params M device skip offset cipher key_size key = some params) :
    (dm_prepare_uuid name (some t) (some u) DM_UUID_LEN).2 = true ∧
    cstr (dm_prepare_uuid name (some t) (some u) DM_UUID_LEN).1 =
      (ascii "CRYPT-" ++ cstr t ++ ascii "-" ++
        (cstr u).filter (fun c => c != 45) ++ ascii "-" ++ cstr name).take 128 ∧
    ∃ x, dm_create_device M (logged L) name device cipher (some t) (some u) size skip offset
        key_size key read_only 0 g (k, []) = some x ∧ x.1 = 0 ∧
      dm_call.dm_task_set_uuid dm_task_type.DM_DEVICE_CREATE
        ((ascii "CRYPT-" ++ cstr t ++ ascii "-" ++
          (cstr u).filter (fun c => c != 45) ++ ascii "-" ++ cstr name).take 128)
        ∈ x.2.2.2.map Prod.fst ∧
      dm_call.dm_task_run dm_task_type.DM_DEVICE_CREATE ∈ x.2.2.2.map Prod.fst := by
  have hstr : cstr (dm_prepare_uuid name (some t) (some u) DM_UUID_LEN).1 =
      (ascii "CRYPT-" ++ cstr t ++ ascii "-" ++
        (cstr u).filter (fun c => c != 45) ++ ascii "-" ++ cstr name).take 128 := by
    rw [dm_prepare_uuid_parsed name t u DM_UUID_LEN hu]
    exact cstr_take_nonzero _ [] 128 (uuid_text_nonzero name t u)
  refine ⟨?_, hstr, ?_⟩
  · rw [dm_prepare_uuid_parsed name t u DM_UUID_LEN hu]
    simp only [decide_eq_true_eq, ge_iff_le]
    rw [Nat.mod_eq_of_lt h32]
    exact hlong
  · rw [← hstr]
    exact dm_create_device_all_ok M L hL name device cipher (some t) (some u) size skip offset
      key_size key read_only g k params hp

set_option maxRecDepth 1000000 in
theorem dm_create_device_truncated_witness :
    (dm_prepare_uuid longName (some (ascii "LUKS1")) (some demoUuid) DM_UUID_LEN).2 = true ∧
    cstr (dm_prepare_uuid longName (some (ascii "LUKS1")) (some demoUuid) DM_UUID_LEN).1 =
      ascii "CRYPT-LUKS1-123456789abcDEF0123456789abcdef0-" ++ List.replicate 83 97 :=
  ⟨(dm_create_device_truncated demoHeap okLib longName (ascii "/dev/sda") (ascii "aes")
      (ascii "LUKS1") demoUuid 1000 0 8 2 [1, 255] 0 noProbe () _ (fun _ _ => by simp [okLib])
      (by decide) (by decide) (by decide) rfl).1,
    (dm_create_device_truncated demoHeap okLib longName (ascii "/dev/sda") (ascii "aes")
      (ascii "LUKS1") demoUuid 1000 0 8 2 [1, 255] 0 noProbe () _ (fun _ _ => by simp [okLib])
      (by decide) (by decide) (by decide) rfl).2.1.trans (by decide)⟩

set_option maxRecDepth 1000000 in
/-- C19 as stated fails: for a LUKS1 device whose name has 90 characters the
composed DM-UUID has 135 characters and is truncated, yet with every call of
the library succeeding `dm_create_device` returns 0 and has run the CREATE
task. -/
theorem dm_create_device_truncated_created :
    (dm_prepare_uuid longName (some (ascii "LUKS1")) (some demoUuid) DM_UUID_LEN).2 = true ∧
    (dm_create_device demoHeap (logged okLib) longName (ascii "/dev/sda") (ascii "aes")
      (some (ascii "LUKS1")) (some demoUuid) 1000 0 8 2 [1, 255] 0 0 noProbe ((), [])).map
      (fun x => (x.1, decide ((dm_call.dm_task_run dm_task_type.DM_DEVICE_CREATE, 1)
        ∈ x.2.2.2))) = some (0, true) := by
  decide

/-! ## The removal attempts of `dm_remove_device` -/

theorem remove_marks_append (l1 l2 : List (dm_call × Int)) :
    remove_marks (l1 ++ l2) = remove_marks l1 ++ remove_marks l2 := by
  unfold remove_marks
  exact List.filterMap_append _ _ _

theorem remove_marks_nil : remove_marks [] = [] := rfl

theorem remove_marks_cons (e : dm_call × Int) (l : List (dm_call × Int)) :
    remove_marks (e :: l) = (mark_of e).toList ++ remove_marks l := by
  unfold remove_marks
  cases h : mark_of e <;> simp [List.filterMap_cons, h]

/-- A removal attempt adds to the record the start of an attempt, followed by a
successful removal exactly when `_dm_simple` returns non-zero. -/
theorem dm_simple_remove_marks {κ : Type} (L : DmLib κ) (name : List Nat) (udev_wait : Int)
    (s : κ × List (dm_call × Int)) :
    remove_marks (_dm_simple (logged L) dm_task_type.DM_DEVICE_REMOVE (some name)
        udev_wait s).2.2 =
      remove_marks s.2 ++ remove_mark.attempt ::
        (if (_dm_simple (logged L) dm_task_type.DM_DEVICE_REMOVE (some name) udev_wait s).1 ≠ 0
          then [remove_mark.removed] else []) := by
  unfold _dm_simple
  simp only [logged]
  split_ifs <;> simp_all [remove_marks_append, remove_marks_cons, remove_marks_nil, mark_of]

theorem logged_call_marks {κ : Type} (L : DmLib κ) (s : κ × List (dm_call × Int))
    (c : dm_call) :
    remove_marks ((logged L).call s c).2.2 =
      remove_marks s.2 ++ (mark_of (c, ((logged L).call s c).1.r)).toList := by
  simp [logged, remove_marks_append, remove_marks_cons, remove_marks_nil]

/-- A task that is neither a removal nor a reload adds no event of a removal. -/
theorem dm_simple_other_marks {κ : Type} (L : DmLib κ) (task : dm_task_type)
    (name : Option (List Nat)) (udev_wait : Int) (s : κ × List (dm_call × Int))
    (h1 : task ≠ dm_task_type.DM_DEVICE_REMOVE) (h2 : task ≠ dm_task_type.DM_DEVICE_RELOAD) :
    remove_marks (_dm_simple (logged L) task name udev_wait s).2.2 = remove_marks s.2 := by
  unfold _dm_simple
  simp only [logged]
  cases name <;>
    split_ifs <;> simp_all [remove_marks_append, remove_marks_cons, remove_marks_nil, mark_of]

/-- A call of `_error_device` adds the start of one replacement to the record. -/
theorem error_device_marks {κ : Type} (L : DmLib κ) (name : List Nat) (size : Nat)
    (s : κ × List (dm_call × Int)) :
    remove_marks (_error_device (logged L) name size s).2.2 =
      remove_marks s.2 ++ [remove_mark.error_target] := by
  unfold _error_device
  simp only []
  split_ifs <;>
    simp [logged_call_marks, dm_simple_other_marks, mark_of]

theorem failed_attempts_false (j : Nat) :
    failed_attempts false j = List.replicate j remove_mark.attempt := by
  cases j with
  | zero => rfl
  | succ j => simp [failed_attempts, List.replicate_succ]

theorem failed_attempts_succ (b : Bool) (j : Nat) :
    failed_attempts b (j + 1) =
      remove_mark.attempt :: ((if b then [remove_mark.error_target] else []) ++
        List.replicate j remove_mark.attempt) := by
  simp [failed_attempts]

/-- One turn of the loop of `dm_remove_device`: a successful attempt ends it with
0, a failed last attempt ends it with `-EINVAL`, and after any other failed
attempt the loop sleeps, replaces the target if `force` is set and this was
not done before, and goes on. -/
theorem dm_remove_loop_step {κ : Type} (L : DmLib κ) (name : List Nat) (force : Int)
    (size fuel : Nat) (retries et : Int) (k : κ) :
    dm_remove_loop L name force size (fuel + 1) retries et k =
      if (_dm_simple L dm_task_type.DM_DEVICE_REMOVE (some name) 1 k).1 ≠ 0 then
        some (0, (_dm_simple L dm_task_type.DM_DEVICE_REMOVE (some name) 1 k).2)
      else if retries - 1 = 0 then
        some (-EINVAL, (_dm_simple L dm_task_type.DM_DEVICE_REMOVE (some name) 1 k).2)
      else
        dm_remove_loop L name force size fuel (retries - 1)
          (if force ≠ 0 ∧ et = 0 then 1 else et)
          (if force ≠ 0 ∧ et = 0 then
            (_error_device L name size
              (L.call (_dm_simple L dm_task_type.DM_DEVICE_REMOVE (some name) 1 k).2
                (dm_call.sleep 1)).2).2
          else (L.call (_dm_simple L dm_task_type.DM_DEVICE_REMOVE (some name) 1 k).2
            (dm_call.sleep 1)).2) := by
  simp only [dm_remove_loop]
  by_cases hs : (_dm_simple L dm_task_type.DM_DEVICE_REMOVE (some name) 1 k).1 ≠ 0
  · simp [hs, neg_EINVAL_ne_zero.symm]
  · by_cases hr : retries - 1 = 0
    · simp [hs, hr]
    · by_cases hb : force ≠ 0 ∧ et = 0
      · simp only [hs, hr, hb, ↓reduceIte, ne_eq, not_false_eq_true, neg_EINVAL_ne_zero,
          and_self]
      · simp only [hs, hr, hb, ↓reduceIte, ne_eq, not_false_eq_true, neg_EINVAL_ne_zero,
          and_self]

/-- The loop of `dm_remove_device`, entered with `retries = n + 1`, ends; before
its last attempt it has made `j ≤ n` attempts that failed, replacing the target
after the first of them when `force` is set and this was not done before; the
last attempt either succeeds, and the value is 0, or is the last one allowed
and fails, and the value is `-EINVAL`. -/
theorem dm_remove_loop_marks {κ : Type} (L : DmLib κ) (name : List Nat) (force : Int)
    (size : Nat) :
    ∀ (n fuel : Nat) (et : Int) (s : κ × List (dm_call × Int)), n + 1 ≤ fuel →
      ∃ r s1, dm_remove_loop (logged L) name force size fuel ((n : Int) + 1) et s =
          some (r, s1) ∧
        ∃ j, j ≤ n ∧
          ((remove_marks s1.2 = remove_marks s.2 ++
              failed_attempts (decide (force ≠ 0 ∧ et = 0)) j ++
              [remove_mark.attempt, remove_mark.removed] ∧ r = 0) ∨
           (j = n ∧ remove_marks s1.2 = remove_marks s.2 ++
              failed_attempts (decide (force ≠ 0 ∧ et = 0)) j ++
              [remove_mark.attempt] ∧ r = -EINVAL)) := by
  intro n
  induction n with
  | zero =>
    intro fuel et s hfuel
    obtain ⟨fuel, rfl⟩ : ∃ f, fuel = f + 1 := ⟨fuel - 1, by omega⟩
    have hA := dm_simple_remove_marks L name 1 s
    rw [dm_remove_loop_step]
    by_cases hs : (_dm_simple (logged L) dm_task_type.DM_DEVICE_REMOVE (some name) 1 s).1 ≠ 0
    · rw [if_pos hs] at hA ⊢
      exact ⟨0, _, rfl, 0, le_refl _, Or.inl ⟨by simp [hA, failed_attempts], rfl⟩⟩
    · rw [if_neg hs] at hA ⊢
      rw [if_pos (by simp)]
      exact ⟨-EINVAL, _, rfl, 0, le_refl _, Or.inr ⟨rfl, by simp [hA, failed_attempts], rfl⟩⟩
  | succ m ih =>
    intro fuel et s hfuel
    obtain ⟨fuel, rfl⟩ : ∃ f, fuel = f + 1 := ⟨fuel - 1, by omega⟩
    have hA := dm_simple_remove_marks L name 1 s
    have hm : ¬ (((m + 1 : Nat) : Int) + 1 - 1 = 0) := by push_cast; omega
    have hm1 : ((m + 1 : Nat) : Int) + 1 - 1 = (m : Int) + 1 := by push_cast; omega
    rw [dm_remove_loop_step]
    by_cases hs : (_dm_simple (logged L) dm_task_type.DM_DEVICE_REMOVE (some name) 1 s).1 ≠ 0
    · rw [if_pos hs] at hA ⊢
      exact ⟨0, _, rfl, 0, Nat.zero_le _, Or.inl ⟨by simp [hA, failed_attempts], rfl⟩⟩
    · rw [if_neg hs] at hA ⊢
      rw [if_neg hm, hm1]
      by_cases hb : force ≠ 0 ∧ et = 0
      · obtain ⟨r, s1, h1, j, hj, h2⟩ := ih fuel 1
          (_error_device (logged L) name size
            ((logged L).call (_dm_simple (logged L) dm_task_type.DM_DEVICE_REMOVE (some name)
              1 s).2 (dm_call.sleep 1)).2).2 (by omega)
        rw [if_pos hb, if_pos hb]
        refine ⟨r, s1, h1, j + 1, by omega, ?_⟩
        have hd : decide (force ≠ 0 ∧ (1 : Int) = 0) = false := by simp
        have hd1 : decide (force ≠ 0 ∧ et = 0) = true := by simpa using hb
        rw [hd, failed_attempts_false, error_device_marks, logged_call_marks, hA] at h2
        rw [hd1, failed_attempts_succ]
        simp only [mark_of, reduceCtorEq, ↓reduceIte, false_and, Option.toList,
          List.append_nil, List.append_assoc, List.singleton_append, List.cons_append,
          List.nil_append] at h2 ⊢
        rcases h2 with ⟨h2, hr⟩ | ⟨hjm, h2, hr⟩
        · exact Or.inl ⟨h2, hr⟩
        · exact Or.inr ⟨by omega, h2, hr⟩
      · obtain ⟨r, s1, h1, j, hj, h2⟩ := ih fuel et
          ((logged L).call (_dm_simple (logged L) dm_task_type.DM_DEVICE_REMOVE (some name)
              1 s).2 (dm_call.sleep 1)).2 (by omega)
        rw [if_neg hb, if_neg hb]
        refine ⟨r, s1, h1, j + 1, by omega, ?_⟩
        have hd1 : decide (force ≠ 0 ∧ et = 0) = false := by simpa using hb
        rw [hd1, failed_attempts_false, logged_call_marks, hA] at h2
        rw [hd1, failed_attempts_succ]
        simp only [mark_of, reduceCtorEq, ↓reduceIte, false_and, Option.toList,
          List.append_nil, List.append_assoc, List.singleton_append, List.cons_append,
          List.nil_append, Bool.false_eq_true] at h2 ⊢
        rcases h2 with ⟨h2, hr⟩ | ⟨hjm, h2, hr⟩
        · exact Or.inl ⟨h2, hr⟩
        · exact Or.inr ⟨by omega, h2, hr⟩

/-- C20: `dm_remove_device` on a device name ends, and the removal events in the
record of its calls are one of these histories. Without `force`: one attempt,
which succeeds (value 0) or fails (value `-EINVAL`). With `force` and a
size: up to five attempts, the call ending with 0 at the first attempt that
succeeds and with `-EINVAL` when all five fail; the target is replaced by the
`error` target once, after the first attempt when that attempt failed and
another follows. With `force` and no size, or with a null name, nothing is
attempted and the value is `-EINVAL`. -/
theorem dm_remove_device_attempts {κ : Type} (L : DmLib κ) (k : κ) (name : List Nat)
    (force : Int) (size : Nat) :
    dm_remove_device (logged L) none force size (k, []) = some (-EINVAL, (k, [])) ∧
    ∃ r s1, dm_remove_device (logged L) (some name) force size (k, []) = some (r, s1) ∧
      ((force = 0 ∧
          ((remove_marks s1.2 = [remove_mark.attempt, remove_mark.removed] ∧ r = 0) ∨
           (remove_marks s1.2 = [remove_mark.attempt] ∧ r = -EINVAL))) ∨
       (force ≠ 0 ∧ size = 0 ∧ s1.2 = [] ∧ r = -EINVAL) ∨
       (force ≠ 0 ∧ size ≠ 0 ∧
          ((remove_marks s1.2 = [remove_mark.attempt, remove_mark.removed] ∧ r = 0) ∨
           (remove_marks s1.2 = [remove_mark.attempt, remove_mark.error_target,
              remove_mark.attempt, remove_mark.removed] ∧ r = 0) ∨
           (remove_marks s1.2 = [remove_mark.attempt, remove_mark.error_target,
              remove_mark.attempt, remove_mark.attempt, remove_mark.removed] ∧ r = 0) ∨
           (remove_marks s1.2 = [remove_mark.attempt, remove_mark.error_target,
              remove_mark.attempt, remove_mark.attempt, remove_mark.attempt,
              remove_mark.removed] ∧ r = 0) ∨
           (remove_marks s1.2 = [remove_mark.attempt, remove_mark.error_target,
              remove_mark.attempt, remove_mark.attempt, remove_mark.attempt,
              remove_mark.attempt, remove_mark.removed] ∧ r = 0) ∨
           (remove_marks s1.2 = [remove_mark.attempt, remove_mark.error_target,
              remove_mark.attempt, remove_mark.attempt, remove_mark.attempt,
              remove_mark.attempt] ∧ r = -EINVAL)))) := by
  refine ⟨rfl, ?_⟩
  unfold dm_remove_device
  by_cases hf : force = 0
  · obtain ⟨r, s1, h1, j, hj, h2⟩ := dm_remove_loop_marks L name force size 0 RETRY_COUNT 0
      (k, []) (by decide)
    have hj0 : j = 0 := by omega
    subst hj0
    simp only [hf, ne_eq, not_true_eq_false, false_and, ↓reduceIte, Nat.cast_zero, zero_add] at h1 ⊢
    rw [h1]
    refine ⟨r, _, rfl, Or.inl ⟨trivial, ?_⟩⟩
    simp only [logged_call_marks, mark_of, reduceCtorEq, ↓reduceIte, false_and, Option.toList,
      List.append_nil]
    simpa [failed_attempts, remove_marks_nil] using h2
  · by_cases hz : size = 0
    · exact ⟨-EINVAL, (k, []), by simp [hf, hz], Or.inr (Or.inl ⟨hf, hz, rfl, rfl⟩)⟩
    · obtain ⟨r, s1, h1, j, hj, h2⟩ := dm_remove_loop_marks L name force size 4 RETRY_COUNT 0
        (k, []) (by decide)
      have h5 : ((4 : Nat) : Int) + 1 = ((RETRY_COUNT : Nat) : Int) := by decide
      rw [h5] at h1
      simp only [hf, hz, ne_eq, not_false_eq_true, and_false, ↓reduceIte] at h1 ⊢
      rw [h1]
      refine ⟨r, _, rfl, Or.inr (Or.inr ⟨trivial, trivial, ?_⟩)⟩
      simp only [logged_call_marks, mark_of, reduceCtorEq, ↓reduceIte, false_and,
        Option.toList, List.append_nil]
      have hd : decide (force ≠ 0 ∧ (0 : Int) = 0) = true := by simpa using hf
      rw [hd] at h2
      interval_cases j <;> simp [failed_attempts, remove_marks_nil] at h2 <;> tauto

/-! ## `AF_split` when the diffuser fails -/

/-- C23, the code at a failing input: with a hash name that the provider does
not know, `diffuse` fails (returns 1) for the first stripe; `AF_split` leaves
its loop with the return value of `crypt_random_get` in `r` and returns 0, the
last stripe not written, whereas `AF_merge` returns `-EINVAL` in the same
situation. -/
theorem AF_split_diffuse_failure :
    (diffuse (gcrypt_backend demoLib) [7, 7, 7, 7] 4 (ascii "nohash")).1 = 1 ∧
    AF_split (gcrypt_backend demoLib) (constSource 7) true [1, 2, 3, 4] (List.replicate 8 0)
      4 2 (ascii "nohash") () = (0, [7, 7, 7, 7, 0, 0, 0, 0], ()) ∧
    AF_merge (gcrypt_backend demoLib) true [7, 7, 7, 7, 0, 0, 0, 0] (List.replicate 4 0)
      4 2 (ascii "nohash") = (-EINVAL, [0, 0, 0, 0]) := by
  decide

/-! ## A length suffix that reads as zero -/

/-- C28: for a hash specification `name:len` whose suffix `atoi` reads as 0 (a
suffix that is not a number included) and a supported hash `name`,
`crypt_plain_hash` returns 0 and the `key_size` bytes of the key are all zero,
whatever the passphrase: for any two passphrases the results are equal. -/
theorem crypt_plain_hash_zero_len {σ : Type} (B : HashBackend σ) (name suffix : List Nat)
    (d : Nat) (H : List Nat → List Nat) (hOK : HashOK B name d H)
    (hcolon : 58 ∉ name) (hl : (name ++ 58 :: suffix).length < 256)
    (key_size : Nat) (hatoi : atoi suffix = 0) (hks : key_size < 2 ^ 64)
    (key : List Nat) (P : List Nat) (ps : Nat) :
    crypt_plain_hash B (name ++ 58 :: suffix) key key_size P ps =
      some (0, List.replicate key_size 0 ++ key.drop key_size) ∧
    ∀ (P1 : List Nat) (ps1 : Nat),
      crypt_plain_hash B (name ++ 58 :: suffix) key key_size P1 ps1 =
        crypt_plain_hash B (name ++ 58 :: suffix) key key_size P ps := by
  have hspec := plain_hash_spec_len name suffix 0 key_size hcolon hl (by simpa using hatoi)
    (Nat.zero_le _) hks
  obtain ⟨_, _, _, inv, ⟨s, hinit, _⟩, _, _⟩ := hOK
  have hh : ∀ (Q : List Nat) (qs : Nat), hash B name 0 key qs Q = some (0, key) := by
    intro Q qs
    unfold hash hash_run
    rw [hinit]
    simp only [hash_loop_zero]
    rfl
  have hres : ∀ (Q : List Nat) (qs : Nat),
      crypt_plain_hash B (name ++ 58 :: suffix) key key_size Q qs =
        some (0, List.replicate key_size 0 ++ key.drop key_size) := by
    intro Q qs
    unfold crypt_plain_hash
    rw [hspec]
    simp only [hh, Nat.sub_zero, true_and]
    by_cases hz : key_size = 0
    · simp [hz]
    · simp only [ne_eq, hz, not_false_eq_true, ↓reduceIte, Option.some.injEq, Prod.mk.injEq,
        true_and]
      simp [writeAt]
  exact ⟨hres P ps, fun P1 ps1 => (hres P1 ps1).trans (hres P ps).symm⟩

theorem crypt_plain_hash_zero_len_witness :
    crypt_plain_hash (gcrypt_backend demoLib) (ascii "demo" ++ 58 :: ascii "abc")
        (List.replicate 6 9) 6 (ascii "pw") 2 = some (0, List.replicate 6 0 ++ []) ∧
    crypt_plain_hash (gcrypt_backend demoLib) (ascii "demo" ++ 58 :: ascii "abc")
        (List.replicate 6 9) 6 (ascii "other") 5 =
      crypt_plain_hash (gcrypt_backend demoLib) (ascii "demo" ++ 58 :: ascii "abc")
        (List.replicate 6 9) 6 (ascii "pw") 2 :=
  ⟨(crypt_plain_hash_zero_len (gcrypt_backend demoLib) (ascii "demo") (ascii "abc") 4 demoHash
      demo_HashOK (by decide) (by decide) 6 (by decide) (by decide) (List.replicate 6 9)
      (ascii "pw") 2).1,
    (crypt_plain_hash_zero_len (gcrypt_backend demoLib) (ascii "demo") (ascii "abc") 4 demoHash
      demo_HashOK (by decide) (by decide) 6 (by decide) (by decide) (List.replicate 6 9)
      (ascii "pw") 2).2 (ascii "other") 5⟩

/-! ## The terminator of `keyfile_is_gpg` -/

/-- C30, the code at the failing input: the position where `keyfile_is_gpg`
stores its terminator is `keyfile_is_gpg_index` of the buffer length; for a
buffer of exactly 100 bytes it is 100, one past the last byte; for every
other non-empty buffer it is a valid index. The bytes of the buffer are as
they were after the check. -/
theorem keyfile_is_gpg_index_100 :
    (∀ buffer : List Nat, keyfile_is_gpg buffer =
      ((if strstr ((buffer.set (keyfile_is_gpg_index buffer.length) 0).takeWhile
          (fun c => c != 0)) (ascii "BEGIN PGP MESSAGE") then 1 else 0),
        (buffer.set (keyfile_is_gpg_index buffer.length) 0).set
          (keyfile_is_gpg_index buffer.length)
          (buffer.getD (keyfile_is_gpg_index buffer.length) 0))) ∧
    keyfile_is_gpg_index (List.replicate 100 65).length = 100 ∧
    ¬ keyfile_is_gpg_index (List.replicate 100 65).length < (List.replicate 100 65).length ∧
    (∀ buffer_len : Nat, buffer_len ≠ 0 →
      (keyfile_is_gpg_index buffer_len < buffer_len ↔ buffer_len ≠ 100)) ∧
    ∀ buffer : List Nat, (keyfile_is_gpg buffer).2 = buffer := by
  refine ⟨fun _ => rfl, by decide, by decide, ?_, keyfile_is_gpg_buffer⟩
  intro n hn
  unfold keyfile_is_gpg_index
  split <;> omega

/-! ## The capabilities recorded by `_dm_set_crypt_compat` -/

/-- C24, the code at failing inputs: starting from no recorded capability,
`_dm_set_crypt_compat` records key-wipe, LMK and plain64 exactly when
`crypt_maj >= 1` and `crypt_min` is at least 2, 10 and 8: the two numbers are
compared one by one, not as a version. For dm-crypt 2.0.0 nothing of the
crypt target is recorded, although 1.10.0, an older version, has all three;
likewise dm-ioctl 5.0.0 does not get secure-data, which 4.20.0 has. -/
theorem dm_set_crypt_compat_major_two :
    (∀ (dm_version : List Nat) (crypt_maj crypt_min crypt_patch : Nat),
      ((_dm_set_crypt_compat dm_version crypt_maj crypt_min crypt_patch
          noProbe)._dm_crypt_flags.DM_KEY_WIPE_SUPPORTED = true ↔
        (crypt_maj ≥ 1 ∧ crypt_min ≥ 2)) ∧
      ((_dm_set_crypt_compat dm_version crypt_maj crypt_min crypt_patch
          noProbe)._dm_crypt_flags.DM_LMK_SUPPORTED = true ↔
        (crypt_maj ≥ 1 ∧ crypt_min ≥ 10)) ∧
      ((_dm_set_crypt_compat dm_version crypt_maj crypt_min crypt_patch
          noProbe)._dm_crypt_flags.DM_PLAIN64_SUPPORTED = true ↔
        (crypt_maj ≥ 1 ∧ crypt_min ≥ 8))) ∧
    (_dm_set_crypt_compat (ascii "4.20.0") 2 0 0 noProbe)._dm_crypt_flags =
      ⟨false, false, true, false⟩ ∧
    (_dm_set_crypt_compat (ascii "4.20.0") 1 10 0 noProbe)._dm_crypt_flags =
      ⟨true, true, true, true⟩ ∧
    (_dm_set_crypt_compat (ascii "5.0.0") 1 10 0 noProbe)._dm_crypt_flags =
      ⟨true, true, false, true⟩ := by
  refine ⟨?_, by decide, by decide, by decide⟩
  intro dm_version crypt_maj crypt_min crypt_patch
  unfold _dm_set_crypt_compat noProbe
  generalize (match sscanf_version (cstr dm_version) with
    | some v => v
    | none => (0, 0, 0)) = dm
  by_cases a1 : crypt_maj ≥ 1 <;> by_cases m2 : crypt_min ≥ 2 <;>
    by_cases m8 : crypt_min ≥ 8 <;> by_cases m10 : crypt_min ≥ 10 <;>
    by_cases d1 : dm.1 ≥ 4 <;> by_cases d2 : dm.2.1 ≥ 20 <;>
    simp [a1, m2, m8, m10, d1, d2]

/-! ## The message of `dm_resume_and_reinstate_key` -/

/-- The loop of `hex_key` in a buffer with room to spare: the digits already
stored and the bytes after the terminator are kept. -/
theorem hex_key_loop_room (key : List Nat) :
    ∀ (n i : Nat) (hexkey : List Nat), i + n ≤ key.length →
      2 * (i + n) + 1 ≤ hexkey.length →
      hex_key_loop key n i hexkey =
        if n = 0 then hexkey
        else hexkey.take (2 * i) ++ hexkey_spec ((key.drop i).take n) ++ [0] ++
          hexkey.drop (2 * (i + n) + 1) := by
  intro n
  induction n with
  | zero => intro i hexkey _ _; rfl
  | succ n ih =>
    intro i hexkey hin hlen
    have hi : i < key.length := by omega
    have hget : key.getD i 0 = key[i] := by
      rw [List.getD_eq_getElem?_getD, List.getElem?_eq_getElem hi]; rfl
    have hdrop : key.drop i = key[i] :: key.drop (i + 1) := List.drop_eq_getElem_cons hi
    have hw : writeAt hexkey (i * 2) (fmt_02x (key.getD i 0 % 256) ++ [0]) =
        hexkey.take (2 * i) ++ [hexdigit (key[i] / 16 % 16), hexdigit (key[i] % 16)] ++ [0] ++
          hexkey.drop (2 * i + 3) := by
      rw [hget, fmt_02x_key_byte]
      unfold writeAt
      simp [Nat.mul_comm]
    have hwl : (writeAt hexkey (i * 2) (fmt_02x (key.getD i 0 % 256) ++ [0])).length =
        hexkey.length := by
      rw [writeAt_length _ _ _ (by rw [hget, fmt_02x_key_byte]; simp; omega)]
    simp only [hex_key_loop, Nat.add_one_ne_zero, ↓reduceIte]
    rw [ih (i + 1) _ (by omega) (by rw [hwl]; omega), hdrop, List.take_succ_cons,
      hexkey_spec_cons]
    have hl : (hexkey.take (2 * i) ++
        [hexdigit (key[i] / 16 % 16), hexdigit (key[i] % 16)]).length = 2 * (i + 1) := by
      simp only [List.length_append, List.length_take, List.length_cons, List.length_nil]
      omega
    have htk : (writeAt hexkey (i * 2) (fmt_02x (key.getD i 0 % 256) ++ [0])).take
        (2 * (i + 1)) =
        hexkey.take (2 * i) ++ [hexdigit (key[i] / 16 % 16), hexdigit (key[i] % 16)] := by
      rw [hw, List.append_assoc (hexkey.take (2 * i) ++ _), List.take_left' hl]
    have hdr : ∀ m, 2 * i + 3 ≤ m →
        (writeAt hexkey (i * 2) (fmt_02x (key.getD i 0 % 256) ++ [0])).drop m =
          hexkey.drop m := by
      intro m hm
      exact writeAt_drop_after hexkey (i * 2) _ m
        (by rw [hget, fmt_02x_key_byte]; simp; omega)
        (by rw [hget, fmt_02x_key_byte]; simp; omega)
    by_cases hn : n = 0
    · subst hn
      simp only [↓reduceIte, List.take_zero]
      rw [hw]
      have e3 : 2 * (i + 1) + 1 = 2 * i + 3 := by omega
      simp [hexkey_spec, e3]
    · rw [if_neg hn, htk, hdr _ (by omega)]
      have e : 2 * (i + 1 + n) + 1 = 2 * (i + (n + 1)) + 1 := by omega
      rw [e]
      simp

/-- The message that `dm_resume_and_reinstate_key` builds in a buffer of
`2 * key_size + 10` bytes: `key set `, the hex key and two NUL bytes; the buffer
keeps its size. -/
theorem key_set_msg_spec (msg key : List Nat) (hlen : msg.length = key.length * 2 + 10) :
    key_set_msg msg (key.length * 2 + 10) key.length key =
      ascii "key set " ++ hexkey_spec key ++ [0, 0] := by
  have h1 : writeAt msg 0 (List.replicate (key.length * 2 + 10) 0) =
      List.replicate (key.length * 2 + 10) 0 :=
    writeAt_zero_full _ _ (by simp [hlen])
  have h2 : writeAt (List.replicate (key.length * 2 + 10) 0) 0 (ascii "key set " ++ [0]) =
      ascii "key set " ++ 0 :: List.replicate (key.length * 2 + 1) 0 := by
    have e : ascii "key set " ++ [0] = [107, 101, 121, 32, 115, 101, 116, 32, 0] := by decide
    have e1 : ascii "key set " = [107, 101, 121, 32, 115, 101, 116, 32] := by decide
    rw [e, e1]
    simp [writeAt, List.drop_replicate]
  have e8 : (ascii "key set ").length = 8 := by decide
  unfold key_set_msg
  simp only [h1, h2]
  rw [List.take_left' e8, List.drop_left' e8]
  unfold hex_key
  rw [hex_key_loop_room key key.length 0 _ (by omega) (by simp; omega)]
  by_cases hk : key.length = 0
  · have : key = [] := List.length_eq_zero.mp hk
    subst this
    simp [hexkey_spec]
  · rw [if_neg hk]
    have hd : (0 :: List.replicate (key.length * 2 + 1) 0).drop (2 * (0 + key.length) + 1) =
        [0] := by
      rw [← List.replicate_succ, List.drop_replicate]
      have : key.length * 2 + 1 + 1 - (2 * (0 + key.length) + 1) = 1 := by omega
      rw [this]
      rfl
    rw [hd]
    simp
/-! ## The events of a suspension and of a resumption -/

theorem key_marks_append (l1 l2 : List (dm_call × Int)) :
    key_marks (l1 ++ l2) = key_marks l1 ++ key_marks l2 := by
  unfold key_marks
  exact List.filterMap_append _ _ _

theorem key_marks_nil : key_marks [] = [] := rfl

theorem key_marks_cons (e : dm_call × Int) (l : List (dm_call × Int)) :
    key_marks (e :: l) = (key_mark_of e).toList ++ key_marks l := by
  unfold key_marks
  cases h : key_mark_of e <;> simp [List.filterMap_cons, h]

theorem logged_call_key_marks {κ : Type} (L : DmLib κ) (s : κ × List (dm_call × Int))
    (c : dm_call) :
    key_marks ((logged L).call s c).2.2 =
      key_marks s.2 ++ (key_mark_of (c, ((logged L).call s c).1.r)).toList := by
  simp [logged, key_marks_append, key_marks_cons, key_marks_nil]

theorem dm_check_versions_marks_gen {σ : Type} (L : DmLib σ) (lg : σ → List (dm_call × Int))
    (hL : ∀ s c, key_marks (lg (L.call s c).2) =
      key_marks (lg s) ++ (key_mark_of (c, (L.call s c).1.r)).toList)
    (g : dm_globals) (s : σ) :
    key_marks (lg (_dm_check_versions L g s).2.2) = key_marks (lg s) := by
  simp only [_dm_check_versions]
  split_ifs <;> simp [hL, key_mark_of]

theorem dm_flags_marks_gen {σ : Type} (L : DmLib σ) (lg : σ → List (dm_call × Int))
    (hL : ∀ s c, key_marks (lg (L.call s c).2) =
      key_marks (lg s) ++ (key_mark_of (c, (L.call s c).1.r)).toList)
    (g : dm_globals) (s : σ) :
    key_marks (lg (dm_flags L g s).2.2) = key_marks (lg s) := by
  simp only [dm_flags]
  split_ifs
  · exact dm_check_versions_marks_gen L lg hL g s
  · rfl

theorem dm_message_sent_marks_gen {σ : Type} (L : DmLib σ) (lg : σ → List (dm_call × Int))
    (hL : ∀ s c, key_marks (lg (L.call s c).2) =
      key_marks (lg s) ++ (key_mark_of (c, (L.call s c).1.r)).toList)
    (name : Option (List Nat)) (msg : List Nat) (g : dm_globals) (s : σ)
    (h : (_dm_message L name msg g s).1 ≠ 0) :
    key_marks (lg (_dm_message L name msg g s).2.2) =
      key_marks (lg s) ++
        [key_mark.message_task, key_mark.message (cstr msg), key_mark.sent] := by
  have hfl := dm_flags_marks_gen L lg hL g
    (L.call s (dm_call.dm_task_create dm_task_type.DM_DEVICE_TARGET_MSG)).2
  simp only [_dm_message] at h ⊢
  generalize dm_flags L g
    (L.call s (dm_call.dm_task_create dm_task_type.DM_DEVICE_TARGET_MSG)).2 = fl at h hfl ⊢
  cases name <;> simp only [] at h ⊢ <;> split_ifs at h ⊢ <;>
    first
      | exact absurd rfl h
      | simp [hL, hfl, key_mark_of, h]

theorem dm_message_failed_marks_gen {σ : Type} (L : DmLib σ)
    (lg : σ → List (dm_call × Int))
    (hL : ∀ s c, key_marks (lg (L.call s c).2) =
      key_marks (lg s) ++ (key_mark_of (c, (L.call s c).1.r)).toList)
    (name : Option (List Nat)) (msg : List Nat) (g : dm_globals) (s : σ)
    (h : (_dm_message L name msg g s).1 = 0) :
    key_marks (lg (_dm_message L name msg g s).2.2) =
        key_marks (lg s) ++ [key_mark.message_task] ∨
      key_marks (lg (_dm_message L name msg g s).2.2) =
        key_marks (lg s) ++ [key_mark.message_task, key_mark.message (cstr msg)] := by
  have hfl := dm_flags_marks_gen L lg hL g
    (L.call s (dm_call.dm_task_create dm_task_type.DM_DEVICE_TARGET_MSG)).2
  simp only [_dm_message] at h ⊢
  generalize dm_flags L g
    (L.call s (dm_call.dm_task_create dm_task_type.DM_DEVICE_TARGET_MSG)).2 = fl at h hfl ⊢
  cases name <;> simp only [] at h ⊢ <;> split_ifs at h ⊢ <;>
    (try dsimp only at h) <;>
    simp [hL, hfl, key_mark_of, h]

/-- The probe of the kernel adds no event of a suspension or resumption. -/
theorem dm_check_versions_key_marks {κ : Type} (L : DmLib κ) (g : dm_globals)
    (s : κ × List (dm_call × Int)) :
    key_marks (_dm_check_versions (logged L) g s).2.2.2 = key_marks s.2 :=
  dm_check_versions_marks_gen (logged L) Prod.snd (logged_call_key_marks L) g s

/-- A suspension adds to the record the start of a SUSPEND task, followed by
its success exactly when `_dm_simple` returns non-zero. -/
theorem dm_simple_suspend_marks {κ : Type} (L : DmLib κ) (name : Option (List Nat))
    (udev_wait : Int) (s : κ × List (dm_call × Int)) :
    key_marks (_dm_simple (logged L) dm_task_type.DM_DEVICE_SUSPEND name udev_wait s).2.2 =
      key_marks s.2 ++ key_mark.suspend ::
        (if (_dm_simple (logged L) dm_task_type.DM_DEVICE_SUSPEND name udev_wait s).1 ≠ 0
          then [key_mark.suspended] else []) := by
  unfold _dm_simple
  simp only [logged]
  cases name <;>
    split_ifs <;> simp_all [key_marks_append, key_marks_cons, key_marks_nil, key_mark_of]

/-- A resumption adds to the record the start of a RESUME task, followed by its
success exactly when `_dm_simple` returns non-zero. -/
theorem dm_simple_resume_marks {κ : Type} (L : DmLib κ) (name : Option (List Nat))
    (udev_wait : Int) (s : κ × List (dm_call × Int)) :
    key_marks (_dm_simple (logged L) dm_task_type.DM_DEVICE_RESUME name udev_wait s).2.2 =
      key_marks s.2 ++ key_mark.resume ::
        (if (_dm_simple (logged L) dm_task_type.DM_DEVICE_RESUME name udev_wait s).1 ≠ 0
          then [key_mark.resumed] else []) := by
  unfold _dm_simple
  simp only [logged]
  cases name <;>
    split_ifs <;> simp_all [key_marks_append, key_marks_cons, key_marks_nil, key_mark_of]

/-- The events of `_dm_message` when it returns non-zero: the start of a
TARGET_MSG task, which was given the string of `msg` and ran. -/
theorem dm_message_sent_marks {κ : Type} (L : DmLib κ) (name : Option (List Nat))
    (msg : List Nat) (g : dm_globals) (s : κ × List (dm_call × Int))
    (h : (_dm_message (logged L) name msg g s).1 ≠ 0) :
    key_marks (_dm_message (logged L) name msg g s).2.2.2 =
      key_marks s.2 ++ [key_mark.message_task, key_mark.message (cstr msg), key_mark.sent] :=
  dm_message_sent_marks_gen (logged L) Prod.snd (logged_call_key_marks L) name msg g s h

/-- The events of `_dm_message` when it returns 0: the start of a TARGET_MSG
task, which did not run; it may have been given the string of `msg`. -/
theorem dm_message_failed_marks {κ : Type} (L : DmLib κ) (name : Option (List Nat))
    (msg : List Nat) (g : dm_globals) (s : κ × List (dm_call × Int))
    (h : (_dm_message (logged L) name msg g s).1 = 0) :
    key_marks (_dm_message (logged L) name msg g s).2.2.2 =
        key_marks s.2 ++ [key_mark.message_task] ∨
      key_marks (_dm_message (logged L) name msg g s).2.2.2 =
        key_marks s.2 ++ [key_mark.message_task, key_mark.message (cstr msg)] :=
  dm_message_failed_marks_gen (logged L) Prod.snd (logged_call_key_marks L) name msg g s h

theorem cstr_key_set (key : List Nat) :
    cstr (ascii "key set " ++ hexkey_spec key ++ [0, 0]) = ascii "key set " ++ hexkey_spec key := by
  apply cstr_append_nul
  intro c hc
  rcases List.mem_append.mp hc with h | h
  · have hz : ∀ x ∈ ascii "key set ", x ≠ 0 := by decide
    exact hz c h
  · exact hexkey_spec_nonzero key c h

/-! ## Suspension with key wipe, resumption with key -/

/-- C21: if the probe of the kernel fails, or the key-wipe capability is not
recorded for the crypt target after it, `dm_suspend_and_wipe_key` and
`dm_resume_and_reinstate_key` both return `-ENOTSUP` (-95) and leave the static
variables and the environment as the probe left them; the probe adds no
SUSPEND, TARGET_MSG or RESUME task to the record of the calls. -/
theorem dm_key_wipe_unsupported {κ : Type} (M : Heap) (L : DmLib κ)
    (name : Option (List Nat)) (key_size : Nat) (key : List Nat) (g : dm_globals)
    (s : κ × List (dm_call × Int))
    (h : (_dm_check_versions (logged L) g s).1 = 0 ∨
      (_dm_check_versions (logged L) g s).2.1._dm_crypt_flags.DM_KEY_WIPE_SUPPORTED = false) :
    dm_suspend_and_wipe_key (logged L) name g s =
        (-95, (_dm_check_versions (logged L) g s).2.1,
          (_dm_check_versions (logged L) g s).2.2) ∧
      dm_resume_and_reinstate_key M (logged L) name key_size key g s =
        (-95, (_dm_check_versions (logged L) g s).2.1,
          (_dm_check_versions (logged L) g s).2.2) ∧
      key_marks (dm_suspend_and_wipe_key (logged L) name g s).2.2.2 = key_marks s.2 ∧
      key_marks (dm_resume_and_reinstate_key M (logged L) name key_size key g s).2.2.2 =
        key_marks s.2 := by
  have h1 : dm_suspend_and_wipe_key (logged L) name g s =
      (-95, (_dm_check_versions (logged L) g s).2.1,
        (_dm_check_versions (logged L) g s).2.2) := by
    unfold dm_suspend_and_wipe_key
    simp only []
    rcases h with h | h
    · rw [if_pos h]; rfl
    · by_cases h0 : (_dm_check_versions (logged L) g s).1 = 0
      · rw [if_pos h0]; rfl
      · rw [if_neg h0, if_pos h]; rfl
  have h2 : dm_resume_and_reinstate_key M (logged L) name key_size key g s =
      (-95, (_dm_check_versions (logged L) g s).2.1,
        (_dm_check_versions (logged L) g s).2.2) := by
    unfold dm_resume_and_reinstate_key
    simp only []
    rcases h with h | h
    · rw [if_pos h]; rfl
    · by_cases h0 : (_dm_check_versions (logged L) g s).1 = 0
      · rw [if_pos h0]; rfl
      · rw [if_neg h0, if_pos h]; rfl
  refine ⟨h1, h2, ?_, ?_⟩
  · rw [h1]; exact dm_check_versions_key_marks L g s
  · rw [h2]; exact dm_check_versions_key_marks L g s

theorem dm_key_wipe_unsupported_witness :
    dm_suspend_and_wipe_key (logged okLib) (some (ascii "vol")) ⟨1, ⟨false, true, true, true⟩⟩
        ((), []) = (-95, ⟨1, ⟨false, true, true, true⟩⟩, ((), [])) ∧
      dm_resume_and_reinstate_key demoHeap (logged okLib) (some (ascii "vol")) 2 [1, 255]
        ⟨1, ⟨false, true, true, true⟩⟩ ((), []) =
          (-95, ⟨1, ⟨false, true, true, true⟩⟩, ((), [])) :=
  let h := dm_key_wipe_unsupported demoHeap okLib (some (ascii "vol")) 2 [1, 255]
    ⟨1, ⟨false, true, true, true⟩⟩ ((), []) (Or.inr rfl)
  ⟨h.1, h.2.1⟩

/-- C22: with the key-wipe capability found and the message buffer allocated,
`dm_resume_and_reinstate_key` ends in one of four ways. The TARGET_MSG task is
given exactly `key set ` followed by the `2 * key_size` lower-case hex digits of
the key; a RESUME task is started only after that message was sent; when the
message fails there is no RESUME task and the result is `-EINVAL`; the result
is 0 only when the message was sent and the device resumed. -/
theorem dm_resume_and_reinstate_key_order {κ : Type} (M : Heap) (L : DmLib κ)
    (name : Option (List Nat)) (key msg0 : List Nat) (g : dm_globals)
    (s : κ × List (dm_call × Int))
    (hprobe : (_dm_check_versions (logged L) g s).1 ≠ 0)
    (hwipe : (_dm_check_versions (logged L) g s).2.1._dm_crypt_flags.DM_KEY_WIPE_SUPPORTED
      = true)
    (hM : ∀ m b, M.malloc m = some b → b.length = m)
    (hmsg : M.malloc (key.length * 2 + 10) = some msg0) :
    (∃ o ∈ reinstate_key_outcomes (ascii "key set " ++ hexkey_spec key),
      (dm_resume_and_reinstate_key M (logged L) name key.length key g s).1 = o.1 ∧
      key_marks (dm_resume_and_reinstate_key M (logged L) name key.length key g s).2.2.2 =
        key_marks s.2 ++ o.2) ∧
    (hexkey_spec key).length = 2 * key.length ∧
    (∀ i, i < key.length →
      (hexkey_spec key).getD (2 * i) 0 = hexdigit (key.getD i 0 / 16 % 16) ∧
      (hexkey_spec key).getD (2 * i + 1) 0 = hexdigit (key.getD i 0 % 16)) := by
  refine ⟨?_, hexkey_spec_length key, ?_⟩
  · have hp := dm_check_versions_key_marks L g s
    unfold dm_resume_and_reinstate_key
    simp only [crypt_safe_alloc, hmsg, if_neg hprobe, hwipe, Bool.true_eq_false, ↓reduceIte]
    rw [key_set_msg_spec msg0 key (hM _ _ hmsg)]
    by_cases hm : (_dm_message (logged L) name (ascii "key set " ++ hexkey_spec key ++ [0, 0])
        (_dm_check_versions (logged L) g s).2.1 (_dm_check_versions (logged L) g s).2.2).1 = 0
    · rw [if_pos hm]
      rcases dm_message_failed_marks L name _ _ _ hm with h | h
      · exact ⟨_, List.mem_cons_self _ _, rfl, by rw [h, hp]⟩
      · refine ⟨_, List.mem_cons_of_mem _ (List.mem_cons_self _ _), rfl, ?_⟩
        rw [h, hp, cstr_key_set]
    · rw [if_neg hm]
      have h := dm_message_sent_marks L name _ _ _ hm
      rw [cstr_key_set, hp] at h
      by_cases hr : (_dm_simple (logged L) dm_task_type.DM_DEVICE_RESUME name 1
          (_dm_message (logged L) name (ascii "key set " ++ hexkey_spec key ++ [0, 0])
            (_dm_check_versions (logged L) g s).2.1
            (_dm_check_versions (logged L) g s).2.2).2.2).1 = 0
      · refine ⟨_, List.mem_cons_of_mem _ (List.mem_cons_of_mem _ (List.mem_cons_self _ _)),
          ?_, ?_⟩
        · simp only [hr, ↓reduceIte]
        · rw [dm_simple_resume_marks, h, if_neg (not_not.mpr hr)]
          simp
      · refine ⟨_, List.mem_cons_of_mem _ (List.mem_cons_of_mem _
          (List.mem_cons_of_mem _ (List.mem_cons_self _ _))), ?_, ?_⟩
        · simp only [hr, ↓reduceIte]
        · rw [dm_simple_resume_marks, h, if_pos hr]
          simp
  · intro i hi
    have hrd : readAt (hexkey_spec key) (i * 2) 2 =
        [hexdigit (key.getD i 0 / 16 % 16), hexdigit (key.getD i 0 % 16)] := by
      unfold hexkey_spec
      rw [readAt_flatten_uniform 2 _ i (by
          intro x hx
          obtain ⟨b, _, rfl⟩ := List.mem_map.mp hx
          rfl) (by simpa using hi)]
      rw [List.getD_eq_getElem?_getD, List.getD_eq_getElem?_getD, List.getElem?_map,
        List.getElem?_eq_getElem hi]
      rfl
    have hl := hexkey_spec_length key
    unfold readAt at hrd
    have e0 : ((hexkey_spec key).drop (i * 2)).take 2 =
        [(hexkey_spec key).getD (2 * i) 0, (hexkey_spec key).getD (2 * i + 1) 0] := by
      have h0 : 2 * i < (hexkey_spec key).length := by omega
      have h1 : 2 * i + 1 < (hexkey_spec key).length := by omega
      rw [Nat.mul_comm i 2, List.drop_eq_getElem_cons h0, List.take_succ_cons,
        List.drop_eq_getElem_cons h1, List.take_succ_cons, List.take_zero]
      simp [List.getD_eq_getElem?_getD, List.getElem?_eq_getElem h0,
        List.getElem?_eq_getElem h1]
    rw [e0] at hrd
    simp only [List.cons.injEq, and_true] at hrd
    exact hrd

theorem dm_resume_and_reinstate_key_order_witness :
    ((dm_resume_and_reinstate_key demoHeap (logged okLib) (some (ascii "vol")) 2 [1, 255]
        noProbe ((), [])).1 = 0 ∧
      key_marks (dm_resume_and_reinstate_key demoHeap (logged okLib) (some (ascii "vol")) 2
        [1, 255] noProbe ((), [])).2.2.2 =
        [key_mark.message_task, key_mark.message (ascii "key set 01ff"), key_mark.sent,
          key_mark.resume, key_mark.resumed]) ∧
    ∃ o ∈ reinstate_key_outcomes (ascii "key set 01ff"),
      (dm_resume_and_reinstate_key demoHeap (logged okLib) (some (ascii "vol")) 2 [1, 255]
        noProbe ((), [])).1 = o.1 ∧
      key_marks (dm_resume_and_reinstate_key demoHeap (logged okLib) (some (ascii "vol")) 2
        [1, 255] noProbe ((), [])).2.2.2 = key_marks [] ++ o.2 :=
  ⟨by decide,
    (dm_resume_and_reinstate_key_order demoHeap okLib (some (ascii "vol")) [1, 255]
      (List.replicate 14 0xAA) noProbe ((), []) (by decide) (by decide)
      (by intro m b hb; simp only [demoHeap, Option.some.injEq] at hb; rw [← hb]; simp)
      rfl).1⟩

/-- C29: with the key-wipe capability found, `dm_suspend_and_wipe_key` ends in one of
six ways. When the suspension fails the result is `-EINVAL` and no TARGET_MSG
and no RESUME task is started; when the suspension succeeds and the
`key wipe` message fails, a RESUME task is started before `-EINVAL` is
returned; the result is 0 only when the message was sent, and then no RESUME
task is started. -/
theorem dm_suspend_and_wipe_key_order {κ : Type} (L : DmLib κ)
    (name : Option (List Nat)) (g : dm_globals) (s : κ × List (dm_call × Int))
    (hprobe : (_dm_check_versions (logged L) g s).1 ≠ 0)
    (hwipe : (_dm_check_versions (logged L) g s).2.1._dm_crypt_flags.DM_KEY_WIPE_SUPPORTED
      = true) :
    ∃ o ∈ wipe_key_outcomes,
      (dm_suspend_and_wipe_key (logged L) name g s).1 = o.1 ∧
      key_marks (dm_suspend_and_wipe_key (logged L) name g s).2.2.2 = key_marks s.2 ++ o.2 := by
  have hp := dm_check_versions_key_marks L g s
  have hkw : cstr (ascii "key wipe") = ascii "key wipe" := by decide
  unfold dm_suspend_and_wipe_key
  simp only [if_neg hprobe, hwipe, Bool.true_eq_false, ↓reduceIte]
  have hs := dm_simple_suspend_marks L name 0 (_dm_check_versions (logged L) g s).2.2
  by_cases h1 : (_dm_simple (logged L) dm_task_type.DM_DEVICE_SUSPEND name 0
      (_dm_check_versions (logged L) g s).2.2).1 = 0
  · rw [if_pos h1]
    refine ⟨_, List.mem_cons_self _ _, rfl, ?_⟩
    rw [hs, hp]
    simp [h1]
  · rw [if_neg h1]
    simp only [ne_eq, h1, not_false_eq_true, ↓reduceIte] at hs
    by_cases hm : (_dm_message (logged L) name (ascii "key wipe")
        (_dm_check_versions (logged L) g s).2.1
        (_dm_simple (logged L) dm_task_type.DM_DEVICE_SUSPEND name 0
          (_dm_check_versions (logged L) g s).2.2).2).1 = 0
    · rw [if_pos hm]
      have hr := dm_simple_resume_marks L name 1
        (_dm_message (logged L) name (ascii "key wipe")
          (_dm_check_versions (logged L) g s).2.1
          (_dm_simple (logged L) dm_task_type.DM_DEVICE_SUSPEND name 0
            (_dm_check_versions (logged L) g s).2.2).2).2.2
      rcases dm_message_failed_marks L name _ _ _ hm with h | h
      · by_cases hr0 : (_dm_simple (logged L) dm_task_type.DM_DEVICE_RESUME name 1
            (_dm_message (logged L) name (ascii "key wipe")
              (_dm_check_versions (logged L) g s).2.1
              (_dm_simple (logged L) dm_task_type.DM_DEVICE_SUSPEND name 0
                (_dm_check_versions (logged L) g s).2.2).2).2.2).1 = 0
        · refine ⟨(-EINVAL, [key_mark.suspend, key_mark.suspended, key_mark.message_task,
            key_mark.resume]), by simp [wipe_key_outcomes], rfl, ?_⟩
          rw [hr, h, hs, hp]
          simp [hr0]
        · refine ⟨(-EINVAL, [key_mark.suspend, key_mark.suspended, key_mark.message_task,
            key_mark.resume, key_mark.resumed]), by simp [wipe_key_outcomes], rfl, ?_⟩
          rw [hr, h, hs, hp]
          simp [hr0]
      · rw [hkw] at h
        by_cases hr0 : (_dm_simple (logged L) dm_task_type.DM_DEVICE_RESUME name 1
            (_dm_message (logged L) name (ascii "key wipe")
              (_dm_check_versions (logged L) g s).2.1
              (_dm_simple (logged L) dm_task_type.DM_DEVICE_SUSPEND name 0
                (_dm_check_versions (logged L) g s).2.2).2).2.2).1 = 0
        · refine ⟨(-EINVAL, [key_mark.suspend, key_mark.suspended, key_mark.message_task,
            key_mark.message (ascii "key wipe"), key_mark.resume]),
            by simp [wipe_key_outcomes], rfl, ?_⟩
          rw [hr, h, hs, hp]
          simp [hr0]
        · refine ⟨(-EINVAL, [key_mark.suspend, key_mark.suspended, key_mark.message_task,
            key_mark.message (ascii "key wipe"), key_mark.resume, key_mark.resumed]),
            by simp [wipe_key_outcomes], rfl, ?_⟩
          rw [hr, h, hs, hp]
          simp [hr0]
    · rw [if_neg hm]
      have h := dm_message_sent_marks L name _ _ _ hm
      rw [hkw] at h
      refine ⟨(0, [key_mark.suspend, key_mark.suspended, key_mark.message_task,
        key_mark.message (ascii "key wipe"), key_mark.sent]),
        by simp [wipe_key_outcomes], rfl, ?_⟩
      rw [h, hs, hp]
      simp

theorem dm_suspend_and_wipe_key_order_witness :
    ((dm_suspend_and_wipe_key (logged noMsgLib) (some (ascii "vol")) noProbe ((), [])).1 = -22 ∧
      key_marks (dm_suspend_and_wipe_key (logged noMsgLib) (some (ascii "vol")) noProbe
        ((), [])).2.2.2 =
        [key_mark.suspend, key_mark.suspended, key_mark.message_task,
          key_mark.message (ascii "key wipe"), key_mark.resume, key_mark.resumed]) ∧
    ∃ o ∈ wipe_key_outcomes,
      (dm_suspend_and_wipe_key (logged noMsgLib) (some (ascii "vol")) noProbe ((), [])).1 = o.1 ∧
      key_marks (dm_suspend_and_wipe_key (logged noMsgLib) (some (ascii "vol")) noProbe
        ((), [])).2.2.2 = key_marks [] ++ o.2 :=
  ⟨by decide,
    dm_suspend_and_wipe_key_order noMsgLib (some (ascii "vol")) noProbe ((), [])
      (by decide) (by decide)⟩

/-! ## The sizes of the buffers of `get_params` and of the key message -/

/-- The return code of the loop of `hash_keys`: negative as soon as one key
cannot be hashed, else that of the last key. -/
theorem hash_keys_loop_sign {σ : Type} (B : HashBackend σ) (buffer name : List Nat)
    (t L n : Nat) :
    ∀ (ks : List Nat) (i : Nat) (r : Int) (key : List Nat),
      ((∃ k ∈ ks, (hash_key B (buffer.drop k) L n name).1 < 0) →
        (hash_keys_loop B buffer name t L n ks i r key).1 < 0) ∧
      ((∀ k ∈ ks, 0 ≤ (hash_key B (buffer.drop k) L n name).1) → 0 ≤ r →
        0 ≤ (hash_keys_loop B buffer name t L n ks i r key).1) := by
  intro ks
  induction ks with
  | nil =>
    intro i r key
    refine ⟨?_, ?_⟩
    · rintro ⟨k, hk, _⟩
      simp at hk
    · intro _ hr
      simpa [hash_keys_loop] using hr
  | cons k ks ih =>
    intro i r key
    simp only [hash_keys_loop]
    by_cases hneg : (hash_key B (buffer.drop k) L n name).1 < 0
    · rw [if_pos hneg]
      refine ⟨fun _ => hneg, ?_⟩
      intro hall _
      have := hall k (List.mem_cons_self _ _)
      omega
    · rw [if_neg hneg]
      refine ⟨?_, ?_⟩
      · rintro ⟨k1, hk1, hlt⟩
        rcases List.mem_cons.mp hk1 with h | h
        · rw [h] at hlt
          exact absurd hlt hneg
        · exact (ih _ _ _).1 ⟨k1, h, hlt⟩
      · intro hall _
        exact (ih _ _ _).2 (fun k1 hk1 => hall k1 (List.mem_cons_of_mem _ hk1)) (by omega)

theorem writeAt_zero_take (m : List Nat) (n : Nat) :
    (writeAt m 0 (List.replicate n 0)).take n = List.replicate n 0 := by
  unfold writeAt
  simp [List.take_append_eq_append_take]

/-- The end of `hash_keys` once the volume key is allocated: when a key cannot be
hashed the result is negative, `*vk` is null and the block was wiped and
released; when every key is hashed the volume key is returned and nothing is
released. -/
theorem hash_keys_failure {σ : Type} (B : HashBackend σ) (M : Heap) (hdr : Nat)
    (vk0 : Option volume_key) (hash : Option (List Nat)) (buf keys : List Nat)
    (n : Nat) (hname block : List Nat)
    (hname_eq : hash = some hname ∨ (hash = none ∧ get_hash n = some hname))
    (hn : n ≠ 0) (hK : keys.length ≠ 0) (hL : strlen_at buf (keys.getD 0 0) ≠ 0)
    (hb : M.malloc (hdr + (n * keys.length) % 2 ^ 32) = some block) :
    ((∃ k ∈ keys, (hash_key B (buf.drop k) (strlen_at buf (keys.getD 0 0)) n hname).1 < 0) →
      (hash_keys B M hdr vk0 hash buf keys keys.length n).1 < 0 ∧
      (hash_keys B M hdr vk0 hash buf keys keys.length n).2 = none ∧
      ∃ z, hash_keys_freed B M hdr hash buf keys keys.length n = some ⟨0, z⟩ ∧
        z.take ((n * keys.length) % 2 ^ 32) =
          List.replicate ((n * keys.length) % 2 ^ 32) 0) ∧
    ((∀ k ∈ keys, 0 ≤ (hash_key B (buf.drop k) (strlen_at buf (keys.getD 0 0)) n hname).1) →
      0 ≤ (hash_keys B M hdr vk0 hash buf keys keys.length n).1 ∧
      (∃ key, (hash_keys B M hdr vk0 hash buf keys keys.length n).2 =
        some ⟨(n * keys.length) % 2 ^ 32, key⟩) ∧
      hash_keys_freed B M hdr hash buf keys keys.length n = none) := by
  have hnm := hash_name_resolved hash n hname hname_eq
  have hz : ¬(keys.length = 0 ∨ n = 0 ∨ strlen_at buf (keys.getD 0 0) = 0) := by tauto
  have hs := hash_keys_loop_sign B buf hname (get_tweak keys.length)
    (strlen_at buf (keys.getD 0 0)) n keys 0 0 (block.drop hdr)
  unfold hash_keys hash_keys_freed crypt_alloc_volume_key
  simp only [hnm, if_neg hz, hb, List.take_length]
  refine ⟨?_, ?_⟩
  · intro hfail
    have hlt := hs.1 hfail
    simp only [if_pos hlt, crypt_free_volume_key]
    exact ⟨hlt, trivial, _, rfl, writeAt_zero_take _ _⟩
  · intro hall
    have hge := hs.2 hall (le_refl 0)
    have hnlt : ¬ (hash_keys_loop B buf hname (get_tweak keys.length)
        (strlen_at buf (keys.getD 0 0)) n keys 0 0 (block.drop hdr)).1 < 0 := by omega
    simp only [if_neg hnlt]
    exact ⟨hge, ⟨_, rfl⟩, trivial⟩

theorem ite_count_ne {α β : Type} {c : Prop} [Decidable c] {a b : α × β × Nat}
    (h : (if c then a else b).2.2 ≠ 0) (ha : a.2.2 = 0) : ¬ c := by
  intro hc
  rw [if_pos hc] at h
  exact h ha

/-- A key file for which `LOOPAES_parse_keyfile` stores `*keys_count` has passed the
checks of its format: there are keys, the first is not empty, and the result
is that of `hash_keys`. -/
theorem LOOPAES_parse_keyfile_reached {σ : Type} (B : HashBackend σ) (M : Heap)
    (hdr n : Nat) (vk0 : Option volume_key) (hash : Option (List Nat)) (buffer : List Nat)
    (hreach : (LOOPAES_parse_keyfile B M hdr n vk0 hash 0 buffer).2.2 ≠ 0) :
    (scan_keys (buffer.map remove_eol) LOOPAES_KEYS_MAX 0 []).1.length ≠ 0 ∧
    strlen_at (buffer.map remove_eol)
      ((scan_keys (buffer.map remove_eol) LOOPAES_KEYS_MAX 0 []).1.getD 0 0) ≠ 0 ∧
    ((scan_keys (buffer.map remove_eol) LOOPAES_KEYS_MAX 0 []).1.length = 1 ∨
      (scan_keys (buffer.map remove_eol) LOOPAES_KEYS_MAX 0 []).1.length = 64 ∨
      (scan_keys (buffer.map remove_eol) LOOPAES_KEYS_MAX 0 []).1.length = 65) ∧
    ∀ kc0, LOOPAES_parse_keyfile B M hdr n vk0 hash kc0 buffer =
      ((hash_keys B M hdr vk0 hash (buffer.map remove_eol)
          (scan_keys (buffer.map remove_eol) LOOPAES_KEYS_MAX 0 []).1
          (scan_keys (buffer.map remove_eol) LOOPAES_KEYS_MAX 0 []).1.length n).1,
        (hash_keys B M hdr vk0 hash (buffer.map remove_eol)
          (scan_keys (buffer.map remove_eol) LOOPAES_KEYS_MAX 0 []).1
          (scan_keys (buffer.map remove_eol) LOOPAES_KEYS_MAX 0 []).1.length n).2,
        (scan_keys (buffer.map remove_eol) LOOPAES_KEYS_MAX 0 []).1.length) := by
  unfold LOOPAES_parse_keyfile at hreach
  by_cases hl0 : buffer.length = 0
  · rw [if_pos hl0] at hreach
    exact absurd rfl hreach
  simp only [hl0, ↓reduceIte] at hreach
  by_cases hg : (keyfile_is_gpg buffer).1 ≠ 0
  · rw [if_pos hg] at hreach
    exact absurd rfl hreach
  rw [if_neg hg] at hreach
  simp only [keyfile_is_gpg_buffer] at hreach
  have hrej := ite_count_ne hreach rfl
  have hall : ∀ kc0, LOOPAES_parse_keyfile B M hdr n vk0 hash kc0 buffer =
      ((hash_keys B M hdr vk0 hash (buffer.map remove_eol)
          (scan_keys (buffer.map remove_eol) LOOPAES_KEYS_MAX 0 []).1
          (scan_keys (buffer.map remove_eol) LOOPAES_KEYS_MAX 0 []).1.length n).1,
        (hash_keys B M hdr vk0 hash (buffer.map remove_eol)
          (scan_keys (buffer.map remove_eol) LOOPAES_KEYS_MAX 0 []).1
          (scan_keys (buffer.map remove_eol) LOOPAES_KEYS_MAX 0 []).1.length n).2,
        (scan_keys (buffer.map remove_eol) LOOPAES_KEYS_MAX 0 []).1.length) := by
    intro kc0
    unfold LOOPAES_parse_keyfile
    simp only [hl0, ↓reduceIte, if_neg hg, keyfile_is_gpg_buffer]
    rw [if_neg hrej]
  generalize scan_keys (List.map remove_eol buffer) LOOPAES_KEYS_MAX 0 [] = sc at hrej hall ⊢
  simp only [not_or, not_and_or, not_not, ne_eq] at hrej
  obtain ⟨_, hlen, hcount⟩ := hrej
  have hK : sc.1.length ≠ 0 := by omega
  refine ⟨hK, ?_, hcount, hall⟩
  intro h0
  apply hlen
  simp only [h0, ite_self]

/-- C27: for a key file that passes the checks of `LOOPAES_parse_keyfile` (it
stores `*keys_count`), with a hash name given or chosen for the key length
`n ≠ 0` and the volume key allocated; `keys` are the pointers to the records
and each record is hashed by `hash_key`. If `hash_key` returns a negative code for
a record, the call returns a negative code, `*vk` is null, and the volume key
was handed to `crypt_free_volume_key`, which zeroed its `keylength` key bytes and
released it. If `hash_key` returns no negative code, the call returns a
non-negative code and the volume key, and nothing is released: a volume key
is returned only when no record failed. -/
theorem LOOPAES_parse_keyfile_hash_failure {σ : Type} (B : HashBackend σ) (M : Heap)
    (hdr n : Nat) (vk0 : Option volume_key) (hash : Option (List Nat)) (kc0 : Nat)
    (buffer buf keys hname block : List Nat)
    (hbuf : buf = buffer.map remove_eol)
    (hkeys : keys = (scan_keys buf LOOPAES_KEYS_MAX 0 []).1)
    (hname_eq : hash = some hname ∨ (hash = none ∧ get_hash n = some hname))
    (hn : n ≠ 0)
    (hreach : (LOOPAES_parse_keyfile B M hdr n vk0 hash 0 buffer).2.2 ≠ 0)
    (hb : M.malloc (hdr + (n * keys.length) % 2 ^ 32) = some block) :
    ((∃ k ∈ keys, (hash_key B (buf.drop k) (strlen_at buf (keys.getD 0 0)) n hname).1 < 0) →
      (LOOPAES_parse_keyfile B M hdr n vk0 hash kc0 buffer).1 < 0 ∧
      (LOOPAES_parse_keyfile B M hdr n vk0 hash kc0 buffer).2.1 = none ∧
      ∃ z, hash_keys_freed B M hdr hash buf keys keys.length n = some ⟨0, z⟩ ∧
        z.take ((n * keys.length) % 2 ^ 32) =
          List.replicate ((n * keys.length) % 2 ^ 32) 0) ∧
    ((∀ k ∈ keys, 0 ≤ (hash_key B (buf.drop k) (strlen_at buf (keys.getD 0 0)) n hname).1) →
      0 ≤ (LOOPAES_parse_keyfile B M hdr n vk0 hash kc0 buffer).1 ∧
      (∃ key, (LOOPAES_parse_keyfile B M hdr n vk0 hash kc0 buffer).2.1 =
        some ⟨(n * keys.length) % 2 ^ 32, key⟩) ∧
      hash_keys_freed B M hdr hash buf keys keys.length n = none) ∧
    (keys.length = 1 ∨ keys.length = 64 ∨ keys.length = 65) := by
  subst hbuf
  subst hkeys
  obtain ⟨hK, hL, hcount, hres⟩ := LOOPAES_parse_keyfile_reached B M hdr n vk0 hash buffer hreach
  have hf := hash_keys_failure B M hdr vk0 hash (buffer.map remove_eol)
    (scan_keys (buffer.map remove_eol) LOOPAES_KEYS_MAX 0 []).1 n hname block hname_eq hn hK hL hb
  rw [hres kc0]
  exact ⟨hf.1, hf.2, hcount⟩

theorem LOOPAES_parse_keyfile_hash_failure_witness :
    (LOOPAES_parse_keyfile (gcrypt_backend demoLib) demoHeap 8 8 none (some (ascii "demo")) 0
        (ascii "secret\n")).1 = -22 ∧
    (LOOPAES_parse_keyfile (gcrypt_backend demoLib) demoHeap 8 8 none (some (ascii "demo")) 0
        (ascii "secret\n")).2.1 = none ∧
    hash_keys_freed (gcrypt_backend demoLib) demoHeap 8 (some (ascii "demo"))
      (ascii "secret" ++ [0]) [0] 1 8 = some ⟨0, List.replicate 8 0⟩ ∧
    LOOPAES_parse_keyfile (gcrypt_backend demoLib) demoHeap 8 4 none (some (ascii "nohash")) 0
        (ascii "secret\n") = (-22, none, 1) :=
  have h := (LOOPAES_parse_keyfile_hash_failure (gcrypt_backend demoLib) demoHeap 8 8 none
    (some (ascii "demo")) 0 (ascii "secret\n") (ascii "secret" ++ [0]) [0] (ascii "demo")
    (List.replicate 16 0xAA) (by decide) (by decide) (Or.inl rfl) (by decide) (by decide)
    rfl).1 ⟨0, by decide, by decide⟩
  ⟨by decide, h.2.1, by decide, by decide⟩

/-! ## Reading back the table line of `get_params` -/

theorem takeWhile_all (p : Nat → Bool) (A : List Nat) (hA : ∀ c ∈ A, p c = true) :
    A.takeWhile p = A := by
  induction A with
  | nil => rfl
  | cons a A ih =>
    rw [List.takeWhile_cons, hA a (List.mem_cons_self _ _)]
    simp only [↓reduceIte, List.cons.injEq, true_and]
    exact ih (fun c hc => hA c (List.mem_cons_of_mem _ hc))

/-- The last token: `strsep` returns it and leaves a null pointer. -/
theorem strsep_last (A : List Nat) (hA : ∀ c ∈ A, c ≠ 32) : strsep A = (A, none) := by
  have ht : A.takeWhile (fun c => c != 32) = A :=
    takeWhile_all _ A (fun c hc => by simpa using hA c hc)
  unfold strsep
  simp only [ht, lt_self_iff_false, ↓reduceIte]

/-- The hypothesis on the allocation of `key_size` bytes matters for the empty key
only through the allocator: with one that returns `NULL` for a request of zero
bytes, the line of the empty key is read back with `-ENOMEM` and a null `*key`. -/
theorem dm_query_device_empty_key_alloc :
    (get_params ⟨fun n => if n = 0 then none else some (List.replicate n 0xAA)⟩
      (ascii "/dev/sda") 0 2048 (ascii "aes") 0 []).map
      (fun p => dm_query_device_params
        ⟨fun n => if n = 0 then none else some (List.replicate n 0xAA)⟩ id (cstr p)) =
      some (some (-12), ⟨some (ascii "aes"), some 0, some (ascii "/dev/sda"), some 2048,
        some 0, none⟩) := by
  decide

end Cryptsetup
